import Mathlib

/-!
# vector-sync: the content-addressed directory tree and its diff

A shallow embedding of `vector-sync/internal` (`utils.go`, `node.go`, `tree.go`
and the tree-facing part of `sync.go`) and of the start of the server tree in `main.go`.

Modelling conventions.

* A Go `string` is a Lean `String`; all reasoning goes through its character list.
  The only byte the code inspects is the ASCII separator `/`.
* A Go `[]byte` is a `List Nat` of byte values, a possibly-nil `[]byte` an `Option`.
* A Go `map[string]*T` is an association list `List (String × T)`; the code never
  stores two entries under one key, and `mapSet`/`mapDelete` keep it that way.
* Pointer mutation becomes a function from the old tree to the new tree.
* Go leaves the order of a `range` over a map unspecified, and it may change from
  one loop to the next.  The only place where that order reaches a result is the
  string that `calculateNodeHash` concatenates, so that function takes the order in
  which the loop visits the entries as a parameter (`RangeOrder`).  The diff emits
  its entries in the order of the association list; every statement about it is
  about all lists, hence about every order.
* `context.Context` is taken as never cancelled.
* A call is one function application: goroutines, channels and mutexes have no
  counterpart here, and nothing is stated about interleavings.
-/

namespace VectorSync

/-! ## `crypto/sha256` and `encoding/hex` (library code, modelled on 32-bit words as `Nat`) -/

namespace Sha256

/-- The 64 round constants (the cube roots of the first 64 primes, 32 fraction bits). -/
def K : List Nat := [
  1116352408, 1899447441, 3049323471, 3921009573, 961987163, 1508970993,
  2453635748, 2870763221, 3624381080, 310598401, 607225278, 1426881987,
  1925078388, 2162078206, 2614888103, 3248222580, 3835390401, 4022224774,
  264347078, 604807628, 770255983, 1249150122, 1555081692, 1996064986,
  2554220882, 2821834349, 2952996808, 3210313671, 3336571891, 3584528711,
  113926993, 338241895, 666307205, 773529912, 1294757372, 1396182291,
  1695183700, 1986661051, 2177026350, 2456956037, 2730485921, 2820302411,
  3259730800, 3345764771, 3516065817, 3600352804, 4094571909, 275423344,
  430227734, 506948616, 659060556, 883997877, 958139571, 1322822218,
  1537002063, 1747873779, 1955562222, 2024104815, 2227730452, 2361852424,
  2428436474, 2756734187, 3204031479, 3329325298]

/-- The initial hash value (the square roots of the first 8 primes, 32 fraction bits). -/
def H0 : List Nat :=
  [1779033703, 3144134277, 1013904242, 2773480762,
   1359893119, 2600822924, 528734635, 1541459225]

def rotr (x n : Nat) : Nat := ((x >>> n) ||| (x <<< (32 - n))) % 2 ^ 32

def add32 (a b : Nat) : Nat := (a + b) % 2 ^ 32

def not32 (a : Nat) : Nat := 2 ^ 32 - 1 - a

/-- Padding: the byte 0x80, zero bytes up to 56 modulo 64, the bit length on 8 bytes. -/
def pad (msg : List Nat) : List Nat :=
  msg ++ [128] ++ List.replicate ((55 + 64 - msg.length % 64) % 64) 0
    ++ (List.range 8).map (fun i => ((8 * msg.length) >>> (8 * (7 - i))) % 256)

def word (b : List Nat) : Nat := b.foldl (fun acc x => acc * 256 + x) 0

def words : Nat → List Nat → List Nat
  | 0, _ => []
  | n + 1, b => word (b.take 4) :: words n (b.drop 4)

def ssig0 (x : Nat) : Nat := rotr x 7 ^^^ rotr x 18 ^^^ (x >>> 3)

def ssig1 (x : Nat) : Nat := rotr x 17 ^^^ rotr x 19 ^^^ (x >>> 10)

def bsig0 (x : Nat) : Nat := rotr x 2 ^^^ rotr x 13 ^^^ rotr x 22

def bsig1 (x : Nat) : Nat := rotr x 6 ^^^ rotr x 11 ^^^ rotr x 25

def ch (x y z : Nat) : Nat := (x &&& y) ^^^ (not32 x &&& z)

def maj (x y z : Nat) : Nat := (x &&& y) ^^^ (x &&& z) ^^^ (y &&& z)

/-- Message schedule, kept reversed: the head is the most recent word. -/
def extend : Nat → List Nat → List Nat
  | 0, w => w
  | n + 1, w =>
    extend n (add32 (add32 (ssig1 (w.getD 1 0)) (w.getD 6 0))
      (add32 (ssig0 (w.getD 14 0)) (w.getD 15 0)) :: w)

def round (s : List Nat) (kw : Nat × Nat) : List Nat :=
  match s with
  | [a, b, c, d, e, f, g, h] =>
    let t1 := add32 (add32 (add32 h (bsig1 e)) (add32 (ch e f g) kw.1)) kw.2
    let t2 := add32 (bsig0 a) (maj a b c)
    [add32 t1 t2, a, b, c, add32 d t1, e, f, g]
  | _ => s

def compress (h : List Nat) (block : List Nat) : List Nat :=
  List.zipWith add32 h ((K.zip (extend 48 (words 16 block).reverse).reverse).foldl round h)

def blocks : Nat → List Nat → List Nat → List Nat
  | 0, h, _ => h
  | n + 1, h, m => blocks n (compress h (m.take 64)) (m.drop 64)

/-- The digest `sha256.Sum256(msg)` as 32 bytes. -/
def sum256 (msg : List Nat) : List Nat :=
  (blocks ((pad msg).length / 64) H0 (pad msg)).flatMap
    (fun w => (List.range 4).map (fun i => (w >>> (8 * (3 - i))) % 256))

def hexDigit (n : Nat) : Char := "0123456789abcdef".data.getD n '0'

/-- Lower-case hexadecimal, as `hex.EncodeToString`. -/
def hexEncode (b : List Nat) : String :=
  ⟨b.flatMap (fun x => [hexDigit (x / 16), hexDigit (x % 16)])⟩

end Sha256

/-- The conversion `[]byte(s)`: the UTF-8 bytes of a string. -/
def stringBytes (s : String) : List Nat :=
  s.data.flatMap (fun c => (String.utf8EncodeChar c).map UInt8.toNat)

/-! ## `utils.go` -/

/-- `CalculateHash`: the hexadecimal SHA-256 digest of the data. -/
def CalculateHash (data : List Nat) : String :=
  Sha256.hexEncode (Sha256.sum256 data)

/-- `strings.Split(s, "/")` on the characters of `s`: never empty, one more piece than
there are separators. -/
def stringsSplit : List Char → List (List Char)
  | [] => [[]]
  | c :: cs =>
    if c = '/' then [] :: stringsSplit cs
    else
      match stringsSplit cs with
      | [] => [[c]]
      | s :: ss => (c :: s) :: ss

/-- The loop body of `SplitPath`: every piece but the last gets the separator appended. -/
def tagSegments : List String → List String
  | [] => []
  | [s] => [s]
  | s :: t :: rest => (s ++ "/") :: tagSegments (t :: rest)

/-- `SplitPath`. -/
def SplitPath (path : String) : List String :=
  tagSegments ((stringsSplit path.data).map String.mk)

/-! ## `node.go` -/

/-- `TreeNode`: `Hash`, `Name` and the `Children` map. -/
inductive TreeNode where
  | mk (Hash : String) (Name : String) (Children : List (String × TreeNode))

namespace TreeNode

def Hash : TreeNode → String
  | mk h _ _ => h

def Name : TreeNode → String
  | mk _ n _ => n

def Children : TreeNode → List (String × TreeNode)
  | mk _ _ cs => cs

/-- Assignment to the `Hash` field. -/
def setHash (h : String) : TreeNode → TreeNode
  | mk _ n cs => mk h n cs

/-- Assignment to the `Children` field. -/
def setChildren (cs : List (String × TreeNode)) : TreeNode → TreeNode
  | mk h n _ => mk h n cs

end TreeNode

/-- The test of `IsDir` on a name: non-empty and ending in the separator. -/
def nameIsDir (name : String) : Bool :=
  name.data.getLast? == some '/'

/-- `TreeNode.IsDir`. -/
def TreeNode.IsDir (n : TreeNode) : Bool :=
  nameIsDir n.Name

/-- `NewTreeNode`: a node with an empty `Children` map. -/
def NewTreeNode (hash name : String) : TreeNode :=
  TreeNode.mk hash name []

/-! ## Go maps as association lists -/

/-- The lookup `m[k]` with its `exists` flag. -/
def mapGet {β : Type} (k : String) : List (String × β) → Option β
  | [] => none
  | (k', v) :: rest => if k' = k then some v else mapGet k rest

/-- The assignment `m[k] = v`. -/
def mapSet {β : Type} (k : String) (v : β) : List (String × β) → List (String × β)
  | [] => [(k, v)]
  | (k', v') :: rest => if k' = k then (k, v) :: rest else (k', v') :: mapSet k v rest

/-- The builtin `delete(m, k)`. -/
def mapDelete {β : Type} (k : String) (m : List (String × β)) : List (String × β) :=
  m.filter (fun e => decide (e.1 ≠ k))

/-! ## `tree.go` -/

/-- `Tree`. -/
structure Tree where
  Root : TreeNode

inductive DiffType where
  | Added
  | Removed
  | Modified
deriving DecidableEq, Repr

/-- `TreeDiff`; the field `Type` of the source is called `Kind` here. -/
structure TreeDiff where
  Kind : DiffType
  Path : String
deriving DecidableEq, Repr

/-- `strings.TrimSuffix(s, "/")`. -/
def trimSuffixSlash (s : String) : String :=
  if s.data.getLast? = some '/' then ⟨s.data.dropLast⟩ else s

/-- `NewTree`. -/
def NewTree (rootHash relativePath : String) : Tree :=
  ⟨NewTreeNode rootHash (trimSuffixSlash relativePath ++ "/")⟩

/-- The order in which one `range` loop visits the entries of a map: some rearrangement
of the entries. -/
structure RangeOrder where
  visit : List (String × TreeNode) → List (String × TreeNode)
  perm : ∀ l, (visit l).Perm l

/-- The loop visits the entries as the association list stores them. -/
def RangeOrder.stored : RangeOrder :=
  ⟨fun l => l, fun l => List.Perm.refl l⟩

/-- The loop visits the entries back to front. -/
def RangeOrder.reversed : RangeOrder :=
  ⟨List.reverse, List.reverse_perm⟩

/-- The test `child.IsDir() && len(child.Children) == 0` of `calculateNodeHash`. -/
def isEmptyDir (n : TreeNode) : Bool :=
  n.IsDir && n.Children.isEmpty

mutual
/-- `calculateNodeHash`: the node after the pass; the value the source returns is its `Hash`.
Each child is processed on its own, so the visiting order only shows in the concatenation. -/
def calculateNodeHash (ord : RangeOrder) : TreeNode → TreeNode
  | .mk h n cs =>
    if nameIsDir n then
      .mk (CalculateHash (stringBytes (String.join
          ((ord.visit ((calculateChildren ord cs).filter (fun e => !isEmptyDir e.2))).map
            (fun e => e.2.Hash)))))
        n ((calculateChildren ord cs).filter (fun e => !isEmptyDir e.2))
    else .mk h n cs
/-- The recursive calls of `calculateNodeHash` on the children of a node. -/
def calculateChildren (ord : RangeOrder) : List (String × TreeNode) → List (String × TreeNode)
  | [] => []
  | (k, c) :: rest => (k, calculateNodeHash ord c) :: calculateChildren ord rest
end

/-- `CalculateDirectoryHashes`: the tree after the pass; the source returns its root hash. -/
def CalculateDirectoryHashes (ord : RangeOrder) (t : Tree) : Tree :=
  ⟨calculateNodeHash ord t.Root⟩

/-- One iteration of the loop of `AddNode`: the entry `current.Children[segment]` as the
iteration leaves it, created when it was missing, its hash updated when it is the file. -/
def addStep (content : Option (List Nat)) (isLast : Bool) (segment : String)
    (current : TreeNode) : TreeNode :=
  match mapGet segment current.Children with
  | none =>
    if isLast && content.isSome then NewTreeNode (CalculateHash (content.getD [])) segment
    else NewTreeNode "" segment
  | some child =>
    if isLast && content.isSome then child.setHash (CalculateHash (content.getD []))
    else child

/-- The loop of `AddNode` from the node `current` on, over the segments still to visit.
The index test `i == len(segments)-1` is `rest.isEmpty`. -/
def addSegments (content : Option (List Nat)) : List String → TreeNode → TreeNode
  | [], current => current
  | segment :: rest, current =>
    if segment = "" then addSegments content rest current
    else
      current.setChildren (mapSet segment
        (addSegments content rest (addStep content rest.isEmpty segment current))
        current.Children)

/-- `Tree.AddNode`; `ord` is the visiting order of the hash pass that ends it. -/
def AddNode (ord : RangeOrder) (t : Tree) (path : String) (content : Option (List Nat)) : Tree :=
  CalculateDirectoryHashes ord ⟨addSegments content (SplitPath path) t.Root⟩

/-- The loop of `RemoveNode` from the node `current` on. -/
def removeSegments : List String → TreeNode → TreeNode
  | [], current => current
  | segment :: rest, current =>
    if segment = "" then removeSegments rest current
    else
      match mapGet segment current.Children with
      | some child =>
        if rest.isEmpty then current.setChildren (mapDelete segment current.Children)
        else current.setChildren (mapSet segment (removeSegments rest child) current.Children)
      | none => current

/-- `Tree.RemoveNode`. -/
def RemoveNode (ord : RangeOrder) (t : Tree) (path : String) : Tree :=
  CalculateDirectoryHashes ord ⟨removeSegments (SplitPath path) t.Root⟩

/-- `SerializableNode`. -/
inductive SerializableNode where
  | mk (Name : String) (Hash : String) (Children : List (String × SerializableNode))

namespace SerializableNode

def Name : SerializableNode → String
  | mk n _ _ => n

def Hash : SerializableNode → String
  | mk _ h _ => h

def Children : SerializableNode → List (String × SerializableNode)
  | mk _ _ cs => cs

end SerializableNode

mutual
/-- `convertToSerializable`. -/
def convertToSerializable : TreeNode → SerializableNode
  | .mk h n cs => .mk n h (convertChildren cs [])
/-- The loop of `convertToSerializable`: `acc` is the map filled so far. -/
def convertChildren :
    List (String × TreeNode) → List (String × SerializableNode) → List (String × SerializableNode)
  | [], acc => acc
  | (_, child) :: rest, acc =>
    convertChildren rest (mapSet child.Name (convertToSerializable child) acc)
end

mutual
/-- `buildFromSerializable`. -/
def buildFromSerializable : SerializableNode → TreeNode
  | .mk n h cs => .mk h n (buildChildren cs [])
/-- The loop of `buildFromSerializable`: `acc` is the map filled so far. -/
def buildChildren :
    List (String × SerializableNode) → List (String × TreeNode) → List (String × TreeNode)
  | [], acc => acc
  | (_, child) :: rest, acc =>
    buildChildren rest (mapSet child.Name (buildFromSerializable child) acc)
end

/-- The document `SaveToJSON` writes: one entry, the root under its name. -/
def snapshotOf (t : Tree) : List (String × SerializableNode) :=
  [(t.Root.Name, convertToSerializable t.Root)]

/-- What `LoadTreeFromJSON` finds on disk. -/
inductive SnapshotFile where
  | missing
  | malformed
  | parsed (jsonData : List (String × SerializableNode))

/-- `LoadTreeFromJSON`: the error it returns, or the tree it leaves. -/
def LoadTreeFromJSON (ord : RangeOrder) (t : Tree) : SnapshotFile → Except String Tree
  | .missing => .ok ⟨NewTreeNode "" t.Root.Name⟩
  | .malformed => .error "json: cannot unmarshal"
  | .parsed jsonData =>
    match mapGet t.Root.Name jsonData with
    | none => .ok ⟨NewTreeNode "" t.Root.Name⟩
    | some sNode => .ok (CalculateDirectoryHashes ord ⟨buildFromSerializable sNode⟩)

/-- The tree the receiver of `LoadTreeFromJSON` holds when the call is over: the method
assigns `t.Root` on the paths that return nil, and returns the error of `json.Unmarshal`
before any assignment. -/
def treeAfterLoad (ord : RangeOrder) (t : Tree) (file : SnapshotFile) : Tree :=
  match LoadTreeFromJSON ord t file with
  | .ok loaded => loaded
  | .error _ => t

/-- The second loop of `compareNodes`: a `Removed` for every name of `other` that
`current` lacks. -/
def removedDiffs (currentChildren otherChildren : List (String × TreeNode))
    (currentPath : String) : List TreeDiff :=
  otherChildren.filterMap (fun e =>
    if (mapGet e.1 currentChildren).isSome then none
    else some ⟨DiffType.Removed, currentPath ++ e.1⟩)

mutual
/-- `compareNodes`: the diffs it sends, in the order it sends them. -/
def compareNodes : TreeNode → TreeNode → String → List TreeDiff
  | .mk _ _ cs, otherNode, currentPath =>
    compareChildren cs otherNode currentPath ++ removedDiffs cs otherNode.Children currentPath
/-- The first loop of `compareNodes` over the children of `currentNode`. -/
def compareChildren : List (String × TreeNode) → TreeNode → String → List TreeDiff
  | [], _, _ => []
  | (name, currentChild) :: rest, otherNode, currentPath =>
    (match mapGet name otherNode.Children with
     | some otherChild =>
       if currentChild.IsDir && otherChild.IsDir then
         compareNodes currentChild otherChild (currentPath ++ name)
       else if !currentChild.IsDir && !otherChild.IsDir then
         if currentChild.Hash ≠ otherChild.Hash then
           [⟨DiffType.Modified, currentPath ++ name⟩]
         else []
       else [⟨DiffType.Modified, currentPath ++ name⟩]
     | none =>
       if currentChild.IsDir then compareNodes currentChild otherNode (currentPath ++ name)
       else [⟨DiffType.Added, currentPath ++ name⟩])
    ++ compareChildren rest otherNode currentPath
end

/-- `CompareAndBuildDiff`: everything sent on the channel before it is closed. -/
def CompareAndBuildDiff (t other : Tree) : List TreeDiff :=
  compareNodes t.Root other.Root t.Root.Name

/-! ## `sync.go` -/

/-- `strings.Replace(s, old, "", 1)`: the first occurrence of `old` removed. -/
def stringsRemoveFirst (old : List Char) : List Char → List Char
  | [] => []
  | c :: cs =>
    if old.isPrefixOf (c :: cs) then (c :: cs).drop old.length
    else c :: stringsRemoveFirst old cs

/-- `Synchronizer.getRelativePath`. -/
def getRelativePath (serverTree : Tree) (path : String) : String :=
  ⟨stringsRemoveFirst serverTree.Root.Name.data path.data⟩

/-- What a handler meets outside the tree: the file contents and the outcome of
`vectorDb.Upsert` for a path. -/
structure Outside where
  readFile : String → Option (List Nat)
  upsertOk : String → Bool

/-- `Synchronizer.handleFileAdd`: the server tree it leaves. -/
def handleFileAdd (ord : RangeOrder) (w : Outside) (serverTree : Tree) (path : String) : Tree :=
  match w.readFile path with
  | none => serverTree
  | some content =>
    if w.upsertOk path then AddNode ord serverTree (getRelativePath serverTree path) (some content)
    else serverTree

/-- `Synchronizer.handleFileRemove`. -/
def handleFileRemove (ord : RangeOrder) (serverTree : Tree) (path : String) : Tree :=
  RemoveNode ord serverTree (getRelativePath serverTree path)

/-- `Synchronizer.handleDiff`. -/
def handleDiff (ord : RangeOrder) (w : Outside) (serverTree : Tree) (diff : TreeDiff) : Tree :=
  match diff.Kind with
  | .Added => handleFileAdd ord w serverTree diff.Path
  | .Removed => handleFileRemove ord serverTree diff.Path
  | .Modified => handleFileAdd ord w serverTree diff.Path

/-! ## `main.go` -/

/-- The server tree `main` gives to the synchronizer: `NewTree("", config.NotesDir)`, then
`serverTree.LoadTreeFromJSON("server.json")`, whose returned error `main` does not read. -/
def mainServerTree (ord : RangeOrder) (notesDir : String) (file : SnapshotFile) : Tree :=
  treeAfterLoad ord (NewTree "" notesDir) file

/-! ## Vocabulary of the statements -/

/-- The node reached from `n` by following the keys of `path` through the `Children` maps. -/
def nodeAt : TreeNode → List String → Option TreeNode
  | n, [] => some n
  | n, k :: rest =>
    match mapGet k n.Children with
    | none => none
    | some c => nodeAt c rest

/-- A tree filled by `AddNode` from a list of (path, content) pairs, first pair first. -/
def buildFrom (ord : RangeOrder) (root : String) (pairs : List (String × List Nat)) : Tree :=
  pairs.foldl (fun t p => AddNode ord t p.1 (some p.2)) (NewTree "" root)

/-- The string a list of keys spells: the keys one after the other. -/
def joinKeys : List String → String
  | [] => ""
  | k :: rest => k ++ joinKeys rest

/-- A key as `SplitPath` makes them: not empty, and no separator before its last character. -/
def keyOk (k : String) : Bool :=
  k != "" && !k.data.dropLast.contains '/'

/-- A list of segments as `SplitPath` makes them: every segment but the last is a
directory key, the last one holds no separator. -/
def segsOk : List String → Bool
  | [] => true
  | [s] => !s.data.contains '/'
  | s :: t :: rest => nameIsDir s && keyOk s && segsOk (t :: rest)

/-- No key occurs twice in the association list. -/
def nodupKeys {β : Type} : List (String × β) → Bool
  | [] => true
  | (k, _) :: rest => (mapGet k rest).isNone && nodupKeys rest

mutual
/-- The shape every node made by `NewTreeNode`, `AddNode` and `RemoveNode` has: only a node
with a directory name has children, every child is stored under its own name, the keys are
keys of `SplitPath` and pairwise different. -/
def wfNode : TreeNode → Bool
  | .mk _ n cs => (cs.isEmpty || nameIsDir n) && wfChildren cs
/-- The part of `wfNode` about a `Children` map. -/
def wfChildren : List (String × TreeNode) → Bool
  | [] => true
  | (k, c) :: rest =>
    (c.Name == k) && keyOk k && (mapGet k rest).isNone && wfNode c && wfChildren rest
end

/-- A well-formed tree: the root has a directory name, as `NewTree` gives it, and every
node has the shape `wfNode`. -/
def Tree.WF (t : Tree) : Prop :=
  nameIsDir t.Root.Name = true ∧ wfNode t.Root = true

instance (t : Tree) : Decidable t.WF :=
  inferInstanceAs (Decidable (_ ∧ _))

mutual
/-- A node the hash pass keeps: a file, or a directory with a kept node in it. -/
def survives : TreeNode → Bool
  | .mk _ n cs => !nameIsDir n || anySurvives cs
/-- Some entry of the map is kept by the hash pass. -/
def anySurvives : List (String × TreeNode) → Bool
  | [] => false
  | (_, c) :: rest => survives c || anySurvives rest
end

mutual
/-- No directory below the node is left without children. -/
def prunedNode : TreeNode → Bool
  | .mk _ _ cs => prunedChildren cs
/-- The part of `prunedNode` about a `Children` map. -/
def prunedChildren : List (String × TreeNode) → Bool
  | [] => true
  | (_, c) :: rest => !isEmptyDir c && prunedNode c && prunedChildren rest
end

/-- The children a directory keeps in `calculateNodeHash`: the processed children that
are not empty directories. -/
def keptChildren (ord : RangeOrder) (cs : List (String × TreeNode)) : List (String × TreeNode) :=
  (calculateChildren ord cs).filter (fun e => !isEmptyDir e.2)

/-- A file at the key path `q`: a node whose name is not a directory name. -/
def fileAt (t : Tree) (q : List String) : Prop :=
  ∃ n, nodeAt t.Root q = some n ∧ n.IsDir = false

/-- The second loop of `compareNodes` on key paths. -/
def removedKeys (currentChildren otherChildren : List (String × TreeNode)) :
    List (DiffType × List String) :=
  otherChildren.filterMap (fun e =>
    if (mapGet e.1 currentChildren).isSome then none else some (DiffType.Removed, [e.1]))

mutual
/-- The diffs of `compareNodes` with the key path from `currentNode` in place of the path
string: `compareNodes` sends the diff with path `currentPath ++ joinKeys q` for the entry
with key path `q`. -/
def diffKeys : TreeNode → TreeNode → List (DiffType × List String)
  | .mk _ _ cs, otherNode => diffKeysChildren cs otherNode ++ removedKeys cs otherNode.Children
/-- The first loop of `compareNodes` on key paths. -/
def diffKeysChildren : List (String × TreeNode) → TreeNode → List (DiffType × List String)
  | [], _ => []
  | (name, currentChild) :: rest, otherNode =>
    (match mapGet name otherNode.Children with
     | some otherChild =>
       if currentChild.IsDir && otherChild.IsDir then
         (diffKeys currentChild otherChild).map (fun e => (e.1, name :: e.2))
       else if !currentChild.IsDir && !otherChild.IsDir then
         if currentChild.Hash ≠ otherChild.Hash then [(DiffType.Modified, [name])] else []
       else [(DiffType.Modified, [name])]
     | none =>
       if currentChild.IsDir then
         (diffKeys currentChild otherNode).map (fun e => (e.1, name :: e.2))
       else [(DiffType.Added, [name])])
    ++ diffKeysChildren rest otherNode
end

/-- The diff `compareNodes` sends for the entry with key path `q` under `currentPath`. -/
def toDiff (currentPath : String) (e : DiffType × List String) : TreeDiff :=
  ⟨e.1, currentPath ++ joinKeys e.2⟩

/-- A key path whose keys are keys of `SplitPath`: not empty, every key but the last a
directory key. -/
def keyPathOk : List String → Bool
  | [] => false
  | [k] => keyOk k
  | k :: k₂ :: rest => nameIsDir k && keyOk k && keyPathOk (k₂ :: rest)

mutual
/-- Every directory below `current` has a directory at the same key path below `other`. -/
def dirsWithin : TreeNode → TreeNode → Bool
  | .mk _ _ cs, other => dirsWithinChildren cs other
/-- The part of `dirsWithin` about a `Children` map. -/
def dirsWithinChildren : List (String × TreeNode) → TreeNode → Bool
  | [], _ => true
  | (k, c) :: rest, other =>
    (!c.IsDir ||
      (match mapGet k other.Children with
       | some o => dirsWithin c o
       | none => false))
    && dirsWithinChildren rest other
end

/-- The diffs the first loop of `compareNodes` sends for one entry of `currentNode`, on
key paths. -/
def entryKeys (name : String) (currentChild otherNode : TreeNode) :
    List (DiffType × List String) :=
  match mapGet name otherNode.Children with
  | some otherChild =>
    if currentChild.IsDir && otherChild.IsDir then
      (diffKeys currentChild otherChild).map (fun e => (e.1, name :: e.2))
    else if !currentChild.IsDir && !otherChild.IsDir then
      if currentChild.Hash ≠ otherChild.Hash then [(DiffType.Modified, [name])] else []
    else [(DiffType.Modified, [name])]
  | none =>
    if currentChild.IsDir then
      (diffKeys currentChild otherNode).map (fun e => (e.1, name :: e.2))
    else [(DiffType.Added, [name])]

/-- What a diff of kind `ty` at the key path `q` below a paired couple of nodes stands for:
a file of `cur` that `oth` lacks, a file of both with two hashes, or an entry of `oth`
that `cur` lacks while it has the directory around it. -/
def Explains (cur oth : TreeNode) (ty : DiffType) (q : List String) : Prop :=
  q ≠ [] ∧
    ((ty = DiffType.Added ∧ (∃ n, nodeAt cur q = some n ∧ n.IsDir = false)
        ∧ nodeAt oth q = none)
      ∨ (ty = DiffType.Modified ∧ ∃ n₂ n₁, nodeAt cur q = some n₂ ∧ nodeAt oth q = some n₁
          ∧ n₂.IsDir = false ∧ n₂.Hash ≠ n₁.Hash)
      ∨ (ty = DiffType.Removed ∧ nodeAt cur q = none ∧ (nodeAt oth q).isSome = true
          ∧ (nodeAt cur q.dropLast).isSome = true))

mutual
/-- The node with the hash of every directory below it, and its own when it is a directory,
blanked: what is left is the names, the structure and the hashes of the files. -/
def shape : TreeNode → TreeNode
  | .mk h n cs => .mk (if nameIsDir n then "" else h) n (shapeChildren cs)
/-- The part of `shape` about a `Children` map. -/
def shapeChildren : List (String × TreeNode) → List (String × TreeNode)
  | [] => []
  | (k, c) :: rest => (k, shape c) :: shapeChildren rest
end

/-- The trees the program holds: what `NewTree` makes and `AddNode` and `RemoveNode` leave,
with any visiting order of their hash passes. -/
inductive Built : Tree → Prop where
  | new (rootHash relativePath : String) : Built (NewTree rootHash relativePath)
  | add (ord : RangeOrder) (t : Tree) (path : String) (content : Option (List Nat)) :
      Built t → Built (AddNode ord t path content)
  | remove (ord : RangeOrder) (t : Tree) (path : String) :
      Built t → Built (RemoveNode ord t path)

/-- The hash of the file at the key path `q` below `n`, when there is a file. -/
def fileHashAt (n : TreeNode) (q : List String) : Option String :=
  match nodeAt n q with
  | some m => if m.IsDir then none else some m.Hash
  | none => none

/-- What a node set records of a node: its name and, for a file, its hash. -/
def view (n : TreeNode) : String × Option String :=
  (n.Name, if n.IsDir then none else some n.Hash)

/-- Two trees hold the same nodes: at every key path both have no node, or both have a node
with the same name that is a file with the same hash in both or a directory in both. -/
def SameNodes (t₁ t₂ : Tree) : Prop :=
  ∀ q, (nodeAt t₁.Root q).map view = (nodeAt t₂.Root q).map view


/-! ## Concrete inputs -/

/-- The bytes of the one-letter file content "x". -/
def bytesX : List Nat := [120]

/-- The bytes of the one-letter file content "y". -/
def bytesY : List Nat := [121]

/-- The tree of the notes directory "notes" holding "a.md" and "b.md", hashed by a pass
that visits children as stored. -/
def twoFiles : Tree :=
  buildFrom RangeOrder.stored "notes" [("a.md", bytesX), ("b.md", bytesY)]

/-- The tree holding the single file "a/b/c.md". -/
def nested : Tree :=
  buildFrom RangeOrder.stored "notes" [("a/b/c.md", bytesX)]

/-- A disk holding "notes/a.md" and "notes/b.md", and a vector store that accepts
every upsert. -/
def twoFilesOutside : Outside :=
  ⟨fun path =>
      if path = "notes/a.md" then some bytesX
      else if path = "notes/b.md" then some bytesY
      else none,
    fun _ => true⟩

/-- A server-side tree holding "a.md" and "old/c.md". -/
def withOldDirectory : Tree :=
  buildFrom RangeOrder.stored "notes" [("a.md", bytesX), ("old/c.md", bytesY)]

/-- A client-side tree without directories: "a.md" with another content, and "c.md". -/
def flatClient : Tree :=
  buildFrom RangeOrder.stored "notes" [("a.md", bytesY), ("c.md", bytesX)]

/-- A disk holding "notes/a.md" and "notes/b.md", and a vector store that fails every
upsert. -/
def failingStore : Outside :=
  ⟨twoFilesOutside.readFile, fun _ => false⟩

/-- A client-side tree whose one file "c.md" is in the directory "new". -/
def underNewDirectory : Tree :=
  buildFrom RangeOrder.stored "notes" [("new/c.md", bytesX)]

/-- A server-side tree without directories: "c.md" with the content the client has, and
"d.md". -/
def flatServer : Tree :=
  buildFrom RangeOrder.stored "notes" [("c.md", bytesX), ("d.md", bytesY)]

/-- A tree in which "todo" is a file. -/
def todoFile : Tree :=
  buildFrom RangeOrder.stored "notes" [("todo", bytesX)]

/-- A tree in which "todo" is a directory, holding "item.md". -/
def todoDirectory : Tree :=
  buildFrom RangeOrder.stored "notes" [("todo/item.md", bytesY)]

/-! ## Theorems -/

/-! ### Fields, maps -/

@[simp] theorem TreeNode.Hash_mk (h n : String) (cs : List (String × TreeNode)) :
    (TreeNode.mk h n cs).Hash = h := rfl

@[simp] theorem TreeNode.Name_mk (h n : String) (cs : List (String × TreeNode)) :
    (TreeNode.mk h n cs).Name = n := rfl

@[simp] theorem TreeNode.Children_mk (h n : String) (cs : List (String × TreeNode)) :
    (TreeNode.mk h n cs).Children = cs := rfl

@[simp] theorem TreeNode.IsDir_mk (h n : String) (cs : List (String × TreeNode)) :
    (TreeNode.mk h n cs).IsDir = nameIsDir n := rfl

@[simp] theorem TreeNode.Name_setHash (h : String) (n : TreeNode) :
    (n.setHash h).Name = n.Name := by cases n; rfl

@[simp] theorem TreeNode.Children_setHash (h : String) (n : TreeNode) :
    (n.setHash h).Children = n.Children := by cases n; rfl

@[simp] theorem TreeNode.Hash_setHash (h : String) (n : TreeNode) :
    (n.setHash h).Hash = h := by cases n; rfl

@[simp] theorem TreeNode.IsDir_setHash (h : String) (n : TreeNode) :
    (n.setHash h).IsDir = n.IsDir := by cases n; rfl

@[simp] theorem TreeNode.Name_setChildren (cs : List (String × TreeNode)) (n : TreeNode) :
    (n.setChildren cs).Name = n.Name := by cases n; rfl

@[simp] theorem TreeNode.Children_setChildren (cs : List (String × TreeNode)) (n : TreeNode) :
    (n.setChildren cs).Children = cs := by cases n; rfl

@[simp] theorem TreeNode.Hash_setChildren (cs : List (String × TreeNode)) (n : TreeNode) :
    (n.setChildren cs).Hash = n.Hash := by cases n; rfl

@[simp] theorem TreeNode.IsDir_setChildren (cs : List (String × TreeNode)) (n : TreeNode) :
    (n.setChildren cs).IsDir = n.IsDir := by cases n; rfl

theorem TreeNode.eta (n : TreeNode) : TreeNode.mk n.Hash n.Name n.Children = n := by
  cases n; rfl

section maps
variable {β : Type}

@[simp] theorem mapGet_nil (k : String) : mapGet k ([] : List (String × β)) = none := rfl

theorem mapGet_cons (k k' : String) (v : β) (rest : List (String × β)) :
    mapGet k ((k', v) :: rest) = if k' = k then some v else mapGet k rest := rfl

theorem mapGet_mapSet_same (k : String) (v : β) (m : List (String × β)) :
    mapGet k (mapSet k v m) = some v := by
  induction m with
  | nil => simp [mapSet, mapGet_cons]
  | cons e rest ih =>
    obtain ⟨k', v'⟩ := e
    by_cases h : k' = k <;> simp [mapSet, mapGet_cons, h, ih]

theorem mapGet_mapSet_other (k k₁ : String) (v : β) (m : List (String × β)) (h : k₁ ≠ k) :
    mapGet k₁ (mapSet k v m) = mapGet k₁ m := by
  induction m with
  | nil => simp [mapSet, mapGet_cons, Ne.symm h]
  | cons e rest ih =>
    obtain ⟨k', v'⟩ := e
    by_cases h' : k' = k
    · subst h'
      simp [mapSet, mapGet_cons, Ne.symm h]
    · simp [mapSet, mapGet_cons, h', ih]

theorem mapGet_eq_none_iff (k : String) (m : List (String × β)) :
    mapGet k m = none ↔ ∀ e ∈ m, e.1 ≠ k := by
  induction m with
  | nil => simp
  | cons e rest ih =>
    obtain ⟨k', v'⟩ := e
    by_cases h : k' = k <;> simp [mapGet_cons, h, ih]

theorem mem_of_mapGet {k : String} {v : β} {m : List (String × β)} (h : mapGet k m = some v) :
    (k, v) ∈ m := by
  induction m with
  | nil => simp at h
  | cons e rest ih =>
    obtain ⟨k', v'⟩ := e
    by_cases h' : k' = k
    · subst h'
      simp [mapGet_cons] at h
      simp [h]
    · simp [mapGet_cons, h'] at h
      simp [ih h]

theorem mapGet_of_mem {k : String} {v : β} {m : List (String × β)} (hn : nodupKeys m = true)
    (h : (k, v) ∈ m) : mapGet k m = some v := by
  induction m with
  | nil => simp at h
  | cons e rest ih =>
    obtain ⟨k', v'⟩ := e
    simp only [nodupKeys, Bool.and_eq_true, Option.isNone_iff_eq_none] at hn
    rcases List.mem_cons.1 h with h | h
    · cases h
      simp [mapGet_cons]
    · by_cases h' : k' = k
      · subst h'
        have := (mapGet_eq_none_iff k' rest).1 hn.1 _ h
        simp at this
      · simp [mapGet_cons, h', ih hn.2 h]

theorem mapGet_filter_of_some {k : String} {v : β} {m : List (String × β)}
    (p : String × β → Bool) (h : mapGet k m = some v) (hp : p (k, v) = true) :
    mapGet k (m.filter p) = some v := by
  induction m with
  | nil => simp at h
  | cons e rest ih =>
    obtain ⟨k', v'⟩ := e
    by_cases h' : k' = k
    · subst h'
      simp [mapGet_cons] at h
      subst h
      simp [List.filter_cons, hp, mapGet_cons]
    · simp [mapGet_cons, h'] at h
      by_cases hq : p (k', v') = true
      · simp [List.filter_cons, hq, mapGet_cons, h', ih h]
      · simp [List.filter_cons, hq, ih h]

theorem mapGet_filter_none {k : String} {m : List (String × β)}
    (p : String × β → Bool) (h : mapGet k m = none) : mapGet k (m.filter p) = none := by
  rw [mapGet_eq_none_iff] at h ⊢
  intro e he
  exact h e (List.mem_of_mem_filter he)

theorem mapGet_filter_some_inv {k : String} {v : β} {m : List (String × β)}
    (p : String × β → Bool) (hn : nodupKeys m = true) (h : mapGet k (m.filter p) = some v) :
    mapGet k m = some v ∧ p (k, v) = true := by
  have hm := mem_of_mapGet h
  rw [List.mem_filter] at hm
  exact ⟨mapGet_of_mem hn hm.1, hm.2⟩

theorem nodupKeys_filter {m : List (String × β)} (p : String × β → Bool)
    (hn : nodupKeys m = true) : nodupKeys (m.filter p) = true := by
  induction m with
  | nil => rfl
  | cons e rest ih =>
    obtain ⟨k', v'⟩ := e
    simp only [nodupKeys, Bool.and_eq_true, Option.isNone_iff_eq_none] at hn
    by_cases hq : p (k', v') = true
    · simp [List.filter_cons, hq, nodupKeys, ih hn.2, mapGet_filter_none p hn.1]
    · simp [List.filter_cons, hq, ih hn.2]

theorem mapGet_mapDelete_same (k : String) (m : List (String × β)) :
    mapGet k (mapDelete k m) = none := by
  rw [mapGet_eq_none_iff]
  intro e he
  have := (List.mem_filter.1 he).2
  simpa using this

theorem mapGet_mapDelete_other (k k₁ : String) (m : List (String × β)) (h : k₁ ≠ k) :
    mapGet k₁ (mapDelete k m) = mapGet k₁ m := by
  unfold mapDelete
  cases hg : mapGet k₁ m with
  | none => exact mapGet_filter_none _ hg
  | some v => exact mapGet_filter_of_some _ hg (by simpa using h)

theorem nodupKeys_mapSet (k : String) (v : β) {m : List (String × β)}
    (hn : nodupKeys m = true) : nodupKeys (mapSet k v m) = true := by
  induction m with
  | nil => simp [mapSet, nodupKeys]
  | cons e rest ih =>
    obtain ⟨k', v'⟩ := e
    simp only [nodupKeys, Bool.and_eq_true, Option.isNone_iff_eq_none] at hn
    by_cases h' : k' = k
    · subst h'
      simp [mapSet, nodupKeys, hn.1, hn.2]
    · simp [mapSet, h', nodupKeys, ih hn.2, mapGet_mapSet_other k k' v rest h', hn.1]

end maps

/-! ### `SplitPath` -/

theorem stringsSplit_ne_nil (l : List Char) : stringsSplit l ≠ [] := by
  cases l with
  | nil => simp [stringsSplit]
  | cons c cs =>
    unfold stringsSplit
    by_cases h : c = '/'
    · simp [h]
    · simp only [h, if_false]
      split <;> simp

theorem stringsSplit_no_slash (l : List Char) : ∀ s ∈ stringsSplit l, '/' ∉ s := by
  induction l with
  | nil => simp [stringsSplit]
  | cons c cs ih =>
    unfold stringsSplit
    by_cases h : c = '/'
    · simp only [h, if_true]
      intro s hs
      rcases List.mem_cons.1 hs with hs | hs
      · simp [hs]
      · exact ih s hs
    · simp only [h, if_false]
      split
      · intro s hs
        simp only [List.mem_singleton] at hs
        simp [hs, Ne.symm h]
      · rename_i s' ss heq
        intro s hs
        rw [heq] at ih
        rcases List.mem_cons.1 hs with hs | hs
        · subst hs
          have := ih s' (List.mem_cons_self _ _)
          simp [Ne.symm h, this]
        · exact ih s (List.mem_cons_of_mem _ hs)

theorem nameIsDir_iff (s : String) : nameIsDir s = true ↔ s.data.getLast? = some '/' := by
  simp [nameIsDir]

theorem nameIsDir_append_slash (s : String) : nameIsDir (s ++ "/") = true := by
  rw [nameIsDir_iff]
  have : (s ++ "/").data = s.data ++ ['/'] := by simp [String.data_append]
  rw [this]
  simp

theorem keyOk_append_slash (s : String) (h : '/' ∉ s.data) : keyOk (s ++ "/") = true := by
  have hd : (s ++ "/").data = s.data ++ ['/'] := by simp [String.data_append]
  have hne : s ++ "/" ≠ "" := by
    intro he
    have := congrArg String.data he
    rw [hd] at this
    simp at this
  simp [keyOk, hne, hd, h]

theorem nameIsDir_of_no_slash (s : String) (h : '/' ∉ s.data) : nameIsDir s = false := by
  cases hb : nameIsDir s with
  | false => rfl
  | true =>
    rw [nameIsDir_iff] at hb
    exact absurd (List.mem_of_getLast?_eq_some hb) h

theorem keyOk_of_no_slash (s : String) (h : '/' ∉ s.data) (hne : s ≠ "") : keyOk s = true := by
  have : '/' ∉ s.data.dropLast := fun hm => h (List.dropLast_subset _ hm)
  simp [keyOk, hne, this]

theorem segsOk_tagSegments (pieces : List String) (h : ∀ s ∈ pieces, '/' ∉ s.data) :
    segsOk (tagSegments pieces) = true := by
  induction pieces with
  | nil => rfl
  | cons s rest ih =>
    cases rest with
    | nil =>
      have := h s (List.mem_cons_self _ _)
      simp [tagSegments, segsOk, this]
    | cons t rest' =>
      have hs := h s (List.mem_cons_self _ _)
      have ih' := ih (fun x hx => h x (List.mem_cons_of_mem _ hx))
      cases hr : tagSegments (t :: rest') with
      | nil => cases rest' <;> simp [tagSegments] at hr
      | cons u us =>
        rw [hr] at ih'
        simp [tagSegments, hr, segsOk, nameIsDir_append_slash, keyOk_append_slash s hs, ih']

theorem tagSegments_ne_nil (pieces : List String) (h : pieces ≠ []) : tagSegments pieces ≠ [] := by
  cases pieces with
  | nil => exact absurd rfl h
  | cons s rest => cases rest <;> simp [tagSegments]

theorem SplitPath_ne_nil (path : String) : SplitPath path ≠ [] := by
  unfold SplitPath
  apply tagSegments_ne_nil
  simp [stringsSplit_ne_nil]

theorem segsOk_SplitPath (path : String) : segsOk (SplitPath path) = true := by
  unfold SplitPath
  apply segsOk_tagSegments
  intro s hs
  rw [List.mem_map] at hs
  obtain ⟨l, hl, rfl⟩ := hs
  exact stringsSplit_no_slash _ l hl

theorem segsOk_cons_cons {s t : String} {rest : List String} (h : segsOk (s :: t :: rest) = true) :
    nameIsDir s = true ∧ keyOk s = true ∧ s ≠ "" ∧ segsOk (t :: rest) = true := by
  simp only [segsOk, Bool.and_eq_true] at h
  refine ⟨h.1.1, h.1.2, ?_, h.2⟩
  have := h.1.2
  simp only [keyOk, Bool.and_eq_true, bne_iff_ne] at this
  exact this.1

theorem segsOk_single {s : String} (h : segsOk [s] = true) : '/' ∉ s.data := by
  simpa [segsOk] using h

/-! ### Induction on nodes, the hash pass -/

mutual
theorem TreeNode.induct {P : TreeNode → Prop}
    (step : ∀ h n cs, (∀ e ∈ cs, P e.2) → P (TreeNode.mk h n cs)) : ∀ n, P n
  | .mk h n cs => step h n cs (TreeNode.induct_children step cs)
theorem TreeNode.induct_children {P : TreeNode → Prop}
    (step : ∀ h n cs, (∀ e ∈ cs, P e.2) → P (TreeNode.mk h n cs)) :
    ∀ (cs : List (String × TreeNode)), ∀ e ∈ cs, P e.2
  | [] => by simp
  | (_, c) :: rest => by
    intro e he
    rcases List.mem_cons.1 he with he | he
    · subst he
      exact TreeNode.induct step c
    · exact TreeNode.induct_children step rest e he
end

theorem calculateChildren_eq_map (ord : RangeOrder) (cs : List (String × TreeNode)) :
    calculateChildren ord cs = cs.map (fun e => (e.1, calculateNodeHash ord e.2)) := by
  induction cs with
  | nil => simp [calculateChildren]
  | cons e rest ih =>
    obtain ⟨k, c⟩ := e
    simp [calculateChildren, ih]

theorem anySurvives_eq_any (cs : List (String × TreeNode)) :
    anySurvives cs = cs.any (fun e => survives e.2) := by
  induction cs with
  | nil => simp [anySurvives]
  | cons e rest ih =>
    obtain ⟨k, c⟩ := e
    simp [anySurvives, ih]

theorem prunedChildren_eq_all (cs : List (String × TreeNode)) :
    prunedChildren cs = cs.all (fun e => !isEmptyDir e.2 && prunedNode e.2) := by
  induction cs with
  | nil => simp [prunedChildren]
  | cons e rest ih =>
    obtain ⟨k, c⟩ := e
    simp [prunedChildren, ih]

theorem calculateNodeHash_file (ord : RangeOrder) (n : TreeNode) (h : n.IsDir = false) :
    calculateNodeHash ord n = n := by
  cases n with
  | mk hs nm cs =>
    simp only [TreeNode.IsDir_mk] at h
    simp [calculateNodeHash, h]

theorem calculateNodeHash_dir (ord : RangeOrder) (n : TreeNode) (h : n.IsDir = true) :
    calculateNodeHash ord n
      = TreeNode.mk (CalculateHash (stringBytes (String.join
          ((ord.visit (keptChildren ord n.Children)).map (fun e => e.2.Hash)))))
        n.Name (keptChildren ord n.Children) := by
  cases n with
  | mk hs nm cs =>
    simp only [TreeNode.IsDir_mk] at h
    simp [calculateNodeHash, h, keptChildren]

@[simp] theorem calculateNodeHash_Name (ord : RangeOrder) (n : TreeNode) :
    (calculateNodeHash ord n).Name = n.Name := by
  cases hd : n.IsDir with
  | false => rw [calculateNodeHash_file ord n hd]
  | true => rw [calculateNodeHash_dir ord n hd]; rfl

@[simp] theorem calculateNodeHash_IsDir (ord : RangeOrder) (n : TreeNode) :
    (calculateNodeHash ord n).IsDir = n.IsDir := by
  simp [TreeNode.IsDir]

theorem calculateNodeHash_Children (ord : RangeOrder) (n : TreeNode) (h : n.IsDir = true) :
    (calculateNodeHash ord n).Children = keptChildren ord n.Children := by
  rw [calculateNodeHash_dir ord n h]; rfl

theorem mapGet_calculateChildren (ord : RangeOrder) (k : String) (cs : List (String × TreeNode)) :
    mapGet k (calculateChildren ord cs) = (mapGet k cs).map (calculateNodeHash ord) := by
  induction cs with
  | nil => simp [calculateChildren]
  | cons e rest ih =>
    obtain ⟨k', c⟩ := e
    by_cases h : k' = k <;> simp [calculateChildren, mapGet_cons, h, ih]

theorem nodupKeys_calculateChildren (ord : RangeOrder) {cs : List (String × TreeNode)}
    (h : nodupKeys cs = true) : nodupKeys (calculateChildren ord cs) = true := by
  induction cs with
  | nil => simp [calculateChildren, nodupKeys]
  | cons e rest ih =>
    obtain ⟨k', c⟩ := e
    simp only [nodupKeys, Bool.and_eq_true, Option.isNone_iff_eq_none] at h
    simp [calculateChildren, nodupKeys, ih h.2, mapGet_calculateChildren, h.1]

theorem keptChildren_isEmpty (ord : RangeOrder) (cs : List (String × TreeNode))
    (ih : ∀ e ∈ cs, isEmptyDir (calculateNodeHash ord e.2) = !survives e.2) :
    (keptChildren ord cs).isEmpty = !anySurvives cs := by
  induction cs with
  | nil => rfl
  | cons e rest ihl =>
    obtain ⟨k, c⟩ := e
    have h1 := ih (k, c) (List.mem_cons_self _ _)
    have h2 := ihl (fun e he => ih e (List.mem_cons_of_mem _ he))
    simp only at h1
    unfold keptChildren at h2 ⊢
    cases hs : survives c with
    | false =>
      simp only [hs, Bool.not_false] at h1
      simp only [calculateChildren, List.filter_cons, h1, Bool.not_true, Bool.false_eq_true,
        if_false, anySurvives, hs, Bool.false_or]
      exact h2
    | true =>
      simp only [hs, Bool.not_true] at h1
      simp [calculateChildren, List.filter_cons, h1, anySurvives, hs]

theorem isEmptyDir_calculateNodeHash (ord : RangeOrder) (n : TreeNode) :
    isEmptyDir (calculateNodeHash ord n) = !survives n := by
  induction n using TreeNode.induct with
  | step hs nm cs ih =>
    cases hd : nameIsDir nm with
    | false =>
      rw [calculateNodeHash_file ord _ (by simpa using hd)]
      simp [isEmptyDir, survives, hd]
    | true =>
      rw [calculateNodeHash_dir ord _ (by simpa using hd)]
      have := keptChildren_isEmpty ord cs ih
      simp only [TreeNode.Children_mk, TreeNode.Name_mk]
      rw [show isEmptyDir (TreeNode.mk (CalculateHash (stringBytes (String.join
          ((ord.visit (keptChildren ord cs)).map (fun e => e.2.Hash))))) nm (keptChildren ord cs))
          = (keptChildren ord cs).isEmpty from by
            unfold isEmptyDir
            rw [TreeNode.IsDir_mk, TreeNode.Children_mk, hd, Bool.true_and]]
      rw [this]
      simp [survives, hd]

theorem mapGet_keptChildren_of_some (ord : RangeOrder) {k : String} {c : TreeNode}
    {cs : List (String × TreeNode)} (h : mapGet k cs = some c) (hs : survives c = true) :
    mapGet k (keptChildren ord cs) = some (calculateNodeHash ord c) := by
  unfold keptChildren
  apply mapGet_filter_of_some
  · rw [mapGet_calculateChildren, h]; rfl
  · simp [isEmptyDir_calculateNodeHash, hs]

theorem mapGet_keptChildren_inv (ord : RangeOrder) {k : String} {c' : TreeNode}
    {cs : List (String × TreeNode)} (hn : nodupKeys cs = true)
    (h : mapGet k (keptChildren ord cs) = some c') :
    ∃ c, mapGet k cs = some c ∧ survives c = true ∧ c' = calculateNodeHash ord c := by
  unfold keptChildren at h
  obtain ⟨h1, h2⟩ := mapGet_filter_some_inv _ (nodupKeys_calculateChildren ord hn) h
  rw [mapGet_calculateChildren] at h1
  cases hg : mapGet k cs with
  | none => simp [hg] at h1
  | some c =>
    simp only [hg, Option.map_some', Option.some.injEq] at h1
    subst h1
    refine ⟨c, rfl, ?_, rfl⟩
    simpa [isEmptyDir_calculateNodeHash] using h2

/-! ### Well-formedness -/

theorem wfChildren_cons (k : String) (c : TreeNode) (rest : List (String × TreeNode)) :
    wfChildren ((k, c) :: rest) = true ↔
      c.Name = k ∧ keyOk k = true ∧ mapGet k rest = none ∧ wfNode c = true
        ∧ wfChildren rest = true := by
  simp [wfChildren, and_assoc]

theorem wfNode_iff (n : TreeNode) :
    wfNode n = true ↔ (n.Children = [] ∨ n.IsDir = true) ∧ wfChildren n.Children = true := by
  cases n with
  | mk h nm cs => simp [wfNode]

theorem wfChildren_iff (cs : List (String × TreeNode)) :
    wfChildren cs = true ↔
      nodupKeys cs = true ∧ ∀ e ∈ cs, e.2.Name = e.1 ∧ keyOk e.1 = true ∧ wfNode e.2 = true := by
  induction cs with
  | nil => simp [wfChildren, nodupKeys]
  | cons e rest ih =>
    obtain ⟨k, c⟩ := e
    rw [wfChildren_cons, ih]
    simp only [nodupKeys, Bool.and_eq_true, Option.isNone_iff_eq_none, List.mem_cons,
      forall_eq_or_imp]
    tauto

theorem wfChildren_nodupKeys {cs : List (String × TreeNode)} (h : wfChildren cs = true) :
    nodupKeys cs = true := ((wfChildren_iff cs).1 h).1

theorem wfChildren_mapGet {cs : List (String × TreeNode)} {k : String} {c : TreeNode}
    (h : wfChildren cs = true) (hg : mapGet k cs = some c) :
    c.Name = k ∧ keyOk k = true ∧ wfNode c = true :=
  ((wfChildren_iff cs).1 h).2 _ (mem_of_mapGet hg)

theorem wfChildren_filter {cs : List (String × TreeNode)} (p : String × TreeNode → Bool)
    (h : wfChildren cs = true) : wfChildren (cs.filter p) = true := by
  rw [wfChildren_iff] at h ⊢
  exact ⟨nodupKeys_filter p h.1, fun e he => h.2 e (List.mem_of_mem_filter he)⟩

theorem mem_mapSet {β : Type} {k : String} {v : β} {m : List (String × β)} {e : String × β}
    (h : e ∈ mapSet k v m) : e = (k, v) ∨ e ∈ m := by
  induction m with
  | nil => simpa [mapSet] using h
  | cons e' rest ih =>
    obtain ⟨k', v'⟩ := e'
    by_cases h' : k' = k
    · simp only [mapSet, h', if_true, List.mem_cons] at h
      rcases h with h | h
      · exact Or.inl h
      · exact Or.inr (List.mem_cons_of_mem _ h)
    · simp only [mapSet, h', if_false, List.mem_cons] at h
      rcases h with h | h
      · exact Or.inr (by simp [h])
      · rcases ih h with h | h
        · exact Or.inl h
        · exact Or.inr (List.mem_cons_of_mem _ h)

theorem wfChildren_mapSet {cs : List (String × TreeNode)} {k : String} {v : TreeNode}
    (h : wfChildren cs = true) (hname : v.Name = k) (hk : keyOk k = true)
    (hv : wfNode v = true) : wfChildren (mapSet k v cs) = true := by
  rw [wfChildren_iff] at h ⊢
  refine ⟨nodupKeys_mapSet k v h.1, fun e he => ?_⟩
  rcases mem_mapSet he with he | he
  · subst he
    exact ⟨hname, hk, hv⟩
  · exact h.2 e he

theorem wfNode_calculateNodeHash (ord : RangeOrder) (n : TreeNode) (h : wfNode n = true) :
    wfNode (calculateNodeHash ord n) = true := by
  induction n using TreeNode.induct with
  | step hs nm cs ih =>
    cases hd : nameIsDir nm with
    | false => rwa [calculateNodeHash_file ord _ (by simpa using hd)]
    | true =>
      rw [calculateNodeHash_dir ord _ (by simpa using hd)]
      rw [wfNode_iff] at h ⊢
      refine ⟨Or.inr (by simpa using hd), ?_⟩
      simp only [TreeNode.Children_mk] at h ⊢
      unfold keptChildren
      apply wfChildren_filter
      have h2 := (wfChildren_iff cs).1 h.2
      rw [wfChildren_iff]
      refine ⟨nodupKeys_calculateChildren ord h2.1, ?_⟩
      intro e he
      rw [calculateChildren_eq_map, List.mem_map] at he
      obtain ⟨e0, he0, rfl⟩ := he
      have := h2.2 e0 he0
      exact ⟨by simpa using this.1, this.2.1, ih e0 he0 this.2.2⟩

theorem prunedNode_calculateNodeHash (ord : RangeOrder) (n : TreeNode) (h : wfNode n = true) :
    prunedNode (calculateNodeHash ord n) = true := by
  induction n using TreeNode.induct with
  | step hs nm cs ih =>
    cases hd : nameIsDir nm with
    | false =>
      rw [calculateNodeHash_file ord _ (by simpa using hd)]
      rw [wfNode_iff] at h
      simp only [TreeNode.Children_mk, TreeNode.IsDir_mk, hd, Bool.false_eq_true, or_false] at h
      simp [prunedNode, h.1, prunedChildren]
    | true =>
      rw [calculateNodeHash_dir ord _ (by simpa using hd)]
      rw [wfNode_iff] at h
      have h2 := (wfChildren_iff cs).1 h.2
      simp only [prunedNode, TreeNode.Children_mk, prunedChildren_eq_all, List.all_eq_true,
        Bool.and_eq_true, Bool.not_eq_true']
      intro e he
      unfold keptChildren at he
      rw [List.mem_filter, calculateChildren_eq_map, List.mem_map] at he
      obtain ⟨⟨e0, he0, rfl⟩, hne⟩ := he
      exact ⟨by simpa using hne, ih e0 he0 (h2.2 e0 he0).2.2⟩

/-! ### Following a key path -/

@[simp] theorem nodeAt_nil (n : TreeNode) : nodeAt n [] = some n := by
  cases n; rfl

theorem nodeAt_cons (n : TreeNode) (k : String) (q : List String) :
    nodeAt n (k :: q) = (mapGet k n.Children).bind (fun c => nodeAt c q) := by
  cases h : mapGet k n.Children <;> simp [nodeAt, h]

theorem nodeAt_cons_some {n m : TreeNode} {k : String} {q : List String}
    (h : nodeAt n (k :: q) = some m) :
    ∃ c, mapGet k n.Children = some c ∧ nodeAt c q = some m := by
  rw [nodeAt_cons] at h
  cases hg : mapGet k n.Children with
  | none => simp [hg] at h
  | some c => exact ⟨c, rfl, by simpa [hg] using h⟩

theorem nodeAt_append (n : TreeNode) (q r : List String) :
    nodeAt n (q ++ r) = (nodeAt n q).bind (fun d => nodeAt d r) := by
  induction q generalizing n with
  | nil => simp
  | cons k q ih =>
    rw [List.cons_append, nodeAt_cons, nodeAt_cons]
    cases mapGet k n.Children with
    | none => rfl
    | some c => simp [ih]

theorem survives_of_child {n c : TreeNode} {k : String} (hg : mapGet k n.Children = some c)
    (hs : survives c = true) : survives n = true := by
  cases n with
  | mk h nm cs =>
    simp only [TreeNode.Children_mk] at hg
    simp only [survives, anySurvives_eq_any, Bool.or_eq_true, Bool.not_eq_true',
      List.any_eq_true]
    exact Or.inr ⟨(k, c), mem_of_mapGet hg, hs⟩

theorem survives_of_nodeAt {q : List String} {n m : TreeNode} (h : nodeAt n q = some m)
    (hs : survives m = true) : survives n = true := by
  induction q generalizing n with
  | nil =>
    simp only [nodeAt_nil, Option.some.injEq] at h
    rwa [h]
  | cons k q ih =>
    obtain ⟨c, hg, hc⟩ := nodeAt_cons_some h
    exact survives_of_child hg (ih hc)

theorem survives_of_file {n : TreeNode} (h : n.IsDir = false) : survives n = true := by
  cases n with
  | mk hs nm cs =>
    simp only [TreeNode.IsDir_mk] at h
    simp [survives, h]

theorem IsDir_of_child {n c : TreeNode} {k : String} (hwf : wfNode n = true)
    (hg : mapGet k n.Children = some c) : n.IsDir = true := by
  rw [wfNode_iff] at hwf
  rcases hwf.1 with h | h
  · rw [h] at hg
    simp at hg
  · exact h

theorem wfNode_child {n c : TreeNode} {k : String} (hwf : wfNode n = true)
    (hg : mapGet k n.Children = some c) : c.Name = k ∧ keyOk k = true ∧ wfNode c = true :=
  wfChildren_mapGet ((wfNode_iff n).1 hwf).2 hg

theorem Children_of_file {n : TreeNode} (hwf : wfNode n = true) (h : n.IsDir = false) :
    n.Children = [] := by
  rw [wfNode_iff] at hwf
  rcases hwf.1 with h' | h'
  · exact h'
  · rw [h] at h'
    cases h'

theorem wfNode_of_nodeAt {q : List String} {n m : TreeNode} (hwf : wfNode n = true)
    (h : nodeAt n q = some m) : wfNode m = true := by
  induction q generalizing n with
  | nil =>
    simp only [nodeAt_nil, Option.some.injEq] at h
    rwa [← h]
  | cons k q ih =>
    obtain ⟨c, hg, hc⟩ := nodeAt_cons_some h
    exact ih (wfNode_child hwf hg).2.2 hc

theorem Name_of_nodeAt_snoc {q : List String} {k : String} {n m : TreeNode}
    (hwf : wfNode n = true) (h : nodeAt n (q ++ [k]) = some m) : m.Name = k := by
  rw [nodeAt_append] at h
  cases hq : nodeAt n q with
  | none => simp [hq] at h
  | some d =>
    simp only [hq, Option.some_bind] at h
    obtain ⟨c, hg, hc⟩ := nodeAt_cons_some h
    simp only [nodeAt_nil, Option.some.injEq] at hc
    subst hc
    exact (wfNode_child (wfNode_of_nodeAt hwf hq) hg).1

theorem nodeAt_calculateNodeHash (ord : RangeOrder) {q : List String} {n m : TreeNode}
    (hwf : wfNode n = true) (h : nodeAt n q = some m) (hs : survives m = true) :
    nodeAt (calculateNodeHash ord n) q = some (calculateNodeHash ord m) := by
  induction q generalizing n with
  | nil =>
    simp only [nodeAt_nil, Option.some.injEq] at h
    simp [h]
  | cons k q ih =>
    obtain ⟨c, hg, hc⟩ := nodeAt_cons_some h
    rw [nodeAt_cons, calculateNodeHash_Children ord n (IsDir_of_child hwf hg),
      mapGet_keptChildren_of_some ord hg (survives_of_nodeAt hc hs)]
    exact ih (wfNode_child hwf hg).2.2 hc

theorem nodeAt_calculateNodeHash_inv (ord : RangeOrder) {q : List String} {n m' : TreeNode}
    (hwf : wfNode n = true) (h : nodeAt (calculateNodeHash ord n) q = some m') :
    ∃ m, nodeAt n q = some m ∧ m' = calculateNodeHash ord m ∧ (q ≠ [] → survives m = true) := by
  induction q generalizing n m' with
  | nil =>
    simp only [nodeAt_nil, Option.some.injEq] at h
    exact ⟨n, by simp, h.symm, fun hq => absurd rfl hq⟩
  | cons k q ih =>
    cases hd : n.IsDir with
    | false =>
      rw [calculateNodeHash_file ord n hd, nodeAt_cons, Children_of_file hwf hd] at h
      simp at h
    | true =>
      obtain ⟨c', hg, hc⟩ := nodeAt_cons_some h
      rw [calculateNodeHash_Children ord n hd] at hg
      obtain ⟨c, hgc, hsc, rfl⟩ :=
        mapGet_keptChildren_inv ord (wfChildren_nodupKeys ((wfNode_iff n).1 hwf).2) hg
      obtain ⟨m, hm, hm', hsm⟩ := ih (wfNode_child hwf hgc).2.2 hc
      refine ⟨m, by rw [nodeAt_cons, hgc]; exact hm, hm', fun _ => ?_⟩
      by_cases hq : q = []
      · subst hq
        simp only [nodeAt_nil, Option.some.injEq] at hm
        rwa [← hm]
      · exact hsm hq

/-! ### The walks of `AddNode` and `RemoveNode` -/

@[simp] theorem addSegments_nil (content : Option (List Nat)) (n : TreeNode) :
    addSegments content [] n = n := rfl

theorem addSegments_empty (content : Option (List Nat)) (rest : List String) (n : TreeNode) :
    addSegments content ("" :: rest) n = addSegments content rest n := by
  simp [addSegments]

theorem wfNode_setHash (h : String) (n : TreeNode) : wfNode (n.setHash h) = wfNode n := by
  cases n; rfl

theorem wfNode_NewTreeNode (h name : String) : wfNode (NewTreeNode h name) = true := by
  simp [NewTreeNode, wfNode, wfChildren]

theorem wfNode_setChildren {n : TreeNode} {cs : List (String × TreeNode)}
    (hd : n.IsDir = true) (hcs : wfChildren cs = true) : wfNode (n.setChildren cs) = true := by
  rw [wfNode_iff]
  exact ⟨Or.inr (by simpa using hd), by simpa using hcs⟩

theorem addSegments_cons (content : Option (List Nat)) (segment : String) (rest : List String)
    (n : TreeNode) (h : segment ≠ "") :
    addSegments content (segment :: rest) n =
      n.setChildren (mapSet segment
        (addSegments content rest (addStep content rest.isEmpty segment n)) n.Children) := by
  simp [addSegments, h]

theorem addStep_Name (content : Option (List Nat)) (isLast : Bool) (segment : String)
    (n : TreeNode) (hcs : wfChildren n.Children = true) :
    (addStep content isLast segment n).Name = segment := by
  unfold addStep
  cases hg : mapGet segment n.Children with
  | none =>
    simp only []
    split <;> rfl
  | some child =>
    have hc := (wfChildren_mapGet hcs hg).1
    simp only []
    split
    · simpa using hc
    · exact hc

theorem wfNode_addStep (content : Option (List Nat)) (isLast : Bool) (segment : String)
    (n : TreeNode) (hcs : wfChildren n.Children = true) :
    wfNode (addStep content isLast segment n) = true := by
  unfold addStep
  cases hg : mapGet segment n.Children with
  | none =>
    simp only []
    split <;> exact wfNode_NewTreeNode _ _
  | some child =>
    have hc := (wfChildren_mapGet hcs hg).2.2
    simp only []
    split
    · rw [wfNode_setHash]; exact hc
    · exact hc

theorem addStep_Children (content : Option (List Nat)) (isLast : Bool) (segment : String)
    (n : TreeNode) :
    (addStep content isLast segment n).Children
      = ((mapGet segment n.Children).map TreeNode.Children).getD [] := by
  unfold addStep
  cases hg : mapGet segment n.Children with
  | none =>
    simp only []
    split <;> rfl
  | some child =>
    simp only []
    split <;> simp

theorem addStep_Hash (content : List Nat) (segment : String) (n : TreeNode) :
    (addStep (some content) true segment n).Hash = CalculateHash content := by
  unfold addStep
  cases hg : mapGet segment n.Children with
  | none => simp [NewTreeNode]
  | some child => simp

theorem addStep_inner (content : Option (List Nat)) (segment : String) (n child : TreeNode)
    (hg : mapGet segment n.Children = some child) :
    addStep content false segment n = child := by
  simp [addStep, hg]

@[simp] theorem addSegments_Name (content : Option (List Nat)) (segs : List String)
    (n : TreeNode) : (addSegments content segs n).Name = n.Name := by
  induction segs generalizing n with
  | nil => rfl
  | cons s rest ih =>
    by_cases h : s = ""
    · subst h
      rw [addSegments_empty, ih]
    · rw [addSegments_cons _ _ _ _ h]
      simp

@[simp] theorem removeSegments_nil (n : TreeNode) : removeSegments [] n = n := rfl

theorem removeSegments_empty (rest : List String) (n : TreeNode) :
    removeSegments ("" :: rest) n = removeSegments rest n := by
  simp [removeSegments]

theorem removeSegments_cons_none (segment : String) (rest : List String) (n : TreeNode)
    (h : segment ≠ "") (hg : mapGet segment n.Children = none) :
    removeSegments (segment :: rest) n = n := by
  simp [removeSegments, h, hg]

theorem removeSegments_last (segment : String) (n child : TreeNode)
    (h : segment ≠ "") (hg : mapGet segment n.Children = some child) :
    removeSegments [segment] n = n.setChildren (mapDelete segment n.Children) := by
  simp [removeSegments, h, hg]

theorem removeSegments_cons_some (segment s₂ : String) (rest : List String) (n child : TreeNode)
    (h : segment ≠ "") (hg : mapGet segment n.Children = some child) :
    removeSegments (segment :: s₂ :: rest) n =
      n.setChildren (mapSet segment (removeSegments (s₂ :: rest) child) n.Children) := by
  simp [removeSegments, h, hg]

@[simp] theorem removeSegments_Name (segs : List String) (n : TreeNode) :
    (removeSegments segs n).Name = n.Name := by
  induction segs generalizing n with
  | nil => rfl
  | cons s rest ih =>
    by_cases h : s = ""
    · subst h
      rw [removeSegments_empty, ih]
    · cases hg : mapGet s n.Children with
      | none => rw [removeSegments_cons_none _ _ _ h hg]
      | some child =>
        cases rest with
        | nil => rw [removeSegments_last _ _ _ h hg]; simp
        | cons s₂ rest => rw [removeSegments_cons_some _ _ _ _ _ h hg]; simp

theorem wfNode_addSegments (content : Option (List Nat)) (segs : List String) (n : TreeNode)
    (hsegs : segsOk segs = true) (hd : n.IsDir = true) (hwf : wfNode n = true) :
    wfNode (addSegments content segs n) = true := by
  induction segs generalizing n with
  | nil => exact hwf
  | cons s rest ih =>
    by_cases h : s = ""
    · subst h
      rw [addSegments_empty]
      cases rest with
      | nil => exact hwf
      | cons t rest => exact absurd rfl (segsOk_cons_cons hsegs).2.2.1
    · rw [addSegments_cons _ _ _ _ h]
      have hcs := ((wfNode_iff n).1 hwf).2
      apply wfNode_setChildren hd
      cases rest with
      | nil =>
        have hk := keyOk_of_no_slash s (segsOk_single hsegs) h
        rw [addSegments_nil]
        exact wfChildren_mapSet hcs (addStep_Name _ _ _ _ hcs) hk (wfNode_addStep _ _ _ _ hcs)
      | cons t rest =>
        obtain ⟨hsd, hk, _, hrest⟩ := segsOk_cons_cons hsegs
        apply wfChildren_mapSet hcs _ hk
        · apply ih _ hrest _ (wfNode_addStep _ _ _ _ hcs)
          simp only [TreeNode.IsDir, addStep_Name _ _ _ _ hcs]
          exact hsd
        · rw [addSegments_Name]
          exact addStep_Name _ _ _ _ hcs

theorem wfNode_removeSegments (segs : List String) (n : TreeNode) (hwf : wfNode n = true) :
    wfNode (removeSegments segs n) = true := by
  induction segs generalizing n with
  | nil => exact hwf
  | cons s rest ih =>
    by_cases h : s = ""
    · subst h
      rw [removeSegments_empty]
      exact ih n hwf
    · cases hg : mapGet s n.Children with
      | none => rwa [removeSegments_cons_none _ _ _ h hg]
      | some child =>
        have hcs := ((wfNode_iff n).1 hwf).2
        have hc := wfChildren_mapGet hcs hg
        have hd := IsDir_of_child hwf hg
        cases rest with
        | nil =>
          rw [removeSegments_last _ _ _ h hg]
          exact wfNode_setChildren hd (wfChildren_filter _ hcs)
        | cons s₂ rest =>
          rw [removeSegments_cons_some _ _ _ _ _ h hg]
          apply wfNode_setChildren hd
          apply wfChildren_mapSet hcs _ hc.2.1 (ih child hc.2.2)
          rw [removeSegments_Name]
          exact hc.1

/-! ### The invariant of the program -/

theorem WF_NewTree (rootHash relativePath : String) : (NewTree rootHash relativePath).WF :=
  ⟨nameIsDir_append_slash _, wfNode_NewTreeNode _ _⟩

theorem WF_CalculateDirectoryHashes (ord : RangeOrder) (t : Tree) (h : t.WF) :
    (CalculateDirectoryHashes ord t).WF :=
  ⟨by simpa [CalculateDirectoryHashes] using h.1, wfNode_calculateNodeHash ord _ h.2⟩

theorem WF_AddNode (ord : RangeOrder) (t : Tree) (path : String) (content : Option (List Nat))
    (h : t.WF) : (AddNode ord t path content).WF := by
  apply WF_CalculateDirectoryHashes
  exact ⟨by simpa using h.1,
    wfNode_addSegments content _ _ (segsOk_SplitPath path) h.1 h.2⟩

theorem WF_RemoveNode (ord : RangeOrder) (t : Tree) (path : String) (h : t.WF) :
    (RemoveNode ord t path).WF := by
  apply WF_CalculateDirectoryHashes
  exact ⟨by simpa using h.1, wfNode_removeSegments _ _ h.2⟩

theorem pruned_AddNode (ord : RangeOrder) (t : Tree) (path : String)
    (content : Option (List Nat)) (h : t.WF) :
    prunedNode (AddNode ord t path content).Root = true :=
  prunedNode_calculateNodeHash ord _
    (wfNode_addSegments content _ _ (segsOk_SplitPath path) h.1 h.2)

theorem pruned_RemoveNode (ord : RangeOrder) (t : Tree) (path : String) (h : t.WF) :
    prunedNode (RemoveNode ord t path).Root = true :=
  prunedNode_calculateNodeHash ord _ (wfNode_removeSegments _ _ h.2)

/-- Every tree built by `NewTree`, `AddNode` and `RemoveNode` is well-formed and holds no
empty directory below its root. -/
theorem Built.invariant {t : Tree} (h : Built t) : t.WF ∧ prunedNode t.Root = true := by
  induction h with
  | new rootHash relativePath => exact ⟨WF_NewTree _ _, rfl⟩
  | add ord t path content _ ih => exact ⟨WF_AddNode ord t path content ih.1,
      pruned_AddNode ord t path content ih.1⟩
  | remove ord t path _ ih => exact ⟨WF_RemoveNode ord t path ih.1,
      pruned_RemoveNode ord t path ih.1⟩

/-! ### What `AddNode` leaves at a key path -/

theorem segsOk_inner (a : List String) (k : String) (r : List String)
    (h : segsOk (a ++ k :: r) = true) (hr : r ≠ []) : nameIsDir k = true ∧ keyOk k = true := by
  induction a with
  | nil =>
    cases r with
    | nil => exact absurd rfl hr
    | cons t r =>
      have := segsOk_cons_cons h
      exact ⟨this.1, this.2.1⟩
  | cons x a ih =>
    cases hrest : a ++ k :: r with
    | nil => simp at hrest
    | cons y ys =>
      rw [List.cons_append, hrest] at h
      rw [hrest] at ih
      exact ih (segsOk_cons_cons h).2.2.2

theorem segsOk_ne_empty {segs : List String} (h : segsOk segs = true)
    (hlast : segs.getLast? ≠ some "") : ∀ s ∈ segs, s ≠ "" := by
  intro s hs
  obtain ⟨a, r, rfl⟩ := List.append_of_mem hs
  by_cases hr : r = []
  · subst hr
    intro he
    apply hlast
    simp [he]
  · have := (segsOk_inner a s r h hr).2
    simp only [keyOk, Bool.and_eq_true, bne_iff_ne] at this
    exact this.1

theorem nodeAt_setChildren_cons (n : TreeNode) (cs : List (String × TreeNode)) (k : String)
    (q : List String) :
    nodeAt (n.setChildren cs) (k :: q) = (mapGet k cs).bind (fun c => nodeAt c q) := by
  rw [nodeAt_cons, TreeNode.Children_setChildren]

theorem nodeAt_addStep (content : Option (List Nat)) (isLast : Bool) (s : String) (n : TreeNode)
    (q : List String) (hq : q ≠ []) :
    nodeAt (addStep content isLast s n) q = nodeAt n (s :: q) := by
  cases q with
  | nil => exact absurd rfl hq
  | cons k q =>
    rw [nodeAt_cons, addStep_Children, nodeAt_cons]
    cases hg : mapGet s n.Children with
    | none => simp
    | some child => simp [nodeAt_cons]

theorem nodeAt_addSegments_other (content : Option (List Nat)) (segs : List String)
    (n : TreeNode) (q : List String) (hne : ∀ s ∈ segs, s ≠ "")
    (hq : segs.take q.length ≠ q) :
    nodeAt (addSegments content segs n) q = nodeAt n q := by
  induction segs generalizing n q with
  | nil => rfl
  | cons s rest ih =>
    have hs := hne s (List.mem_cons_self _ _)
    have hrest : ∀ x ∈ rest, x ≠ "" := fun x hx => hne x (List.mem_cons_of_mem _ hx)
    cases q with
    | nil => simp at hq
    | cons k q =>
      rw [addSegments_cons _ _ _ _ hs, nodeAt_setChildren_cons]
      by_cases hk : k = s
      · subst hk
        have hq' : rest.take q.length ≠ q := by
          intro he
          apply hq
          simp [he]
        have hqne : q ≠ [] := by
          intro he
          subst he
          simp at hq'
        rw [mapGet_mapSet_same, Option.some_bind, ih _ _ hrest hq']
        exact nodeAt_addStep _ _ _ _ _ hqne
      · rw [mapGet_mapSet_other _ _ _ _ hk, nodeAt_cons]

theorem nodeAt_addSegments_self (content : List Nat) (segs : List String) (n : TreeNode)
    (hnil : segs ≠ []) (hne : ∀ s ∈ segs, s ≠ "") (hsegs : segsOk segs = true)
    (hwf : wfNode n = true) :
    ∃ leaf, nodeAt (addSegments (some content) segs n) segs = some leaf
      ∧ leaf.IsDir = false ∧ leaf.Children = [] ∧ leaf.Hash = CalculateHash content := by
  induction segs generalizing n with
  | nil => exact absurd rfl hnil
  | cons s rest ih =>
    have hs := hne s (List.mem_cons_self _ _)
    have hrest : ∀ x ∈ rest, x ≠ "" := fun x hx => hne x (List.mem_cons_of_mem _ hx)
    have hcs := ((wfNode_iff n).1 hwf).2
    rw [addSegments_cons _ _ _ _ hs, nodeAt_setChildren_cons, mapGet_mapSet_same,
      Option.some_bind]
    cases rest with
    | nil =>
      have hfile : (addStep (some content) true s n).IsDir = false := by
        simp only [TreeNode.IsDir, addStep_Name _ _ _ _ hcs]
        exact nameIsDir_of_no_slash s (segsOk_single hsegs)
      refine ⟨addStep (some content) true s n, by simp, hfile, ?_, addStep_Hash _ _ _⟩
      exact Children_of_file (wfNode_addStep _ _ _ _ hcs) hfile
    | cons t rest =>
      exact ih _ (by simp) hrest (segsOk_cons_cons hsegs).2.2.2 (wfNode_addStep _ _ _ _ hcs)

theorem nodeAt_AddNode_of_survives (ord : RangeOrder) (t : Tree) (path : String)
    (content : Option (List Nat)) (hwf : t.WF) {q : List String} {m : TreeNode}
    (hm : nodeAt (addSegments content (SplitPath path) t.Root) q = some m)
    (hs : survives m = true) :
    nodeAt (AddNode ord t path content).Root q = some (calculateNodeHash ord m) :=
  nodeAt_calculateNodeHash ord
    (wfNode_addSegments _ _ _ (segsOk_SplitPath path) hwf.1 hwf.2) hm hs

theorem nodeAt_AddNode_self (ord : RangeOrder) (t : Tree) (path : String)
    (content : List Nat) (hwf : t.WF) (hlast : (SplitPath path).getLast? ≠ some "") :
    ∃ leaf, nodeAt (addSegments (some content) (SplitPath path) t.Root) (SplitPath path)
          = some leaf
      ∧ nodeAt (AddNode ord t path (some content)).Root (SplitPath path) = some leaf
      ∧ leaf.IsDir = false ∧ leaf.Children = [] ∧ leaf.Hash = CalculateHash content := by
  have hsegs := segsOk_SplitPath path
  obtain ⟨leaf, hleaf, hfile, hch, hhash⟩ :=
    nodeAt_addSegments_self content _ t.Root (SplitPath_ne_nil path)
      (segsOk_ne_empty hsegs hlast) hsegs hwf.2
  refine ⟨leaf, hleaf, ?_, hfile, hch, hhash⟩
  rw [nodeAt_AddNode_of_survives ord t path _ hwf hleaf (survives_of_file hfile),
    calculateNodeHash_file ord leaf hfile]


theorem take_ne_of_file {segs q : List String} {n m : TreeNode} (hsegs : segsOk segs = true)
    (hwf : wfNode n = true) (hd : n.IsDir = true) (hm : nodeAt n q = some m)
    (hfile : m.IsDir = false) (hq : q ≠ segs) : segs.take q.length ≠ q := by
  intro he
  by_cases hqnil : q = []
  · subst hqnil
    simp only [nodeAt_nil, Option.some.injEq] at hm
    rw [← hm, hd] at hfile
    cases hfile
  · obtain ⟨q0, k, rfl⟩ : ∃ q0 k, q = q0 ++ [k] :=
      ⟨q.dropLast, q.getLast hqnil, (List.dropLast_append_getLast hqnil).symm⟩
    have hsplit : segs = q0 ++ k :: segs.drop (q0 ++ [k]).length := by
      conv_lhs => rw [← List.take_append_drop (q0 ++ [k]).length segs, he]
      simp
    have hr : segs.drop (q0 ++ [k]).length ≠ [] := by
      intro hnil
      rw [hnil] at hsplit
      exact hq (by rw [hsplit])
    rw [hsplit] at hsegs
    have hkd := (segsOk_inner q0 k _ hsegs hr).1
    have hname := Name_of_nodeAt_snoc hwf hm
    simp only [TreeNode.IsDir, hname, hkd] at hfile
    cases hfile

theorem nodeAt_AddNode_frame (ord : RangeOrder) (t : Tree) (path : String)
    (content : Option (List Nat)) (hwf : t.WF) (hlast : (SplitPath path).getLast? ≠ some "")
    {q : List String} {n : TreeNode} (hq : q ≠ SplitPath path)
    (hn : nodeAt t.Root q = some n) (hfile : n.IsDir = false) :
    nodeAt (AddNode ord t path content).Root q = some n := by
  have hsegs := segsOk_SplitPath path
  have hother := take_ne_of_file hsegs hwf.2 hwf.1 hn hfile hq
  have h1 : nodeAt (addSegments content (SplitPath path) t.Root) q = some n := by
    rw [nodeAt_addSegments_other _ _ _ _ (segsOk_ne_empty hsegs hlast) hother, hn]
  rw [nodeAt_AddNode_of_survives ord t path _ hwf h1 (survives_of_file hfile),
    calculateNodeHash_file ord n hfile]

theorem fileAt_AddNode_iff (ord : RangeOrder) (t : Tree) (path : String) (content : List Nat)
    (hwf : t.WF) (hlast : (SplitPath path).getLast? ≠ some "") (q : List String) :
    fileAt (AddNode ord t path (some content)) q ↔ fileAt t q ∨ q = SplitPath path := by
  have hsegs := segsOk_SplitPath path
  have hne := segsOk_ne_empty hsegs hlast
  constructor
  · rintro ⟨n, hn, hfile⟩
    by_cases hq : q = SplitPath path
    · exact Or.inr hq
    · left
      have hwf1 := wfNode_addSegments (some content) _ _ hsegs hwf.1 hwf.2
      obtain ⟨m, hm, rfl, _⟩ := nodeAt_calculateNodeHash_inv ord hwf1 hn
      rw [calculateNodeHash_IsDir] at hfile
      have hd1 : (addSegments (some content) (SplitPath path) t.Root).IsDir = true := by
        simp only [TreeNode.IsDir, addSegments_Name]
        exact hwf.1
      have hother := take_ne_of_file hsegs hwf1 hd1 hm hfile hq
      rw [nodeAt_addSegments_other _ _ _ _ hne hother] at hm
      exact ⟨m, hm, hfile⟩
  · rintro (⟨n, hn, hfile⟩ | rfl)
    · by_cases hq : q = SplitPath path
      · subst hq
        obtain ⟨leaf, _, hleaf, hf, _⟩ := nodeAt_AddNode_self ord t path content hwf hlast
        exact ⟨leaf, hleaf, hf⟩
      · exact ⟨n, nodeAt_AddNode_frame ord t path _ hwf hlast hq hn hfile, hfile⟩
    · obtain ⟨leaf, _, hleaf, hf, _⟩ := nodeAt_AddNode_self ord t path content hwf hlast
      exact ⟨leaf, hleaf, hf⟩

/-! ### What `RemoveNode` leaves at a key path -/

theorem nodeAt_removeSegments_parent (dk : List String) (f : String) (n : TreeNode)
    (hne : ∀ s ∈ dk ++ [f], s ≠ "") (hsome : (nodeAt n (dk ++ [f])).isSome = true) :
    nodeAt (removeSegments (dk ++ [f]) n) dk
      = (nodeAt n dk).map (fun d => d.setChildren (mapDelete f d.Children)) := by
  induction dk generalizing n with
  | nil =>
    have hf : f ≠ "" := hne f (by simp)
    simp only [List.nil_append, nodeAt_cons] at hsome
    cases hg : mapGet f n.Children with
    | none => simp [hg] at hsome
    | some child =>
      simp only [List.nil_append, removeSegments_last _ _ _ hf hg, nodeAt_nil, Option.map_some']
  | cons s dk ih =>
    have hs : s ≠ "" := hne s (by simp)
    have hrest : ∀ x ∈ dk ++ [f], x ≠ "" := fun x hx => hne x (by simp at hx ⊢; tauto)
    rw [List.cons_append, nodeAt_cons] at hsome
    cases hg : mapGet s n.Children with
    | none => simp [hg] at hsome
    | some child =>
      simp only [hg, Option.some_bind] at hsome
      cases hdk : dk ++ [f] with
      | nil => simp at hdk
      | cons s₂ rest =>
        rw [List.cons_append, hdk, removeSegments_cons_some _ _ _ _ _ hs hg, ← hdk,
          nodeAt_setChildren_cons, mapGet_mapSet_same, Option.some_bind, ih child hrest hsome,
          nodeAt_cons, hg, Option.some_bind]

theorem nodeAt_addStep_children (content : Option (List Nat)) (isLast : Bool) (s : String)
    (n : TreeNode) (q : List String) {d0 : TreeNode} {e : String × TreeNode}
    (hd : nodeAt (addStep content isLast s n) q = some d0) (he : e ∈ d0.Children) :
    ∃ d, nodeAt n (s :: q) = some d ∧ e ∈ d.Children := by
  by_cases hq : q = []
  · subst hq
    simp only [nodeAt_nil, Option.some.injEq] at hd
    subst hd
    rw [addStep_Children] at he
    cases hg : mapGet s n.Children with
    | none => simp [hg] at he
    | some child =>
      refine ⟨child, by simp [nodeAt_cons, hg], ?_⟩
      simpa [hg] using he
  · rw [nodeAt_addStep _ _ _ _ _ hq] at hd
    exact ⟨d0, hd, he⟩

theorem nodeAt_addSegments_parent (content : Option (List Nat)) (dk : List String) (f : String)
    (n : TreeNode) (hne : ∀ s ∈ dk ++ [f], s ≠ "") :
    ∃ d1, nodeAt (addSegments content (dk ++ [f]) n) dk = some d1
      ∧ ∀ e ∈ d1.Children, e.1 = f ∨ ∃ d0, nodeAt n dk = some d0 ∧ e ∈ d0.Children := by
  induction dk generalizing n with
  | nil =>
    have hf : f ≠ "" := hne f (by simp)
    refine ⟨addSegments content ([] ++ [f]) n, by simp, ?_⟩
    intro e he
    rw [List.nil_append, addSegments_cons _ _ _ _ hf, TreeNode.Children_setChildren] at he
    rcases mem_mapSet he with he | he
    · exact Or.inl (by rw [he])
    · exact Or.inr ⟨n, by simp, he⟩
  | cons s dk ih =>
    have hs : s ≠ "" := hne s (by simp)
    have hrest : ∀ x ∈ dk ++ [f], x ≠ "" := fun x hx => hne x (by simp at hx ⊢; tauto)
    obtain ⟨d1, hd1, hch⟩ := ih (addStep content (dk ++ [f]).isEmpty s n) hrest
    refine ⟨d1, ?_, ?_⟩
    · rw [List.cons_append, addSegments_cons _ _ _ _ hs, nodeAt_setChildren_cons,
        mapGet_mapSet_same, Option.some_bind, hd1]
    · intro e he
      rcases hch e he with h | ⟨d0, hd0, he0⟩
      · exact Or.inl h
      · exact Or.inr (nodeAt_addStep_children _ _ _ _ _ hd0 he0)

theorem mem_keptChildren_key (ord : RangeOrder) {cs : List (String × TreeNode)}
    {e : String × TreeNode} (he : e ∈ keptChildren ord cs) : ∃ e0 ∈ cs, e0.1 = e.1 := by
  unfold keptChildren at he
  rw [List.mem_filter, calculateChildren_eq_map, List.mem_map] at he
  obtain ⟨⟨e0, he0, rfl⟩, _⟩ := he
  exact ⟨e0, he0, rfl⟩

theorem mapDelete_eq_nil {β : Type} (k : String) (m : List (String × β))
    (h : ∀ e ∈ m, e.1 = k) : mapDelete k m = [] := by
  unfold mapDelete
  rw [List.filter_eq_nil_iff]
  intro e he
  simp [h e he]

theorem survives_empty_dir {n : TreeNode} (hd : n.IsDir = true) (hc : n.Children = []) :
    survives n = false := by
  cases n with
  | mk h nm cs =>
    simp only [TreeNode.IsDir_mk, TreeNode.Children_mk] at hd hc
    simp [survives, hd, hc, anySurvives]

theorem not_isEmptyDir_of_nodeAt_calculateNodeHash (ord : RangeOrder) {n m : TreeNode}
    {q : List String} (hwf : wfNode n = true) (hq : q ≠ [])
    (h : nodeAt (calculateNodeHash ord n) q = some m) : isEmptyDir m = false := by
  obtain ⟨m0, _, rfl, hs⟩ := nodeAt_calculateNodeHash_inv ord hwf h
  rw [isEmptyDir_calculateNodeHash, hs hq]
  rfl

/-! ### The diff on key paths -/

theorem joinKeys_cons (k : String) (q : List String) : joinKeys (k :: q) = k ++ joinKeys q := rfl

theorem joinKeys_single (k : String) : joinKeys [k] = k := by
  simp [joinKeys]

theorem toDiff_cons (p k : String) (ty : DiffType) (q : List String) :
    toDiff p (ty, k :: q) = toDiff (p ++ k) (ty, q) := by
  simp [toDiff, joinKeys_cons, String.append_assoc]

theorem toDiff_single (p k : String) (ty : DiffType) : toDiff p (ty, [k]) = ⟨ty, p ++ k⟩ := by
  simp [toDiff, joinKeys_single]

theorem removedDiffs_eq_map (cs os : List (String × TreeNode)) (p : String) :
    removedDiffs cs os p = (removedKeys cs os).map (toDiff p) := by
  induction os with
  | nil => rfl
  | cons e rest ih =>
    unfold removedDiffs removedKeys at ih ⊢
    by_cases h : (mapGet e.1 cs).isSome = true
    · simp only [List.filterMap_cons, h, if_true]
      exact ih
    · simp only [List.filterMap_cons, h, if_false, List.map_cons, ih, Bool.false_eq_true]
      rw [toDiff_single]

theorem compareNodes_eq_map (cur : TreeNode) :
    ∀ (oth : TreeNode) (p : String), compareNodes cur oth p = (diffKeys cur oth).map (toDiff p) := by
  induction cur using TreeNode.induct with
  | step h nm cs ih =>
    intro oth p
    unfold compareNodes diffKeys
    rw [List.map_append, removedDiffs_eq_map]
    congr 1
    induction cs with
    | nil => simp [compareChildren, diffKeysChildren]
    | cons e rest ihl =>
      obtain ⟨k, c⟩ := e
      have ihc := ih (k, c) (List.mem_cons_self _ _)
      have ihrest := ihl (fun e he => ih e (List.mem_cons_of_mem _ he))
      simp only at ihc
      unfold compareChildren diffKeysChildren
      rw [List.map_append, ihrest]
      congr 1
      cases hg : mapGet k oth.Children with
      | none =>
        simp only []
        split
        · rw [ihc, List.map_map]
          apply List.map_congr_left
          intro e _
          simp [toDiff_cons]
        · simp [toDiff_single]
      | some o =>
        simp only []
        split
        · rw [ihc, List.map_map]
          apply List.map_congr_left
          intro e _
          simp [toDiff_cons]
        · split
          · split <;> simp [toDiff_single]
          · simp [toDiff_single]

theorem CompareAndBuildDiff_eq_map (t other : Tree) :
    CompareAndBuildDiff t other = (diffKeys t.Root other.Root).map (toDiff t.Root.Name) :=
  compareNodes_eq_map _ _ _

/-! ### Path strings determine key paths -/

theorem slash_split_unique (u u' w w' : List Char) (hu : '/' ∉ u) (hu' : '/' ∉ u')
    (h : u ++ '/' :: w = u' ++ '/' :: w') : u = u' ∧ w = w' := by
  induction u generalizing u' with
  | nil =>
    cases u' with
    | nil => simpa using h
    | cons c u' =>
      simp only [List.nil_append, List.cons_append, List.cons.injEq] at h
      exact absurd (by rw [← h.1]; exact List.mem_cons_self _ _) hu'
  | cons c u ih =>
    cases u' with
    | nil =>
      simp only [List.nil_append, List.cons_append, List.cons.injEq] at h
      exact absurd (by rw [h.1]; exact List.mem_cons_self _ _) hu
    | cons c' u' =>
      simp only [List.cons_append, List.cons.injEq] at h
      have := ih u' (fun hm => hu (List.mem_cons_of_mem _ hm))
        (fun hm => hu' (List.mem_cons_of_mem _ hm)) h.2
      exact ⟨by rw [h.1, this.1], this.2⟩

theorem dirKey_data {k : String} (hd : nameIsDir k = true) (hk : keyOk k = true) :
    ∃ u, k.data = u ++ ['/'] ∧ '/' ∉ u := by
  rw [nameIsDir_iff] at hd
  refine ⟨k.data.dropLast, (List.dropLast_append_getLast? _ hd).symm, ?_⟩
  simp only [keyOk, Bool.and_eq_true, Bool.not_eq_true'] at hk
  simpa using hk.2

theorem keyOk_ne_empty {k : String} (hk : keyOk k = true) : k.data ≠ [] := by
  simp only [keyOk, Bool.and_eq_true, bne_iff_ne] at hk
  intro h
  exact hk.1 (String.ext h)

theorem keyPathOk_cons_cons {k k₂ : String} {rest : List String}
    (h : keyPathOk (k :: k₂ :: rest) = true) :
    nameIsDir k = true ∧ keyOk k = true ∧ keyPathOk (k₂ :: rest) = true := by
  simpa [keyPathOk, and_assoc] using h

theorem keyPathOk_head {k : String} {rest : List String} (h : keyPathOk (k :: rest) = true) :
    keyOk k = true := by
  cases rest with
  | nil => simpa [keyPathOk] using h
  | cons k₂ rest => exact (keyPathOk_cons_cons h).2.1

theorem joinKeys_data_cons (k : String) (q : List String) :
    (joinKeys (k :: q)).data = k.data ++ (joinKeys q).data := by
  simp [joinKeys_cons, String.data_append]

theorem joinKeys_ne_empty {q : List String} (h : keyPathOk q = true) :
    (joinKeys q).data ≠ [] := by
  cases q with
  | nil => simp [keyPathOk] at h
  | cons k rest =>
    rw [joinKeys_data_cons]
    have := keyOk_ne_empty (keyPathOk_head h)
    simp [this]

theorem keyOk_not_split {k : String} (hk : keyOk k = true) (u w : List Char)
    (h : k.data = u ++ '/' :: w) (hw : w ≠ []) : False := by
  simp only [keyOk, Bool.and_eq_true, Bool.not_eq_true'] at hk
  have h2 := hk.2
  rw [h] at h2
  have : (u ++ '/' :: w).dropLast = u ++ '/' :: w.dropLast := by
    rw [List.dropLast_append_of_ne_nil _ (by simp)]
    cases w with
    | nil => exact absurd rfl hw
    | cons c w => simp [List.dropLast]
  rw [this] at h2
  simp at h2

theorem joinKeys_injective {q q' : List String} (hq : keyPathOk q = true)
    (hq' : keyPathOk q' = true) (h : joinKeys q = joinKeys q') : q = q' := by
  induction q generalizing q' with
  | nil => simp [keyPathOk] at hq
  | cons k rest ih =>
    cases q' with
    | nil => simp [keyPathOk] at hq'
    | cons k' rest' =>
      have hdata := congrArg String.data h
      rw [joinKeys_data_cons, joinKeys_data_cons] at hdata
      cases rest with
      | nil =>
        cases rest' with
        | nil =>
          rw [joinKeys_single, joinKeys_single] at h
          rw [h]
        | cons k₂' rest' =>
          exfalso
          obtain ⟨hd', hk', hr'⟩ := keyPathOk_cons_cons hq'
          obtain ⟨u', hu', _⟩ := dirKey_data hd' hk'
          have hk : keyOk k = true := keyPathOk_head hq
          have hkd : k.data = u' ++ '/' :: (joinKeys (k₂' :: rest')).data := by
            have e : (joinKeys []).data = [] := rfl
            rw [e, List.append_nil, hu'] at hdata
            simpa using hdata
          exact keyOk_not_split hk _ _ hkd (joinKeys_ne_empty hr')
      | cons k₂ rest =>
        obtain ⟨hd, hk, hr⟩ := keyPathOk_cons_cons hq
        obtain ⟨u, hu, hus⟩ := dirKey_data hd hk
        cases rest' with
        | nil =>
          exfalso
          have hk' : keyOk k' = true := keyPathOk_head hq'
          have hkd : k'.data = u ++ '/' :: (joinKeys (k₂ :: rest)).data := by
            have e : (joinKeys []).data = [] := rfl
            rw [e, List.append_nil, hu] at hdata
            simpa using hdata.symm
          exact keyOk_not_split hk' _ _ hkd (joinKeys_ne_empty hr)
        | cons k₂' rest' =>
          obtain ⟨hd', hk', hr'⟩ := keyPathOk_cons_cons hq'
          obtain ⟨u', hu', hus'⟩ := dirKey_data hd' hk'
          rw [hu, hu', List.append_assoc, List.append_assoc, List.singleton_append,
            List.singleton_append] at hdata
          obtain ⟨e1, e2⟩ := slash_split_unique _ _ _ _ hus hus' hdata
          have hkk : k = k' := String.ext (by rw [hu, hu', e1])
          have hjj : joinKeys (k₂ :: rest) = joinKeys (k₂' :: rest') := String.ext e2
          rw [hkk, ih hr hr' hjj]

theorem append_joinKeys_injective (p : String) {q q' : List String} (hq : keyPathOk q = true)
    (hq' : keyPathOk q' = true) (h : p ++ joinKeys q = p ++ joinKeys q') : q = q' := by
  apply joinKeys_injective hq hq'
  have := congrArg String.data h
  simp only [String.data_append] at this
  exact String.ext (List.append_cancel_left this)

/-! ### Every path is sent once -/

theorem diffKeysChildren_eq_flatMap (cs : List (String × TreeNode)) (oth : TreeNode) :
    diffKeysChildren cs oth = cs.flatMap (fun e => entryKeys e.1 e.2 oth) := by
  induction cs with
  | nil => simp [diffKeysChildren]
  | cons e rest ih =>
    obtain ⟨k, c⟩ := e
    unfold diffKeysChildren
    rw [List.flatMap_cons, ih]
    rfl

theorem diffKeys_eq (cur oth : TreeNode) :
    diffKeys cur oth = cur.Children.flatMap (fun e => entryKeys e.1 e.2 oth)
      ++ removedKeys cur.Children oth.Children := by
  cases cur with
  | mk h n cs =>
    unfold diffKeys
    rw [diffKeysChildren_eq_flatMap]
    rfl

theorem mem_diffKeys {cur oth : TreeNode} {x : DiffType × List String} :
    x ∈ diffKeys cur oth ↔
      (∃ e ∈ cur.Children, x ∈ entryKeys e.1 e.2 oth)
        ∨ x ∈ removedKeys cur.Children oth.Children := by
  rw [diffKeys_eq, List.mem_append, List.mem_flatMap]

theorem mem_removedKeys {cs os : List (String × TreeNode)} {x : DiffType × List String} :
    x ∈ removedKeys cs os ↔ ∃ e ∈ os, mapGet e.1 cs = none ∧ x = (DiffType.Removed, [e.1]) := by
  unfold removedKeys
  rw [List.mem_filterMap]
  constructor
  · rintro ⟨e, he, hx⟩
    cases hg : mapGet e.1 cs with
    | none =>
      simp only [hg, Option.isSome_none, Bool.false_eq_true, if_false, Option.some.injEq] at hx
      exact ⟨e, he, hg, hx.symm⟩
    | some c => simp [hg] at hx
  · rintro ⟨e, he, hg, rfl⟩
    exact ⟨e, he, by simp [hg]⟩

/-- The three shapes of what the first loop sends for one entry: the diffs of a recursive
call under the key, one diff for the key, or nothing. -/
theorem entryKeys_cases (k : String) (c oth : TreeNode) :
    (c.IsDir = true ∧ ∃ o', (o' = oth ∨ mapGet k oth.Children = some o')
        ∧ entryKeys k c oth = (diffKeys c o').map (fun e => (e.1, k :: e.2)))
      ∨ (∃ ty, entryKeys k c oth = [(ty, [k])])
      ∨ entryKeys k c oth = [] := by
  unfold entryKeys
  cases hg : mapGet k oth.Children with
  | none =>
    cases hd : c.IsDir with
    | true => exact Or.inl ⟨rfl, oth, Or.inl rfl, by simp [hd]⟩
    | false => exact Or.inr (Or.inl ⟨DiffType.Added, by simp [hd]⟩)
  | some o =>
    cases hd : c.IsDir with
    | true =>
      cases hd' : o.IsDir with
      | true => exact Or.inl ⟨rfl, o, Or.inr rfl, by simp [hd, hd']⟩
      | false => exact Or.inr (Or.inl ⟨DiffType.Modified, by simp [hd, hd']⟩)
    | false =>
      cases hd' : o.IsDir with
      | true => exact Or.inr (Or.inl ⟨DiffType.Modified, by simp [hd, hd']⟩)
      | false =>
        by_cases hh : c.Hash = o.Hash
        · exact Or.inr (Or.inr (by simp [hd, hd', hh]))
        · exact Or.inr (Or.inl ⟨DiffType.Modified, by simp [hd, hd', hh]⟩)

theorem entryKeys_head {k : String} {c oth : TreeNode} {x : DiffType × List String}
    (hx : x ∈ entryKeys k c oth) : ∃ q', x.2 = k :: q' := by
  rcases entryKeys_cases k c oth with ⟨_, o', _, h⟩ | ⟨ty, h⟩ | h
  · rw [h, List.mem_map] at hx
    obtain ⟨x', _, rfl⟩ := hx
    exact ⟨x'.2, rfl⟩
  · rw [h, List.mem_singleton] at hx
    exact ⟨[], by rw [hx]⟩
  · rw [h] at hx
    simp at hx

theorem diffKeys_keyPathOk (cur : TreeNode) :
    ∀ oth, wfNode cur = true → wfNode oth = true →
      ∀ x ∈ diffKeys cur oth, keyPathOk x.2 = true := by
  induction cur using TreeNode.induct with
  | step h nm cs ih =>
    intro oth hcur hoth x hx
    have hcs := (wfChildren_iff cs).1 ((wfNode_iff _).1 hcur).2
    have hos := (wfChildren_iff oth.Children).1 ((wfNode_iff _).1 hoth).2
    rcases mem_diffKeys.1 hx with ⟨⟨k, c⟩, he, hxe⟩ | hxr
    · obtain ⟨hname, hk, hc⟩ := hcs.2 _ he
      simp only at hname hk hc hxe
      rcases entryKeys_cases k c oth with ⟨hd, o', ho', h⟩ | ⟨ty, h⟩ | h
      · rw [h, List.mem_map] at hxe
        obtain ⟨x', hx', rfl⟩ := hxe
        have ho'wf : wfNode o' = true := by
          rcases ho' with rfl | hg
          · exact hoth
          · exact (wfNode_child hoth hg).2.2
        have := ih (k, c) he o' hc ho'wf x' hx'
        cases hq : x'.2 with
        | nil => simp [hq, keyPathOk] at this
        | cons k₂ rest =>
          rw [hq] at this
          simp only [keyPathOk, Bool.and_eq_true]
          refine ⟨⟨?_, hk⟩, this⟩
          rw [← hname]
          exact hd
      · rw [h, List.mem_singleton] at hxe
        rw [hxe]
        simpa [keyPathOk] using hk
      · rw [h] at hxe
        simp at hxe
    · obtain ⟨e, he, _, rfl⟩ := mem_removedKeys.1 hxr
      simpa [keyPathOk] using (hos.2 e he).2.1

theorem removedKeys_nodup (cs : List (String × TreeNode)) {os : List (String × TreeNode)}
    (hn : nodupKeys os = true) : ((removedKeys cs os).map Prod.snd).Nodup := by
  induction os with
  | nil => simp [removedKeys]
  | cons e rest ih =>
    obtain ⟨k, o⟩ := e
    simp only [nodupKeys, Bool.and_eq_true, Option.isNone_iff_eq_none] at hn
    have ih' := ih hn.2
    unfold removedKeys at ih' ⊢
    by_cases hg : (mapGet k cs).isSome = true
    · simpa [List.filterMap_cons, hg] using ih'
    · simp only [List.filterMap_cons, hg, Bool.false_eq_true, if_false, List.map_cons,
        List.nodup_cons]
      refine ⟨?_, ih'⟩
      intro hmem
      rw [List.mem_map] at hmem
      obtain ⟨x, hx, hxk⟩ := hmem
      obtain ⟨e, he, _, rfl⟩ := (@mem_removedKeys cs _ _).1 hx
      simp only [List.cons.injEq, and_true] at hxk
      exact (mapGet_eq_none_iff k rest).1 hn.1 e he hxk

theorem flatMap_entry_nodup (cs : List (String × TreeNode)) (oth : TreeNode)
    (hn : nodupKeys cs = true)
    (hE : ∀ e ∈ cs, ((entryKeys e.1 e.2 oth).map Prod.snd).Nodup) :
    ((cs.flatMap (fun e => entryKeys e.1 e.2 oth)).map Prod.snd).Nodup := by
  induction cs with
  | nil => simp
  | cons e rest ih =>
    obtain ⟨k, c⟩ := e
    simp only [nodupKeys, Bool.and_eq_true, Option.isNone_iff_eq_none] at hn
    rw [List.flatMap_cons, List.map_append, List.nodup_append]
    refine ⟨hE _ (List.mem_cons_self _ _),
      ih hn.2 (fun e he => hE e (List.mem_cons_of_mem _ he)), ?_⟩
    intro q hq1 hq2
    rw [List.mem_map] at hq1 hq2
    obtain ⟨x1, hx1, rfl⟩ := hq1
    obtain ⟨x2, hx2, heq⟩ := hq2
    rw [List.mem_flatMap] at hx2
    obtain ⟨e2, he2, hx2⟩ := hx2
    obtain ⟨q1, h1⟩ := entryKeys_head hx1
    obtain ⟨q2, h2⟩ := entryKeys_head hx2
    rw [h1, h2] at heq
    simp only [List.cons.injEq] at heq
    exact (mapGet_eq_none_iff k rest).1 hn.1 e2 he2 heq.1

theorem diffKeys_nodup (cur : TreeNode) :
    ∀ oth, wfNode cur = true → wfNode oth = true →
      ((diffKeys cur oth).map Prod.snd).Nodup := by
  induction cur using TreeNode.induct with
  | step h nm cs ih =>
    intro oth hcur hoth
    have hcs := (wfChildren_iff cs).1 ((wfNode_iff _).1 hcur).2
    have hos := (wfChildren_iff oth.Children).1 ((wfNode_iff _).1 hoth).2
    rw [diffKeys_eq, List.map_append, List.nodup_append]
    refine ⟨?_, removedKeys_nodup _ hos.1, ?_⟩
    · apply flatMap_entry_nodup _ _ hcs.1
      rintro ⟨k, c⟩ he
      obtain ⟨_, _, hc⟩ := hcs.2 _ he
      rcases entryKeys_cases k c oth with ⟨hd, o', ho', h⟩ | ⟨ty, h⟩ | h
      · have ho'wf : wfNode o' = true := by
          rcases ho' with rfl | hg
          · exact hoth
          · exact (wfNode_child hoth hg).2.2
        simp only [h, List.map_map]
        have := ih (k, c) he o' hc ho'wf
        rw [show (Prod.snd ∘ fun e : DiffType × List String => (e.1, k :: e.2))
          = (fun q => k :: q) ∘ Prod.snd from rfl, ← List.map_map]
        exact this.map (fun a b hab => by simpa using hab)
      · simp [h]
      · simp [h]
    · intro q hq1 hq2
      rw [List.mem_map] at hq1 hq2
      obtain ⟨x1, hx1, rfl⟩ := hq1
      obtain ⟨x2, hx2, heq⟩ := hq2
      rw [List.mem_flatMap] at hx1
      obtain ⟨e1, he1, hx1⟩ := hx1
      obtain ⟨q1, h1⟩ := entryKeys_head hx1
      obtain ⟨e2, he2, hnone, rfl⟩ := mem_removedKeys.1 hx2
      rw [h1] at heq
      simp only [List.cons.injEq] at heq
      exact (mapGet_eq_none_iff e2.1 _).1 hnone e1 he1 heq.1.symm

theorem diff_paths_nodup (t other : Tree) (ht : t.WF) (ho : other.WF) :
    ((CompareAndBuildDiff t other).map TreeDiff.Path).Nodup := by
  rw [CompareAndBuildDiff_eq_map, List.map_map]
  have hnd := diffKeys_nodup t.Root other.Root ht.2 ho.2
  have hok := diffKeys_keyPathOk t.Root other.Root ht.2 ho.2
  rw [show (TreeDiff.Path ∘ toDiff t.Root.Name)
    = (fun q => t.Root.Name ++ joinKeys q) ∘ Prod.snd from rfl, ← List.map_map]
  apply List.Nodup.map_on _ hnd
  intro q hq q' hq' heq
  rw [List.mem_map] at hq hq'
  obtain ⟨x, hx, rfl⟩ := hq
  obtain ⟨x', hx', rfl⟩ := hq'
  exact append_joinKeys_injective _ (hok x hx) (hok x' hx') heq

/-! ### What the diff stands for when no directory is new -/

theorem dirsWithinChildren_iff (cs : List (String × TreeNode)) (oth : TreeNode) :
    dirsWithinChildren cs oth = true ↔
      ∀ e ∈ cs, e.2.IsDir = true →
        ∃ o, mapGet e.1 oth.Children = some o ∧ dirsWithin e.2 o = true := by
  induction cs with
  | nil => simp [dirsWithinChildren]
  | cons e rest ih =>
    obtain ⟨k, c⟩ := e
    unfold dirsWithinChildren
    rw [Bool.and_eq_true, ih, List.forall_mem_cons]
    apply and_congr_left'
    cases hg : mapGet k oth.Children with
    | none => simp
    | some o => cases c.IsDir <;> simp

theorem dirsWithin_iff (cur oth : TreeNode) :
    dirsWithin cur oth = true ↔
      ∀ e ∈ cur.Children, e.2.IsDir = true →
        ∃ o, mapGet e.1 oth.Children = some o ∧ dirsWithin e.2 o = true := by
  cases cur with
  | mk h n cs =>
    rw [show dirsWithin (TreeNode.mk h n cs) oth = dirsWithinChildren cs oth from by
      rw [dirsWithin]]
    exact dirsWithinChildren_iff cs oth

theorem IsDir_of_child_key {n c : TreeNode} {k : String} (hwf : wfNode n = true)
    (hg : mapGet k n.Children = some c) : c.IsDir = nameIsDir k := by
  simp only [TreeNode.IsDir, (wfNode_child hwf hg).1]

theorem IsDir_of_nodeAt_cons {n m : TreeNode} {k : String} {q : List String}
    (hwf : wfNode n = true) (h : nodeAt n (k :: q) = some m) : n.IsDir = true := by
  obtain ⟨c, hg, _⟩ := nodeAt_cons_some h
  exact IsDir_of_child hwf hg

theorem Explains_cons (cur : TreeNode) {oth c o : TreeNode} {k : String} (ty : DiffType)
    {q : List String} (hc : mapGet k cur.Children = some c) (ho : mapGet k oth.Children = some o) (hq : q ≠ []) :
    Explains cur oth ty (k :: q) ↔ Explains c o ty q := by
  unfold Explains
  rw [List.dropLast_cons_of_ne_nil hq]
  simp only [nodeAt_cons, hc, ho, Option.some_bind, ne_eq, hq, not_false_eq_true, true_and,
    reduceCtorEq]

theorem mem_diffKeys_iff (cur : TreeNode) :
    ∀ oth, wfNode cur = true → wfNode oth = true → dirsWithin cur oth = true →
      ∀ ty q, (ty, q) ∈ diffKeys cur oth ↔ Explains cur oth ty q := by
  induction cur using TreeNode.induct with
  | step h nm cs ih =>
    intro oth hcur hoth hdirs ty q
    have hcs := (wfChildren_iff cs).1 ((wfNode_iff _).1 hcur).2
    have hos := (wfChildren_iff oth.Children).1 ((wfNode_iff _).1 hoth).2
    have hD := (dirsWithin_iff _ oth).1 hdirs
    simp only [TreeNode.Children_mk] at hD
    -- what the first loop sends for an entry, by the kind of the entry
    have hE1 : ∀ k c, (k, c) ∈ cs → c.IsDir = true →
        ∃ o, mapGet k oth.Children = some o ∧ dirsWithin c o = true ∧ o.IsDir = true
          ∧ entryKeys k c oth = (diffKeys c o).map (fun e => (e.1, k :: e.2)) := by
      intro k c he hd
      obtain ⟨o, hg, hdo⟩ := hD (k, c) he hd
      have hod : o.IsDir = true := by
        rw [IsDir_of_child_key hoth hg, ← IsDir_of_child_key hcur (mapGet_of_mem hcs.1 he)]
        exact hd
      exact ⟨o, hg, hdo, hod, by simp [entryKeys, hg, hd, hod]⟩
    have hE2 : ∀ k c o, (k, c) ∈ cs → c.IsDir = false → mapGet k oth.Children = some o →
        entryKeys k c oth
          = if c.Hash ≠ o.Hash then [(DiffType.Modified, [k])] else [] := by
      intro k c o he hd hg
      have hod : o.IsDir = false := by
        rw [IsDir_of_child_key hoth hg, ← IsDir_of_child_key hcur (mapGet_of_mem hcs.1 he)]
        exact hd
      simp [entryKeys, hg, hd, hod]
    have hE3 : ∀ k c, c.IsDir = false → mapGet k oth.Children = none →
        entryKeys k c oth = [(DiffType.Added, [k])] := by
      intro k c hd hg
      simp [entryKeys, hg, hd]
    rw [mem_diffKeys]
    simp only [TreeNode.Children_mk]
    constructor
    · rintro (⟨⟨k, c⟩, he, hx⟩ | hx)
      · have hgc : mapGet k cs = some c := mapGet_of_mem hcs.1 he
        simp only at hx
        cases hd : c.IsDir with
        | true =>
          obtain ⟨o, hg, hdo, _, hent⟩ := hE1 k c he hd
          rw [hent, List.mem_map] at hx
          obtain ⟨⟨ty', q'⟩, hx', heq⟩ := hx
          simp only [Prod.mk.injEq] at heq
          obtain ⟨rfl, rfl⟩ := heq
          have hexp := (ih (k, c) he o (hcs.2 _ he).2.2 (wfNode_child hoth hg).2.2 hdo ty' q').1 hx'
          exact (Explains_cons (TreeNode.mk h nm cs) ty' hgc hg hexp.1).2 hexp
        | false =>
          cases hg : mapGet k oth.Children with
          | none =>
            rw [hE3 k c hd hg, List.mem_singleton, Prod.mk.injEq] at hx
            obtain ⟨rfl, rfl⟩ := hx
            refine ⟨by simp, Or.inl ⟨rfl, ⟨c, by simp [nodeAt_cons, hgc], hd⟩, ?_⟩⟩
            simp [nodeAt_cons, hg]
          | some o =>
            rw [hE2 k c o he hd hg] at hx
            by_cases hh : c.Hash = o.Hash
            · simp [hh] at hx
            · simp only [ne_eq, hh, not_false_eq_true, if_true, List.mem_singleton,
                Prod.mk.injEq] at hx
              obtain ⟨rfl, rfl⟩ := hx
              exact ⟨by simp, Or.inr (Or.inl ⟨rfl, c, o, by simp [nodeAt_cons, hgc],
                by simp [nodeAt_cons, hg], hd, hh⟩)⟩
      · obtain ⟨e, he, hnone, heq⟩ := mem_removedKeys.1 hx
        simp only [Prod.mk.injEq] at heq
        obtain ⟨rfl, rfl⟩ := heq
        refine ⟨by simp, Or.inr (Or.inr ⟨rfl, by simp [nodeAt_cons, hnone], ?_, by simp⟩)⟩
        simp [nodeAt_cons, mapGet_of_mem hos.1 (show (e.1, e.2) ∈ oth.Children from he)]
    · intro hexp
      obtain ⟨hq, hcases⟩ := id hexp
      cases q with
      | nil => exact absurd rfl hq
      | cons k q' =>
        by_cases hq' : q' = []
        · subst hq'
          rcases hcases with ⟨rfl, ⟨n, hn, hfile⟩, hnone⟩ | ⟨rfl, n₂, n₁, hn₂, hn₁, hfile, hh⟩
            | ⟨rfl, hnone, hsome, _⟩
          · obtain ⟨c, hgc, hc⟩ := nodeAt_cons_some hn
            simp only [nodeAt_nil, Option.some.injEq, TreeNode.Children_mk] at hc hgc
            subst hc
            have hgo : mapGet k oth.Children = none := by
              cases hg : mapGet k oth.Children with
              | none => rfl
              | some o => simp [nodeAt_cons, hg] at hnone
            exact Or.inl ⟨(k, c), mem_of_mapGet hgc, by simp [hE3 k c hfile hgo]⟩
          · obtain ⟨c, hgc, hc⟩ := nodeAt_cons_some hn₂
            obtain ⟨o, hgo, ho⟩ := nodeAt_cons_some hn₁
            simp only [nodeAt_nil, Option.some.injEq, TreeNode.Children_mk] at hc ho hgc
            subst hc ho
            exact Or.inl ⟨(k, c), mem_of_mapGet hgc,
              by simp [hE2 k c o (mem_of_mapGet hgc) hfile hgo, hh]⟩
          · right
            rw [mem_removedKeys]
            cases hgo : mapGet k oth.Children with
            | none => simp [nodeAt_cons, hgo] at hsome
            | some o =>
              refine ⟨(k, o), mem_of_mapGet hgo, ?_, rfl⟩
              cases hgc : mapGet k cs with
              | none => rfl
              | some c => simp [nodeAt_cons, hgc] at hnone
        · -- a longer key path: the first key is a directory of both nodes
          have hkey : ∃ c, mapGet k cs = some c ∧ c.IsDir = true := by
            rcases hcases with ⟨_, ⟨n, hn, _⟩, _⟩ | ⟨_, n₂, _, hn₂, _, _, _⟩ | ⟨_, _, hsome, hpar⟩
            · obtain ⟨c, hgc, hc⟩ := nodeAt_cons_some hn
              obtain ⟨k₂, r, rfl⟩ := List.exists_cons_of_ne_nil hq'
              exact ⟨c, hgc, IsDir_of_nodeAt_cons (wfNode_child hcur hgc).2.2 hc⟩
            · obtain ⟨c, hgc, hc⟩ := nodeAt_cons_some hn₂
              obtain ⟨k₂, r, rfl⟩ := List.exists_cons_of_ne_nil hq'
              exact ⟨c, hgc, IsDir_of_nodeAt_cons (wfNode_child hcur hgc).2.2 hc⟩
            · rw [List.dropLast_cons_of_ne_nil hq', nodeAt_cons] at hpar
              cases hgc : mapGet k cs with
              | none => simp [hgc] at hpar
              | some c =>
                refine ⟨c, rfl, ?_⟩
                cases hgo : nodeAt oth (k :: q') with
                | none => simp [hgo] at hsome
                | some m =>
                  obtain ⟨o, hgo', ho⟩ := nodeAt_cons_some hgo
                  obtain ⟨k₂, r, rfl⟩ := List.exists_cons_of_ne_nil hq'
                  have hod := IsDir_of_nodeAt_cons (wfNode_child hoth hgo').2.2 ho
                  rw [IsDir_of_child_key hoth hgo'] at hod
                  rw [IsDir_of_child_key hcur (show mapGet k (TreeNode.mk h nm cs).Children
                    = some c from hgc)]
                  exact hod
          obtain ⟨c, hgc, hd⟩ := hkey
          have he := mem_of_mapGet hgc
          obtain ⟨o, hg, hdo, _, hent⟩ := hE1 k c he hd
          have hexp' := (Explains_cons (TreeNode.mk h nm cs) ty hgc hg hq').1 hexp
          have hmem := (ih (k, c) he o (hcs.2 _ he).2.2 (wfNode_child hoth hg).2.2 hdo ty q').2
            hexp'
          refine Or.inl ⟨(k, c), he, ?_⟩
          simp only [hent, List.mem_map]
          exact ⟨(ty, q'), hmem, rfl⟩

/-! ### Trees with the same files -/

theorem same_kind_at {a b n m : TreeNode} {q : List String} (ha : wfNode a = true)
    (hb : wfNode b = true) (hq : q ≠ []) (hn : nodeAt a q = some n) (hm : nodeAt b q = some m) :
    n.IsDir = m.IsDir := by
  obtain ⟨q0, k, rfl⟩ : ∃ q0 k, q = q0 ++ [k] :=
    ⟨q.dropLast, q.getLast hq, (List.dropLast_append_getLast hq).symm⟩
  simp only [TreeNode.IsDir, Name_of_nodeAt_snoc ha hn, Name_of_nodeAt_snoc hb hm]

theorem exists_file_below (n : TreeNode) :
    wfNode n = true → prunedNode n = true → isEmptyDir n = false →
      ∃ r m, nodeAt n r = some m ∧ m.IsDir = false := by
  induction n using TreeNode.induct with
  | step h nm cs ih =>
    intro hwf hp hne
    cases hd : nameIsDir nm with
    | false => exact ⟨[], _, nodeAt_nil _, by simpa using hd⟩
    | true =>
      cases cs with
      | nil => simp [isEmptyDir, hd] at hne
      | cons e rest =>
        obtain ⟨k, c⟩ := e
        simp only [prunedNode, prunedChildren, Bool.and_eq_true, Bool.not_eq_true'] at hp
        have hc := (wfNode_child hwf (show mapGet k (TreeNode.mk h nm ((k, c) :: rest)).Children
          = some c from by simp [mapGet_cons])).2.2
        obtain ⟨r, m, hm, hfile⟩ := ih (k, c) (List.mem_cons_self _ _) hc hp.1.2 hp.1.1
        exact ⟨k :: r, m, by simp [nodeAt_cons, mapGet_cons, hm], hfile⟩

theorem pruned_child {n c : TreeNode} {k : String} (hp : prunedNode n = true)
    (hg : mapGet k n.Children = some c) : prunedNode c = true ∧ isEmptyDir c = false := by
  cases n with
  | mk h nm cs =>
    simp only [prunedNode, prunedChildren_eq_all, List.all_eq_true, Bool.and_eq_true,
      Bool.not_eq_true'] at hp
    have := hp _ (mem_of_mapGet hg)
    exact ⟨this.2, this.1⟩

theorem pruned_of_nodeAt {q : List String} {n d : TreeNode} (hp : prunedNode n = true)
    (h : nodeAt n q = some d) : prunedNode d = true ∧ (q ≠ [] → isEmptyDir d = false) := by
  induction q generalizing n with
  | nil =>
    simp only [nodeAt_nil, Option.some.injEq] at h
    subst h
    exact ⟨hp, fun hq => absurd rfl hq⟩
  | cons k q ih =>
    obtain ⟨c, hg, hc⟩ := nodeAt_cons_some h
    have hpc := pruned_child hp hg
    refine ⟨(ih hpc.1 hc).1, fun _ => ?_⟩
    by_cases hq : q = []
    · subst hq
      simp only [nodeAt_nil, Option.some.injEq] at hc
      rw [← hc]
      exact hpc.2
    · exact (ih hpc.1 hc).2 hq

theorem dirsWithin_of_forall (cur : TreeNode) :
    ∀ oth, wfNode cur = true → wfNode oth = true →
      (∀ q d, q ≠ [] → nodeAt cur q = some d → d.IsDir = true → (nodeAt oth q).isSome = true) →
      dirsWithin cur oth = true := by
  induction cur using TreeNode.induct with
  | step h nm cs ih =>
    intro oth hcur hoth hall
    have hcs := (wfChildren_iff cs).1 ((wfNode_iff _).1 hcur).2
    rw [dirsWithin_iff]
    rintro ⟨k, c⟩ he hd
    have hgc : mapGet k (TreeNode.mk h nm cs).Children = some c := mapGet_of_mem hcs.1 he
    have h1 := hall [k] c (by simp) (by rw [nodeAt_cons, hgc]; rfl) hd
    cases hgo : mapGet k oth.Children with
    | none => simp [nodeAt_cons, hgo] at h1
    | some o =>
      refine ⟨o, rfl, ih (k, c) he o (hcs.2 _ he).2.2 (wfNode_child hoth hgo).2.2 ?_⟩
      intro q d _ hqd hdd
      have := hall (k :: q) d (by simp) (by rw [nodeAt_cons, hgc]; exact hqd) hdd
      simpa [nodeAt_cons, hgo] using this

theorem nodeAt_isSome_of_append {n : TreeNode} {q r : List String}
    (h : (nodeAt n (q ++ r)).isSome = true) : (nodeAt n q).isSome = true := by
  rw [nodeAt_append] at h
  cases hq : nodeAt n q with
  | none => simp [hq] at h
  | some d => rfl

theorem root_not_file (t : Tree) (hwf : t.WF) : ¬ fileAt t [] := by
  rintro ⟨n, hn, hfile⟩
  simp only [nodeAt_nil, Option.some.injEq] at hn
  have := hwf.1
  rw [← hn] at hfile
  simp only [TreeNode.IsDir] at hfile
  rw [hfile] at this
  cases this

/-- Two well-formed, pruned trees with the same files have the same directories. -/
theorem dirs_of_same_files (t₁ t₂ : Tree) (h₂ : t₂.WF)
    (hp₂ : prunedNode t₂.Root = true) (hsame : ∀ q, fileAt t₂ q → fileAt t₁ q) :
    ∀ q, (nodeAt t₂.Root q).isSome = true → (nodeAt t₁.Root q).isSome = true := by
  intro q hq
  by_cases hnil : q = []
  · subst hnil
    simp
  · cases hd : nodeAt t₂.Root q with
    | none => simp [hd] at hq
    | some d =>
      obtain ⟨r, m, hm, hfile⟩ := exists_file_below d (wfNode_of_nodeAt h₂.2 hd)
        (pruned_of_nodeAt hp₂ hd).1 ((pruned_of_nodeAt hp₂ hd).2 hnil)
      have hf₂ : fileAt t₂ (q ++ r) := ⟨m, by rw [nodeAt_append, hd]; exact hm, hfile⟩
      obtain ⟨m', hm', _⟩ := hsame _ hf₂
      exact nodeAt_isSome_of_append (by rw [hm']; rfl)

/-- The test `dirsWithin` says what it is meant to say: every directory below `cur` has a
node at the same key path below `oth`. -/
theorem nodeAt_of_dirsWithin {q : List String} :
    ∀ {cur oth d : TreeNode}, wfNode cur = true → dirsWithin cur oth = true → q ≠ [] →
      nodeAt cur q = some d → d.IsDir = true → (nodeAt oth q).isSome = true := by
  induction q with
  | nil => intro _ _ _ _ _ hq; exact absurd rfl hq
  | cons k q ih =>
    intro cur oth d hwf hdirs _ hd hdir
    obtain ⟨c, hg, hc⟩ := nodeAt_cons_some hd
    have hcwf := (wfNode_child hwf hg).2.2
    have hcdir : c.IsDir = true := by
      cases q with
      | nil =>
        simp only [nodeAt_nil, Option.some.injEq] at hc
        rw [hc]
        exact hdir
      | cons k₂ r => exact IsDir_of_nodeAt_cons hcwf hc
    obtain ⟨o, hgo, hdo⟩ := (dirsWithin_iff cur oth).1 hdirs (k, c) (mem_of_mapGet hg) hcdir
    rw [nodeAt_cons, hgo, Option.some_bind]
    by_cases hq : q = []
    · subst hq
      rfl
    · exact ih hcwf hdo hq hc hdir

/-! ### The diff against an empty tree -/

theorem mem_diffKeys_empty (cur : TreeNode) :
    ∀ oth, wfNode cur = true → oth.Children = [] →
      ∀ ty q, (ty, q) ∈ diffKeys cur oth ↔
        ty = DiffType.Added ∧ q ≠ [] ∧ ∃ n, nodeAt cur q = some n ∧ n.IsDir = false := by
  induction cur using TreeNode.induct with
  | step h nm cs ih =>
    intro oth hcur hoth ty q
    have hcs := (wfChildren_iff cs).1 ((wfNode_iff _).1 hcur).2
    have hE : ∀ k c, entryKeys k c oth
        = if c.IsDir then (diffKeys c oth).map (fun e => (e.1, k :: e.2))
          else [(DiffType.Added, [k])] := by
      intro k c
      simp [entryKeys, hoth]
    rw [mem_diffKeys, hoth]
    simp only [TreeNode.Children_mk, removedKeys, List.filterMap_nil, List.not_mem_nil, or_false]
    constructor
    · rintro ⟨⟨k, c⟩, he, hx⟩
      have hgc : mapGet k cs = some c := mapGet_of_mem hcs.1 he
      simp only [hE] at hx
      cases hd : c.IsDir with
      | true =>
        simp only [hd, if_true, List.mem_map] at hx
        obtain ⟨⟨ty', q'⟩, hx', heq⟩ := hx
        simp only [Prod.mk.injEq] at heq
        obtain ⟨rfl, rfl⟩ := heq
        obtain ⟨hty, _, n, hn, hfile⟩ := (ih (k, c) he oth (hcs.2 _ he).2.2 hoth ty' q').1 hx'
        exact ⟨hty, by simp, n, by simp [nodeAt_cons, hgc, hn], hfile⟩
      | false =>
        simp only [hd, Bool.false_eq_true, if_false, List.mem_singleton, Prod.mk.injEq] at hx
        obtain ⟨rfl, rfl⟩ := hx
        exact ⟨rfl, by simp, c, by simp [nodeAt_cons, hgc], hd⟩
    · rintro ⟨rfl, hq, n, hn, hfile⟩
      cases q with
      | nil => exact absurd rfl hq
      | cons k q' =>
        obtain ⟨c, hgc, hc⟩ := nodeAt_cons_some hn
        simp only [TreeNode.Children_mk] at hgc
        have he := mem_of_mapGet hgc
        refine ⟨(k, c), he, ?_⟩
        simp only [hE]
        by_cases hq' : q' = []
        · subst hq'
          simp only [nodeAt_nil, Option.some.injEq] at hc
          subst hc
          simp [hfile]
        · obtain ⟨k₂, r, rfl⟩ := List.exists_cons_of_ne_nil hq'
          have hd := IsDir_of_nodeAt_cons (hcs.2 _ he).2.2 hc
          simp only [hd, if_true, List.mem_map]
          exact ⟨(DiffType.Added, k₂ :: r),
            (ih (k, c) he oth (hcs.2 _ he).2.2 hoth _ _).2 ⟨rfl, by simp, n, hc, hfile⟩, rfl⟩

/-- Against a tree whose root has no children, as `NewTree` makes it, the diff of a
well-formed tree is one `Added` for each of its files and nothing else. -/
theorem diff_against_empty (t other : Tree) (ht : t.WF) (hempty : other.Root.Children = []) :
    (∀ d, d ∈ CompareAndBuildDiff t other ↔
        d.Kind = DiffType.Added ∧ ∃ q, fileAt t q ∧ d.Path = t.Root.Name ++ joinKeys q)
      ∧ ((CompareAndBuildDiff t other).map TreeDiff.Path).Nodup := by
  have hwfo : wfNode other.Root = true := by
    rw [wfNode_iff, hempty]
    exact ⟨Or.inl rfl, rfl⟩
  constructor
  · intro d
    rw [CompareAndBuildDiff_eq_map, List.mem_map]
    constructor
    · rintro ⟨⟨ty, q⟩, hx, rfl⟩
      obtain ⟨rfl, _, n, hn, hfile⟩ := (mem_diffKeys_empty t.Root other.Root ht.2 hempty ty q).1 hx
      exact ⟨rfl, q, ⟨n, hn, hfile⟩, rfl⟩
    · rintro ⟨hk, q, ⟨n, hn, hfile⟩, hpath⟩
      have hq : q ≠ [] := fun hq => root_not_file t ht (hq ▸ ⟨n, hn, hfile⟩)
      refine ⟨(DiffType.Added, q),
        (mem_diffKeys_empty t.Root other.Root ht.2 hempty _ q).2 ⟨rfl, hq, n, hn, hfile⟩, ?_⟩
      cases d with
      | mk kind path =>
        simp only at hpath hk
        simp [toDiff, hpath, hk]
  · rw [CompareAndBuildDiff_eq_map, List.map_map]
    have hnd := diffKeys_nodup t.Root other.Root ht.2 hwfo
    have hok := diffKeys_keyPathOk t.Root other.Root ht.2 hwfo
    rw [show (TreeDiff.Path ∘ toDiff t.Root.Name)
      = (fun q => t.Root.Name ++ joinKeys q) ∘ Prod.snd from rfl, ← List.map_map]
    apply List.Nodup.map_on _ hnd
    intro q hq q' hq' heq
    rw [List.mem_map] at hq hq'
    obtain ⟨x, hx, rfl⟩ := hq
    obtain ⟨x', hx', rfl⟩ := hq'
    exact append_joinKeys_injective _ (hok x hx) (hok x' hx') heq

theorem diff_against_empty_witness :
    nested.WF ∧ (NewTree "" "notes").Root.Children = []
      ∧ ((CompareAndBuildDiff nested (NewTree "" "notes")).map TreeDiff.Path).Nodup :=
  ⟨by decide!, rfl, (diff_against_empty nested (NewTree "" "notes") (by decide!) rfl).2⟩

/-! ### What does not depend on the visiting order, and what one order fixes -/

theorem shapeChildren_eq_map (cs : List (String × TreeNode)) :
    shapeChildren cs = cs.map (fun e => (e.1, shape e.2)) := by
  induction cs with
  | nil => simp [shapeChildren]
  | cons e rest ih =>
    obtain ⟨k, c⟩ := e
    simp [shapeChildren, ih]

theorem keptChildren_eq (ord : RangeOrder) (cs : List (String × TreeNode)) :
    keptChildren ord cs
      = (cs.filter (fun e => survives e.2)).map (fun e => (e.1, calculateNodeHash ord e.2)) := by
  unfold keptChildren
  rw [calculateChildren_eq_map, List.filter_map]
  congr 1
  apply List.filter_congr
  intro e _
  simp [isEmptyDir_calculateNodeHash]

/-- The hash pass leaves the same names, structure and file hashes whatever the order in
which it visits the children. -/
theorem shape_calculateNodeHash (ord₁ ord₂ : RangeOrder) (n : TreeNode) :
    shape (calculateNodeHash ord₁ n) = shape (calculateNodeHash ord₂ n) := by
  induction n using TreeNode.induct with
  | step h nm cs ih =>
    cases hd : nameIsDir nm with
    | false =>
      rw [calculateNodeHash_file ord₁ _ (by simpa using hd),
        calculateNodeHash_file ord₂ _ (by simpa using hd)]
    | true =>
      rw [calculateNodeHash_dir ord₁ _ (by simpa using hd),
        calculateNodeHash_dir ord₂ _ (by simpa using hd)]
      simp only [TreeNode.Name_mk, TreeNode.Children_mk, shape, hd, if_true, shapeChildren_eq_map,
        keptChildren_eq, List.map_map, TreeNode.mk.injEq, true_and]
      apply List.map_congr_left
      intro e he
      simp only [Function.comp, Prod.mk.injEq, true_and]
      exact ih e (List.mem_of_mem_filter he)

theorem survives_calculateNodeHash (ord : RangeOrder) (n : TreeNode) :
    survives (calculateNodeHash ord n) = survives n := by
  induction n using TreeNode.induct with
  | step h nm cs ih =>
    cases hd : nameIsDir nm with
    | false => rw [calculateNodeHash_file ord _ (by simpa using hd)]
    | true =>
      rw [calculateNodeHash_dir ord _ (by simpa using hd)]
      simp only [TreeNode.Name_mk, TreeNode.Children_mk, survives, hd, Bool.not_true,
        Bool.false_or, anySurvives_eq_any, keptChildren_eq]
      rw [Bool.eq_iff_iff]
      simp only [List.any_eq_true, List.mem_map, List.mem_filter]
      constructor
      · rintro ⟨e, ⟨e0, ⟨he0, hs0⟩, rfl⟩, _⟩
        exact ⟨e0, he0, hs0⟩
      · rintro ⟨e0, he0, hs0⟩
        exact ⟨_, ⟨e0, ⟨he0, hs0⟩, rfl⟩, by simpa [ih e0 he0] using hs0⟩

/-- A second hash pass in the same visiting order changes nothing. -/
theorem calculateNodeHash_idempotent (ord : RangeOrder) (n : TreeNode) :
    calculateNodeHash ord (calculateNodeHash ord n) = calculateNodeHash ord n := by
  induction n using TreeNode.induct with
  | step h nm cs ih =>
    cases hd : nameIsDir nm with
    | false =>
      rw [calculateNodeHash_file ord _ (by simpa using hd),
        calculateNodeHash_file ord _ (by simpa using hd)]
    | true =>
      have hkept : keptChildren ord (keptChildren ord cs) = keptChildren ord cs := by
        conv_lhs => rw [keptChildren_eq]
        have hall : ∀ e ∈ keptChildren ord cs, survives e.2 = true := by
          intro e he
          rw [keptChildren_eq, List.mem_map] at he
          obtain ⟨e0, he0, rfl⟩ := he
          rw [List.mem_filter] at he0
          simpa [survives_calculateNodeHash] using he0.2
        rw [List.filter_eq_self.2 hall]
        conv_rhs => rw [← List.map_id (keptChildren ord cs)]
        apply List.map_congr_left
        intro e he
        rw [keptChildren_eq, List.mem_map] at he
        obtain ⟨e0, he0, rfl⟩ := he
        simp only [id]
        rw [ih e0 (List.mem_of_mem_filter he0)]
      rw [calculateNodeHash_dir ord (TreeNode.mk h nm cs) (by simpa using hd)]
      simp only [TreeNode.Name_mk, TreeNode.Children_mk]
      rw [calculateNodeHash_dir ord _ (by simpa using hd)]
      simp only [TreeNode.Name_mk, TreeNode.Children_mk, hkept]

theorem mapSet_of_mapGet {β : Type} {k : String} {v : β} {m : List (String × β)}
    (h : mapGet k m = some v) : mapSet k v m = m := by
  induction m with
  | nil => simp at h
  | cons e rest ih =>
    obtain ⟨k', v'⟩ := e
    by_cases h' : k' = k
    · subst h'
      simp only [mapGet_cons, if_true, Option.some.injEq] at h
      simp [mapSet, h]
    · simp only [mapGet_cons, h', if_false] at h
      simp [mapSet, h', ih h]

theorem setChildren_self (n : TreeNode) : n.setChildren n.Children = n := by
  cases n; rfl

theorem setHash_self (n : TreeNode) : n.setHash n.Hash = n := by
  cases n; rfl

/-- The walk of `AddNode` over a path that already ends in a file with the hash of the
content changes nothing. -/
theorem addSegments_of_present (content : List Nat) (segs : List String) (n leaf : TreeNode)
    (hne : ∀ s ∈ segs, s ≠ "") (hleaf : nodeAt n segs = some leaf)
    (hhash : segs ≠ [] → leaf.Hash = CalculateHash content) :
    addSegments (some content) segs n = n := by
  induction segs generalizing n with
  | nil => rfl
  | cons s rest ih =>
    have hs := hne s (List.mem_cons_self _ _)
    have hrest : ∀ x ∈ rest, x ≠ "" := fun x hx => hne x (List.mem_cons_of_mem _ hx)
    obtain ⟨c, hg, hc⟩ := nodeAt_cons_some hleaf
    rw [addSegments_cons _ _ _ _ hs]
    have hstep : addSegments (some content) rest (addStep (some content) rest.isEmpty s n) = c := by
      cases rest with
      | nil =>
        simp only [nodeAt_nil, Option.some.injEq] at hc
        subst hc
        have hh := hhash (by simp)
        simp only [addSegments_nil, addStep, hg, List.isEmpty_nil, Option.isSome_some,
          Bool.and_self, if_true, Option.getD_some]
        rw [← hh, setHash_self]
      | cons t rest =>
        rw [show (t :: rest).isEmpty = false from rfl, addStep_inner _ _ _ _ hg]
        exact ih c hrest hc (fun _ => hhash (by simp))
    rw [hstep, mapSet_of_mapGet hg, setChildren_self]

/-- A second `AddNode` with the same path and content leaves the
names, the structure and the file hashes as the first one left them, and the very same tree
when its hash pass visits the children in the same order. -/
theorem AddNode_twice (ord₁ ord₂ : RangeOrder) (t : Tree) (path : String) (content : List Nat)
    (hwf : t.WF) (hlast : (SplitPath path).getLast? ≠ some "") :
    shape (AddNode ord₂ (AddNode ord₁ t path (some content)) path (some content)).Root
        = shape (AddNode ord₁ t path (some content)).Root
      ∧ AddNode ord₁ (AddNode ord₁ t path (some content)) path (some content)
        = AddNode ord₁ t path (some content) := by
  have hsegs := segsOk_SplitPath path
  have hne := segsOk_ne_empty hsegs hlast
  obtain ⟨leaf, _, hleaf, _, _, hhash⟩ := nodeAt_AddNode_self ord₁ t path content hwf hlast
  have hsame : ∀ ord : RangeOrder,
      AddNode ord (AddNode ord₁ t path (some content)) path (some content)
        = ⟨calculateNodeHash ord (AddNode ord₁ t path (some content)).Root⟩ := by
    intro ord
    show CalculateDirectoryHashes ord _ = _
    unfold CalculateDirectoryHashes
    rw [addSegments_of_present content _ _ leaf hne hleaf (fun _ => hhash)]
  constructor
  · rw [hsame ord₂]
    show shape (calculateNodeHash ord₂ (calculateNodeHash ord₁ _)) = _
    rw [shape_calculateNodeHash ord₂ ord₁, calculateNodeHash_idempotent]
    rfl
  · rw [hsame ord₁]
    show Tree.mk (calculateNodeHash ord₁ (calculateNodeHash ord₁ _)) = _
    rw [calculateNodeHash_idempotent]
    rfl

theorem AddNode_twice_witness :
    (NewTree "" "notes").WF ∧ (SplitPath "a/b.md").getLast? ≠ some ""
      ∧ AddNode RangeOrder.stored
          (AddNode RangeOrder.stored (NewTree "" "notes") "a/b.md" (some bytesX))
          "a/b.md" (some bytesX)
        = AddNode RangeOrder.stored (NewTree "" "notes") "a/b.md" (some bytesX) :=
  ⟨by decide, by decide,
    (AddNode_twice RangeOrder.stored RangeOrder.stored (NewTree "" "notes") "a/b.md" bytesX
      (by decide) (by decide)).2⟩

theorem nodeAt_removeSegments_self (segs : List String) (n : TreeNode)
    (hnil : segs ≠ []) (hne : ∀ s ∈ segs, s ≠ "") :
    nodeAt (removeSegments segs n) segs = none := by
  induction segs generalizing n with
  | nil => exact absurd rfl hnil
  | cons s rest ih =>
    have hs := hne s (List.mem_cons_self _ _)
    have hrest : ∀ x ∈ rest, x ≠ "" := fun x hx => hne x (List.mem_cons_of_mem _ hx)
    cases hg : mapGet s n.Children with
    | none => rw [removeSegments_cons_none _ _ _ hs hg, nodeAt_cons, hg]; rfl
    | some child =>
      cases rest with
      | nil =>
        rw [removeSegments_last _ _ _ hs hg, nodeAt_setChildren_cons, mapGet_mapDelete_same]
        rfl
      | cons t rest =>
        rw [removeSegments_cons_some _ _ _ _ _ hs hg, nodeAt_setChildren_cons,
          mapGet_mapSet_same, Option.some_bind]
        exact ih child (by simp) hrest

/-- After `RemoveNode` on a path whose last segment is not
empty, a file path, no node is reachable by the segments of the path. -/
theorem RemoveNode_detaches_file (ord : RangeOrder) (t : Tree) (path : String) (hwf : t.WF)
    (hlast : (SplitPath path).getLast? ≠ some "") :
    nodeAt (RemoveNode ord t path).Root (SplitPath path) = none := by
  have hne := segsOk_ne_empty (segsOk_SplitPath path) hlast
  cases h : nodeAt (RemoveNode ord t path).Root (SplitPath path) with
  | none => rfl
  | some m =>
    exfalso
    obtain ⟨m0, hm0, _, _⟩ :=
      nodeAt_calculateNodeHash_inv ord (wfNode_removeSegments _ _ hwf.2) h
    rw [nodeAt_removeSegments_self _ _ (SplitPath_ne_nil path) hne] at hm0
    cases hm0

theorem RemoveNode_detaches_file_witness :
    nested.WF ∧ (SplitPath "a/b/c.md").getLast? ≠ some ""
      ∧ nodeAt (RemoveNode RangeOrder.stored nested "a/b/c.md").Root (SplitPath "a/b/c.md")
          = none :=
  ⟨by decide!, by decide,
    RemoveNode_detaches_file RangeOrder.stored nested "a/b/c.md" (by decide!) (by decide)⟩

/-! ### The snapshot -/

theorem mapSet_of_none {β : Type} {k : String} (v : β) {m : List (String × β)}
    (h : mapGet k m = none) : mapSet k v m = m ++ [(k, v)] := by
  induction m with
  | nil => rfl
  | cons e rest ih =>
    obtain ⟨k', v'⟩ := e
    by_cases h' : k' = k
    · simp [mapGet_cons, h'] at h
    · simp only [mapGet_cons, h', if_false] at h
      simp [mapSet, h', ih h]

theorem mapGet_append_none {β : Type} {k k' : String} (v : β) {m : List (String × β)}
    (h : mapGet k m = none) (hk : k' ≠ k) : mapGet k (m ++ [(k', v)]) = none := by
  rw [mapGet_eq_none_iff] at h ⊢
  intro e he
  rcases List.mem_append.1 he with he | he
  · exact h e he
  · simp only [List.mem_singleton] at he
    rw [he]
    exact hk

theorem nodupKeys_map {β γ : Type} (f : β → γ) {m : List (String × β)}
    (h : nodupKeys m = true) : nodupKeys (m.map (fun e => (e.1, f e.2))) = true := by
  induction m with
  | nil => rfl
  | cons e rest ih =>
    obtain ⟨k, v⟩ := e
    simp only [nodupKeys, Bool.and_eq_true, Option.isNone_iff_eq_none] at h
    simp only [List.map_cons, nodupKeys, Bool.and_eq_true, Option.isNone_iff_eq_none, ih h.2,
      and_true]
    rw [mapGet_eq_none_iff] at h ⊢
    intro e he
    rw [List.mem_map] at he
    obtain ⟨e0, he0, rfl⟩ := he
    exact h.1 e0 he0

theorem convertToSerializable_Name (n : TreeNode) : (convertToSerializable n).Name = n.Name := by
  cases n with
  | mk h nm cs => simp [convertToSerializable, SerializableNode.Name]

theorem convertChildren_eq (cs : List (String × TreeNode)) :
    ∀ acc : List (String × SerializableNode), nodupKeys cs = true →
      (∀ e ∈ cs, e.2.Name = e.1) → (∀ e ∈ cs, mapGet e.1 acc = none) →
      convertChildren cs acc = acc ++ cs.map (fun e => (e.1, convertToSerializable e.2)) := by
  induction cs with
  | nil => intro acc _ _ _; simp [convertChildren]
  | cons e rest ih =>
    obtain ⟨k, c⟩ := e
    intro acc hn hname hacc
    simp only [nodupKeys, Bool.and_eq_true, Option.isNone_iff_eq_none] at hn
    have hk : c.Name = k := hname (k, c) (List.mem_cons_self _ _)
    have hkacc : mapGet k acc = none := hacc (k, c) (List.mem_cons_self _ _)
    unfold convertChildren
    rw [hk, mapSet_of_none _ hkacc,
      ih _ hn.2 (fun e he => hname e (List.mem_cons_of_mem _ he)) ?_]
    · simp
    · intro e he
      apply mapGet_append_none _ (hacc e (List.mem_cons_of_mem _ he))
      intro hek
      exact (mapGet_eq_none_iff k rest).1 hn.1 e he hek.symm

theorem buildChildren_eq (ss : List (String × SerializableNode)) :
    ∀ acc : List (String × TreeNode), nodupKeys ss = true →
      (∀ e ∈ ss, e.2.Name = e.1) → (∀ e ∈ ss, mapGet e.1 acc = none) →
      buildChildren ss acc = acc ++ ss.map (fun e => (e.1, buildFromSerializable e.2)) := by
  induction ss with
  | nil => intro acc _ _ _; simp [buildChildren]
  | cons e rest ih =>
    obtain ⟨k, c⟩ := e
    intro acc hn hname hacc
    simp only [nodupKeys, Bool.and_eq_true, Option.isNone_iff_eq_none] at hn
    have hk : c.Name = k := hname (k, c) (List.mem_cons_self _ _)
    have hkacc : mapGet k acc = none := hacc (k, c) (List.mem_cons_self _ _)
    unfold buildChildren
    rw [hk, mapSet_of_none _ hkacc,
      ih _ hn.2 (fun e he => hname e (List.mem_cons_of_mem _ he)) ?_]
    · simp
    · intro e he
      apply mapGet_append_none _ (hacc e (List.mem_cons_of_mem _ he))
      intro hek
      exact (mapGet_eq_none_iff k rest).1 hn.1 e he hek.symm

/-- Building a tree from the serializable form of a well-formed node gives the node back. -/
theorem buildFromSerializable_convertToSerializable (n : TreeNode) :
    wfNode n = true → buildFromSerializable (convertToSerializable n) = n := by
  induction n using TreeNode.induct with
  | step h nm cs ih =>
    intro hwf
    have hcs := (wfChildren_iff cs).1 ((wfNode_iff _).1 hwf).2
    unfold convertToSerializable buildFromSerializable
    rw [convertChildren_eq cs [] hcs.1 (fun e he => (hcs.2 e he).1) (fun _ _ => rfl),
      List.nil_append,
      buildChildren_eq _ [] (nodupKeys_map _ hcs.1) ?_ (fun _ _ => rfl), List.nil_append,
      List.map_map]
    · congr 1
      conv_rhs => rw [← List.map_id cs]
      apply List.map_congr_left
      intro e he
      simp only [Function.comp, id]
      rw [ih e he (hcs.2 e he).2.2]
    · intro e he
      rw [List.mem_map] at he
      obtain ⟨e0, he0, rfl⟩ := he
      simp only [convertToSerializable_Name]
      exact (hcs.2 e0 he0).1

/-- Loading the snapshot of a well-formed tree is one more hash pass over the same nodes:
it succeeds, it leaves the names, the structure and the file hashes as they were saved, and
the directory hashes as that pass computes them. -/
theorem LoadTreeFromJSON_snapshotOf (ord : RangeOrder) (t₀ t : Tree) (hwf : t.WF)
    (hname : t₀.Root.Name = t.Root.Name) :
    LoadTreeFromJSON ord t₀ (SnapshotFile.parsed (snapshotOf t))
      = Except.ok (CalculateDirectoryHashes ord t) := by
  simp only [LoadTreeFromJSON, snapshotOf, hname, mapGet_cons, if_true]
  rw [buildFromSerializable_convertToSerializable _ hwf.2]

theorem LoadTreeFromJSON_snapshotOf_witness :
    twoFiles.WF ∧ (NewTree "" "notes").Root.Name = twoFiles.Root.Name
      ∧ LoadTreeFromJSON RangeOrder.stored (NewTree "" "notes")
          (SnapshotFile.parsed (snapshotOf twoFiles))
        = Except.ok (CalculateDirectoryHashes RangeOrder.stored twoFiles) :=
  ⟨by decide!, by decide!,
    LoadTreeFromJSON_snapshotOf RangeOrder.stored (NewTree "" "notes") twoFiles (by decide!)
      (by decide!)⟩

/-! ### Path strings and `SplitPath` -/

theorem stringsSplit_of_no_slash (u : List Char) (h : '/' ∉ u) : stringsSplit u = [u] := by
  induction u with
  | nil => rfl
  | cons c u ih =>
    have hc : c ≠ '/' := fun e => h (by rw [e]; exact List.mem_cons_self _ _)
    have hu : '/' ∉ u := fun hm => h (List.mem_cons_of_mem _ hm)
    simp [stringsSplit, hc, ih hu]

theorem stringsSplit_append_slash (u w : List Char) (h : '/' ∉ u) :
    stringsSplit (u ++ '/' :: w) = u :: stringsSplit w := by
  induction u with
  | nil => simp [stringsSplit]
  | cons c u ih =>
    have hc : c ≠ '/' := fun e => h (by rw [e]; exact List.mem_cons_self _ _)
    have hu : '/' ∉ u := fun hm => h (List.mem_cons_of_mem _ hm)
    simp [stringsSplit, hc, ih hu]

/-- A key path that ends in a file key: what the path of a file looks like. -/
theorem SplitPath_joinKeys (q : List String) (hq : keyPathOk q = true)
    (hfile : ∀ k, q.getLast? = some k → nameIsDir k = false) : SplitPath (joinKeys q) = q := by
  induction q with
  | nil => simp [keyPathOk] at hq
  | cons k rest ih =>
    cases rest with
    | nil =>
      have hk := hfile k rfl
      have hslash : '/' ∉ k.data := by
        intro hm
        have hok : keyOk k = true := by simpa [keyPathOk] using hq
        simp only [keyOk, Bool.and_eq_true, Bool.not_eq_true'] at hok
        have hne : k.data ≠ [] := List.ne_nil_of_mem hm
        rw [← List.dropLast_append_getLast hne, List.mem_append, List.mem_singleton] at hm
        rcases hm with hm | hm
        · simp [hm] at hok
        · have : nameIsDir k = true := by
            rw [nameIsDir_iff, List.getLast?_eq_getLast _ hne, ← hm]
          rw [hk] at this
          cases this
      rw [joinKeys_single]
      simp [SplitPath, stringsSplit_of_no_slash _ hslash, tagSegments]
    | cons k₂ rest =>
      obtain ⟨hd, hk, hr⟩ := keyPathOk_cons_cons hq
      obtain ⟨u, hu, hus⟩ := dirKey_data hd hk
      have ih' := ih hr (fun k' hk' => hfile k' (by simpa using hk'))
      unfold SplitPath at ih' ⊢
      rw [joinKeys_data_cons, hu, List.append_assoc, List.singleton_append,
        stringsSplit_append_slash _ _ hus, List.map_cons]
      cases hsp : (stringsSplit (joinKeys (k₂ :: rest)).data).map String.mk with
      | nil => simp [stringsSplit_ne_nil] at hsp
      | cons p ps =>
        rw [hsp] at ih'
        rw [tagSegments, ih']
        congr 1
        apply String.ext
        rw [String.data_append, hu]

theorem stringsRemoveFirst_append (old rest : List Char) :
    stringsRemoveFirst old (old ++ rest) = rest := by
  cases h : old ++ rest with
  | nil =>
    simp only [List.append_eq_nil] at h
    rw [h.2]
    rfl
  | cons c cs =>
    have hp : old.isPrefixOf (c :: cs) = true := by
      rw [← h, List.isPrefixOf_iff_prefix]
      exact List.prefix_append _ _
    rw [stringsRemoveFirst, if_pos hp, ← h, List.drop_left]

theorem getRelativePath_append (serverTree : Tree) (rel : String) :
    getRelativePath serverTree (serverTree.Root.Name ++ rel) = rel := by
  unfold getRelativePath
  rw [String.data_append, stringsRemoveFirst_append]

/-- The key path of a file of a well-formed tree is made of keys of `SplitPath` and ends in
a file key. -/
theorem keyPathOk_of_file {q : List String} :
    ∀ {n m : TreeNode}, wfNode n = true → q ≠ [] → nodeAt n q = some m → m.IsDir = false →
      keyPathOk q = true ∧ ∀ k, q.getLast? = some k → nameIsDir k = false := by
  induction q with
  | nil => intro _ _ _ hq; exact absurd rfl hq
  | cons k rest ih =>
    intro n m hwf _ hm hfile
    obtain ⟨c, hg, hc⟩ := nodeAt_cons_some hm
    obtain ⟨hname, hk, hcwf⟩ := wfNode_child hwf hg
    cases rest with
    | nil =>
      simp only [nodeAt_nil, Option.some.injEq] at hc
      subst hc
      refine ⟨by simpa [keyPathOk] using hk, fun k' hk' => ?_⟩
      simp only [List.getLast?_singleton, Option.some.injEq] at hk'
      rw [← hk', ← hname]
      exact hfile
    | cons k₂ r =>
      have hcd := IsDir_of_nodeAt_cons hcwf hc
      obtain ⟨hok, hlast⟩ := ih hcwf (by simp) hc hfile
      refine ⟨?_, fun k' hk' => hlast k' (by simpa using hk')⟩
      simp only [keyPathOk, Bool.and_eq_true]
      refine ⟨⟨?_, hk⟩, hok⟩
      rw [← hname]
      exact hcd

/-! ### The files after a run of insertions -/

theorem fileAt_iff_fileHashAt (t : Tree) (q : List String) :
    fileAt t q ↔ ∃ h, fileHashAt t.Root q = some h := by
  unfold fileAt fileHashAt
  constructor
  · rintro ⟨n, hn, hfile⟩
    exact ⟨n.Hash, by simp [hn, hfile]⟩
  · rintro ⟨h, hh⟩
    cases hn : nodeAt t.Root q with
    | none => simp [hn] at hh
    | some n =>
      cases hd : n.IsDir with
      | true => simp [hn, hd] at hh
      | false => exact ⟨n, rfl, hd⟩

theorem fileHashAt_of_nodeAt {n m : TreeNode} {q : List String} (hm : nodeAt n q = some m)
    (hfile : m.IsDir = false) : fileHashAt n q = some m.Hash := by
  simp [fileHashAt, hm, hfile]

theorem fileHashAt_some_iff {n : TreeNode} {q : List String} {h : String} :
    fileHashAt n q = some h ↔ ∃ m, nodeAt n q = some m ∧ m.IsDir = false ∧ m.Hash = h := by
  unfold fileHashAt
  cases hn : nodeAt n q with
  | none => simp
  | some m =>
    cases hd : m.IsDir with
    | true => simp [hd]
    | false => simp [hd]

theorem fileHashAt_AddNode (ord : RangeOrder) (t : Tree) (path : String) (content : List Nat)
    (hwf : t.WF) (hlast : (SplitPath path).getLast? ≠ some "") (q : List String) :
    fileHashAt (AddNode ord t path (some content)).Root q
      = if q = SplitPath path then some (CalculateHash content) else fileHashAt t.Root q := by
  by_cases hq : q = SplitPath path
  · subst hq
    obtain ⟨leaf, _, hleaf, hfile, _, hhash⟩ := nodeAt_AddNode_self ord t path content hwf hlast
    rw [if_pos rfl, fileHashAt_of_nodeAt hleaf hfile, hhash]
  · rw [if_neg hq]
    cases hold : fileHashAt t.Root q with
    | some h =>
      obtain ⟨n, hn, hfile, hh⟩ := fileHashAt_some_iff.1 hold
      rw [fileHashAt_of_nodeAt (nodeAt_AddNode_frame ord t path _ hwf hlast hq hn hfile) hfile, hh]
    | none =>
      cases hnew : fileHashAt (AddNode ord t path (some content)).Root q with
      | none => rfl
      | some h =>
        exfalso
        have hf : fileAt (AddNode ord t path (some content)) q :=
          (fileAt_iff_fileHashAt _ q).2 ⟨h, hnew⟩
        rcases (fileAt_AddNode_iff ord t path content hwf hlast q).1 hf with hf' | hf'
        · obtain ⟨h', hh'⟩ := (fileAt_iff_fileHashAt t q).1 hf'
          rw [hold] at hh'
          cases hh'
        · exact hq hf'

theorem WF_foldl_AddNode (ord : RangeOrder) (ps : List (String × List Nat)) :
    ∀ t : Tree, t.WF → prunedNode t.Root = true →
      (ps.foldl (fun t p => AddNode ord t p.1 (some p.2)) t).WF
        ∧ prunedNode (ps.foldl (fun t p => AddNode ord t p.1 (some p.2)) t).Root = true
        ∧ (ps.foldl (fun t p => AddNode ord t p.1 (some p.2)) t).Root.Name = t.Root.Name := by
  induction ps with
  | nil => intro t hwf hp; exact ⟨hwf, hp, rfl⟩
  | cons p rest ih =>
    intro t hwf hp
    obtain ⟨h1, h2, h3⟩ := ih (AddNode ord t p.1 (some p.2)) (WF_AddNode ord t _ _ hwf)
      (pruned_AddNode ord t _ _ hwf)
    refine ⟨h1, h2, ?_⟩
    rw [List.foldl_cons, h3]
    simp [AddNode, CalculateDirectoryHashes]

theorem fileHashAt_foldl_AddNode (ord : RangeOrder) (ps : List (String × List Nat)) :
    ∀ t : Tree, t.WF → (∀ p ∈ ps, (SplitPath p.1).getLast? ≠ some "") →
      (ps.map (fun p => SplitPath p.1)).Nodup →
      ∀ q h, fileHashAt (ps.foldl (fun t p => AddNode ord t p.1 (some p.2)) t).Root q = some h ↔
        (∃ p ∈ ps, SplitPath p.1 = q ∧ h = CalculateHash p.2)
          ∨ ((∀ p ∈ ps, SplitPath p.1 ≠ q) ∧ fileHashAt t.Root q = some h) := by
  induction ps with
  | nil => intro t _ _ _ q h; simp
  | cons p rest ih =>
    intro t hwf hlast hnd q h
    rw [List.map_cons, List.nodup_cons] at hnd
    have hlp := hlast p (List.mem_cons_self _ _)
    rw [List.foldl_cons, ih (AddNode ord t p.1 (some p.2)) (WF_AddNode ord t _ _ hwf)
      (fun p' hp' => hlast p' (List.mem_cons_of_mem _ hp')) hnd.2 q h,
      fileHashAt_AddNode ord t p.1 p.2 hwf hlp q]
    by_cases hq : q = SplitPath p.1
    · subst hq
      have hnone : ∀ p' ∈ rest, SplitPath p'.1 ≠ SplitPath p.1 := by
        intro p' hp' he
        exact hnd.1 (List.mem_map.2 ⟨p', hp', he⟩)
      simp only [if_true, List.mem_cons, exists_eq_or_imp, forall_eq_or_imp, true_and,
        ne_eq, not_true_eq_false, false_and, and_false, or_false, Option.some.injEq]
      constructor
      · rintro (⟨p', hp', he, _⟩ | ⟨_, hh⟩)
        · exact absurd he (hnone p' hp')
        · exact Or.inl hh.symm
      · rintro (hh | ⟨p', hp', he, _⟩)
        · exact Or.inr ⟨hnone, hh.symm⟩
        · exact absurd he (hnone p' hp')
    · have hq' : SplitPath p.1 ≠ q := fun e => hq e.symm
      simp only [if_neg hq, List.mem_cons, exists_eq_or_imp, forall_eq_or_imp, hq', false_and,
        false_or, ne_eq, not_false_eq_true, true_and]

/-- Well-formed trees without empty directories that hold the same files with the same hashes
under roots of one name hold the same nodes. -/
theorem SameNodes_of_fileHashAt (t₁ t₂ : Tree) (h₁ : t₁.WF) (h₂ : t₂.WF)
    (hp₁ : prunedNode t₁.Root = true) (hp₂ : prunedNode t₂.Root = true)
    (hname : t₁.Root.Name = t₂.Root.Name)
    (hfiles : ∀ q, fileHashAt t₁.Root q = fileHashAt t₂.Root q) : SameNodes t₁ t₂ := by
  have hfile : ∀ q, fileAt t₁ q ↔ fileAt t₂ q := by
    intro q
    rw [fileAt_iff_fileHashAt, fileAt_iff_fileHashAt, hfiles q]
  have hsome₂₁ := dirs_of_same_files t₁ t₂ h₂ hp₂ (fun q => (hfile q).2)
  have hsome₁₂ := dirs_of_same_files t₂ t₁ h₁ hp₁ (fun q => (hfile q).1)
  intro q
  by_cases hq : q = []
  · subst hq
    have d₁ : t₁.Root.IsDir = true := h₁.1
    have d₂ : t₂.Root.IsDir = true := h₂.1
    simp [view, hname, d₁, d₂]
  · cases hn₁ : nodeAt t₁.Root q with
    | none =>
      cases hn₂ : nodeAt t₂.Root q with
      | none => rfl
      | some n₂ =>
        have := hsome₂₁ q (by rw [hn₂]; rfl)
        rw [hn₁] at this
        cases this
    | some n₁ =>
      cases hn₂ : nodeAt t₂.Root q with
      | none =>
        have := hsome₁₂ q (by rw [hn₁]; rfl)
        rw [hn₂] at this
        cases this
      | some n₂ =>
        have hkind := same_kind_at h₁.2 h₂.2 hq hn₁ hn₂
        obtain ⟨q0, k, rfl⟩ : ∃ q0 k, q = q0 ++ [k] :=
          ⟨q.dropLast, q.getLast hq, (List.dropLast_append_getLast hq).symm⟩
        have hname' : n₁.Name = n₂.Name := by
          rw [Name_of_nodeAt_snoc h₁.2 hn₁, Name_of_nodeAt_snoc h₂.2 hn₂]
        simp only [Option.map_some', view, hname', ← hkind, Option.some.injEq, Prod.mk.injEq,
          true_and]
        cases hd : n₁.IsDir with
        | true => rfl
        | false =>
          have e₁ := fileHashAt_of_nodeAt hn₁ hd
          have e₂ := fileHashAt_of_nodeAt hn₂ (by rw [← hkind]; exact hd)
          rw [hfiles, e₂] at e₁
          simp only [Option.some.injEq] at e₁
          simp [e₁]

/-- The part of order independence the code keeps: the same (path, content) pairs, with file
paths that are pairwise different, inserted in two orders give trees that hold the same
nodes, whatever the visiting orders of the hash passes. -/
theorem buildFrom_nodes_of_perm (ord₁ ord₂ : RangeOrder) (root : String)
    (ps₁ ps₂ : List (String × List Nat)) (hperm : ps₁.Perm ps₂)
    (hlast : ∀ p ∈ ps₁, (SplitPath p.1).getLast? ≠ some "")
    (hnd : (ps₁.map (fun p => SplitPath p.1)).Nodup) :
    SameNodes (buildFrom ord₁ root ps₁) (buildFrom ord₂ root ps₂) := by
  have hnew := WF_NewTree "" root
  have hpnew : prunedNode (NewTree "" root).Root = true := rfl
  obtain ⟨w₁, p₁, n₁⟩ := WF_foldl_AddNode ord₁ ps₁ _ hnew hpnew
  obtain ⟨w₂, p₂, n₂⟩ := WF_foldl_AddNode ord₂ ps₂ _ hnew hpnew
  have hlast₂ : ∀ p ∈ ps₂, (SplitPath p.1).getLast? ≠ some "" :=
    fun p hp => hlast p (hperm.mem_iff.2 hp)
  have hnd₂ : (ps₂.map (fun p => SplitPath p.1)).Nodup :=
    (hperm.map _).nodup_iff.1 hnd
  apply SameNodes_of_fileHashAt _ _ w₁ w₂ p₁ p₂ (by rw [n₁, n₂])
  intro q
  apply Option.ext
  intro h
  rw [Option.mem_def, Option.mem_def, fileHashAt_foldl_AddNode ord₁ ps₁ _ hnew hlast hnd q h,
    fileHashAt_foldl_AddNode ord₂ ps₂ _ hnew hlast₂ hnd₂ q h]
  simp only [hperm.mem_iff]

theorem buildFrom_nodes_of_perm_witness :
    [("a.md", bytesX), ("b.md", bytesY)].Perm [("b.md", bytesY), ("a.md", bytesX)]
      ∧ (∀ p ∈ [("a.md", bytesX), ("b.md", bytesY)], (SplitPath p.1).getLast? ≠ some "")
      ∧ ([("a.md", bytesX), ("b.md", bytesY)].map (fun p => SplitPath p.1)).Nodup
      ∧ SameNodes (buildFrom RangeOrder.stored "notes" [("a.md", bytesX), ("b.md", bytesY)])
          (buildFrom RangeOrder.reversed "notes" [("b.md", bytesY), ("a.md", bytesX)]) :=
  ⟨List.Perm.swap _ _ _, by decide, by decide,
    buildFrom_nodes_of_perm RangeOrder.stored RangeOrder.reversed "notes" _ _
      (List.Perm.swap _ _ _) (by decide) (by decide)⟩

theorem keyPathOk_mem {q : List String} (hq : keyPathOk q = true) :
    ∀ k ∈ q, keyOk k = true := by
  induction q with
  | nil => simp [keyPathOk] at hq
  | cons k rest ih =>
    intro k' hk'
    cases rest with
    | nil =>
      simp only [List.mem_singleton] at hk'
      rw [hk']
      simpa [keyPathOk] using hq
    | cons k₂ r =>
      obtain ⟨_, hk, hr⟩ := keyPathOk_cons_cons hq
      rcases List.mem_cons.1 hk' with h | h
      · rw [h]; exact hk
      · exact ih hr k' h

/-! ### The handlers of one pass against an empty server tree -/

theorem fileHashAt_of_empty (t : Tree) (hd : nameIsDir t.Root.Name = true)
    (he : t.Root.Children = []) (q : List String) : fileHashAt t.Root q = none := by
  cases q with
  | nil =>
    have : t.Root.IsDir = true := hd
    simp [fileHashAt, this]
  | cons k q => simp [fileHashAt, nodeAt_cons, he]

theorem AddNode_Root_Name (ord : RangeOrder) (t : Tree) (path : String)
    (content : Option (List Nat)) : (AddNode ord t path content).Root.Name = t.Root.Name := by
  simp [AddNode, CalculateDirectoryHashes]

theorem foldl_handleDiff_eq (ord : RangeOrder) (w : Outside) (root : String)
    (ds : List TreeDiff) :
    ∀ s : Tree, s.Root.Name = root →
      (∀ d ∈ ds, d.Kind = DiffType.Added
        ∧ ∃ content, w.readFile d.Path = some content ∧ w.upsertOk d.Path = true) →
      ds.foldl (handleDiff ord w) s
        = (ds.map (fun d => ((⟨stringsRemoveFirst root.data d.Path.data⟩ : String),
              (w.readFile d.Path).getD []))).foldl
            (fun t p => AddNode ord t p.1 (some p.2)) s := by
  induction ds with
  | nil => intro s _ _; rfl
  | cons d rest ih =>
    intro s hs hall
    obtain ⟨hk, content, hread, hups⟩ := hall d (List.mem_cons_self _ _)
    have hstep : handleDiff ord w s d
        = AddNode ord s ⟨stringsRemoveFirst root.data d.Path.data⟩
            (some ((w.readFile d.Path).getD [])) := by
      simp [handleDiff, hk, handleFileAdd, hread, hups, getRelativePath, hs]
    rw [List.foldl_cons, List.map_cons, List.foldl_cons, hstep]
    exact ih _ (by rw [AddNode_Root_Name, hs]) (fun d' hd' => hall d' (List.mem_cons_of_mem _ hd'))

/-- The part of the convergence from an empty server tree the code keeps. The client tree is
well-formed and without empty directories, the server tree has the same root name and no
children, every file of the client can be read with a content of the hash the client tree
holds, and every upsert succeeds: after the handlers of the diffs have run, one after the
other in any order, the server tree holds the same nodes as the client tree. -/
theorem handlers_rebuild_client_nodes (ord : RangeOrder) (w : Outside) (client server : Tree)
    (hc : client.WF) (hpc : prunedNode client.Root = true)
    (hempty : server.Root.Children = []) (hname : server.Root.Name = client.Root.Name)
    (hread : ∀ q n, nodeAt client.Root q = some n → n.IsDir = false →
      ∃ content, w.readFile (client.Root.Name ++ joinKeys q) = some content
        ∧ CalculateHash content = n.Hash)
    (hups : ∀ path, w.upsertOk path = true)
    (ds : List TreeDiff) (hperm : ds.Perm (CompareAndBuildDiff client server)) :
    SameNodes (ds.foldl (handleDiff ord w) server) client := by
  obtain ⟨hdiff, hnodup⟩ := diff_against_empty client server hc hempty
  have hsd : nameIsDir server.Root.Name = true := by rw [hname]; exact hc.1
  have hswf : server.WF := ⟨hsd, by rw [wfNode_iff, hempty]; exact ⟨Or.inl rfl, rfl⟩⟩
  have hsp : prunedNode server.Root = true := by
    cases hroot : server.Root with
    | mk h n cs =>
      rw [hroot] at hempty
      simp only [TreeNode.Children_mk] at hempty
      simp [prunedNode, hempty, prunedChildren]
  -- what every diff of the pass is
  have hds : ∀ d ∈ ds, d.Kind = DiffType.Added ∧ ∃ q n content,
      nodeAt client.Root q = some n ∧ n.IsDir = false
        ∧ d.Path = client.Root.Name ++ joinKeys q
        ∧ w.readFile d.Path = some content ∧ CalculateHash content = n.Hash
        ∧ SplitPath ⟨stringsRemoveFirst client.Root.Name.data d.Path.data⟩ = q
        ∧ q.getLast? ≠ some "" := by
    intro d hd
    obtain ⟨hk, q, ⟨n, hn, hfile⟩, hpath⟩ := (hdiff d).1 (hperm.mem_iff.1 hd)
    obtain ⟨content, hrd, hhash⟩ := hread q n hn hfile
    have hq : q ≠ [] := fun hq => root_not_file client hc (hq ▸ ⟨n, hn, hfile⟩)
    obtain ⟨hok, hlastk⟩ := keyPathOk_of_file hc.2 hq hn hfile
    have hrel : (⟨stringsRemoveFirst client.Root.Name.data d.Path.data⟩ : String)
        = joinKeys q := by
      rw [hpath, String.data_append, stringsRemoveFirst_append]
    refine ⟨hk, q, n, content, hn, hfile, hpath, by rw [hpath]; exact hrd, hhash, ?_, ?_⟩
    · rw [hrel]
      exact SplitPath_joinKeys q hok hlastk
    · intro hl
      have hkey := keyPathOk_mem hok "" (List.mem_of_getLast?_eq_some hl)
      simp [keyOk] at hkey
  rw [foldl_handleDiff_eq ord w client.Root.Name ds server hname
    (fun d hd => by
      obtain ⟨hk, _, _, content, _, _, _, hrd, _⟩ := hds d hd
      exact ⟨hk, content, hrd, hups _⟩)]
  have hlast : ∀ p ∈ ds.map (fun d =>
      ((⟨stringsRemoveFirst client.Root.Name.data d.Path.data⟩ : String),
        (w.readFile d.Path).getD [])), (SplitPath p.1).getLast? ≠ some "" := by
    intro p hp
    rw [List.mem_map] at hp
    obtain ⟨d, hd, rfl⟩ := hp
    obtain ⟨_, q, _, _, _, _, _, _, _, hsplit, hl⟩ := hds d hd
    simp only [hsplit]
    exact hl
  have hnd : ((ds.map (fun d =>
      ((⟨stringsRemoveFirst client.Root.Name.data d.Path.data⟩ : String),
        (w.readFile d.Path).getD []))).map (fun p => SplitPath p.1)).Nodup := by
    rw [List.map_map]
    have hnp : (ds.map TreeDiff.Path).Nodup := (hperm.map _).nodup_iff.2 hnodup
    rw [show ((fun p : String × List Nat => SplitPath p.1) ∘ fun d : TreeDiff =>
        ((⟨stringsRemoveFirst client.Root.Name.data d.Path.data⟩ : String),
          (w.readFile d.Path).getD []))
      = (fun path : String => SplitPath ⟨stringsRemoveFirst client.Root.Name.data path.data⟩)
          ∘ TreeDiff.Path from rfl, ← List.map_map]
    apply List.Nodup.map_on _ hnp
    intro x hx y hy hxy
    rw [List.mem_map] at hx hy
    obtain ⟨d, hd, rfl⟩ := hx
    obtain ⟨d', hd', rfl⟩ := hy
    obtain ⟨_, q, _, _, _, _, hpath, _, _, hsplit, _⟩ := hds d hd
    obtain ⟨_, q', _, _, _, _, hpath', _, _, hsplit', _⟩ := hds d' hd'
    simp only at hxy
    rw [hsplit, hsplit'] at hxy
    rw [hpath, hpath', hxy]
  obtain ⟨w₁, p₁, n₁⟩ := WF_foldl_AddNode ord (ds.map (fun d =>
      ((⟨stringsRemoveFirst client.Root.Name.data d.Path.data⟩ : String),
        (w.readFile d.Path).getD []))) server hswf hsp
  apply SameNodes_of_fileHashAt _ _ w₁ hc p₁ hpc (by rw [n₁, hname])
  intro q
  apply Option.ext
  intro h
  rw [Option.mem_def, Option.mem_def, fileHashAt_foldl_AddNode ord _ server hswf hlast hnd q h,
    fileHashAt_of_empty server hsd hempty q]
  simp only [reduceCtorEq, and_false, or_false, List.mem_map, exists_exists_and_eq_and]
  constructor
  · rintro ⟨d, hd, hsplit, hh⟩
    obtain ⟨_, q', n, content, hn, hfile, _, hrd, hhash, hsplit', _⟩ := hds d hd
    rw [hsplit'] at hsplit
    subst hsplit
    rw [hh, hrd, Option.getD_some, hhash]
    exact fileHashAt_of_nodeAt hn hfile
  · intro hh
    obtain ⟨n, hn, hfile, hhash⟩ := fileHashAt_some_iff.1 hh
    have hmem : (⟨DiffType.Added, client.Root.Name ++ joinKeys q⟩ : TreeDiff) ∈ ds :=
      hperm.mem_iff.2 ((hdiff _).2 ⟨rfl, q, ⟨n, hn, hfile⟩, rfl⟩)
    obtain ⟨_, q', n', content, hn', hfile', hpath, hrd, hhash', hsplit, _⟩ := hds _ hmem
    refine ⟨_, hmem, ?_, ?_⟩
    · rw [hsplit]
      have hq : q ≠ [] := fun hq => root_not_file client hc (hq ▸ ⟨n, hn, hfile⟩)
      have hq' : q' ≠ [] := fun hq => root_not_file client hc (hq ▸ ⟨n', hn', hfile'⟩)
      exact (append_joinKeys_injective client.Root.Name
        (keyPathOk_of_file hc.2 hq hn hfile).1 (keyPathOk_of_file hc.2 hq' hn' hfile').1
        hpath).symm
    · obtain ⟨content₀, hrd₀, hhash₀⟩ := hread q n hn hfile
      simp only [hrd₀, Option.getD_some, hhash₀, hhash]

theorem handlers_rebuild_client_nodes_witness :
    SameNodes
      ((CompareAndBuildDiff twoFiles (NewTree "" "notes")).foldl
        (handleDiff RangeOrder.reversed twoFilesOutside) (NewTree "" "notes"))
      twoFiles :=
  handlers_rebuild_client_nodes RangeOrder.reversed twoFilesOutside twoFiles (NewTree "" "notes")
    (by decide!) (by decide!) rfl (by decide!)
    (by
      intro q n hn hfile
      have hh := fileHashAt_of_nodeAt hn hfile
      have hchar := (fileHashAt_foldl_AddNode RangeOrder.stored
        [("a.md", bytesX), ("b.md", bytesY)] (NewTree "" "notes") (WF_NewTree _ _)
        (by decide) (by decide) q n.Hash).1 hh
      rcases hchar with ⟨p, hp, hsplit, hhash⟩ | ⟨_, hnone⟩
      · simp only [List.mem_cons, List.mem_singleton, List.not_mem_nil, or_false] at hp
        rcases hp with rfl | rfl
        · exact ⟨bytesX, by rw [← hsplit]; rfl, hhash.symm⟩
        · exact ⟨bytesY, by rw [← hsplit]; rfl, hhash.symm⟩
      · rw [fileHashAt_of_empty _ (WF_NewTree _ _).1 rfl] at hnone
        cases hnone)
    (fun _ => rfl) _ (List.Perm.refl _)

/-! ### The rules of the diff at one directory level -/

/-- The diffs of two nodes met at the same key path are among the diffs of the nodes the
walk started from. -/
theorem diffKeys_of_paired {q : List String} :
    ∀ {cur oth c o : TreeNode}, wfNode cur = true → wfNode oth = true →
      nodeAt cur q = some c → nodeAt oth q = some o →
      ∀ x ∈ diffKeys c o, (x.1, q ++ x.2) ∈ diffKeys cur oth := by
  induction q with
  | nil =>
    intro cur oth c o _ _ hc ho x hx
    simp only [nodeAt_nil, Option.some.injEq] at hc ho
    subst hc
    subst ho
    simpa using hx
  | cons k q ih =>
    intro cur oth c o hcur hoth hc ho x hx
    obtain ⟨c₁, hgc, hc₁⟩ := nodeAt_cons_some hc
    obtain ⟨o₁, hgo, ho₁⟩ := nodeAt_cons_some ho
    have hc₁wf := (wfNode_child hcur hgc).2.2
    have ho₁wf := (wfNode_child hoth hgo).2.2
    have hin := ih hc₁wf ho₁wf hc₁ ho₁ x hx
    have hkind : o₁.IsDir = c₁.IsDir := by
      rw [IsDir_of_child_key hcur hgc, IsDir_of_child_key hoth hgo]
    have hdir : c₁.IsDir = true := by
      cases hcd : c₁.IsDir with
      | true => rfl
      | false =>
        exfalso
        have h1 := Children_of_file hc₁wf hcd
        have h2 := Children_of_file ho₁wf (hkind.trans hcd)
        have hnil : diffKeys c₁ o₁ = [] := by
          rw [diffKeys_eq, h1, h2]
          simp [removedKeys]
        rw [hnil] at hin
        cases hin
    rw [mem_diffKeys]
    refine Or.inl ⟨(k, c₁), mem_of_mapGet hgc, ?_⟩
    have hentry : entryKeys k c₁ oth = (diffKeys c₁ o₁).map (fun e => (e.1, k :: e.2)) := by
      unfold entryKeys
      rw [hgo]
      simp [hdir, hkind]
    rw [hentry, List.mem_map]
    exact ⟨(x.1, q ++ x.2), hin, rfl⟩

/-- Every key of a sent key path but the last is followed in `current`. -/
theorem diffKeys_walks_current (cur : TreeNode) :
    ∀ oth, wfNode cur = true → ∀ ty a k b, b ≠ [] → (ty, a ++ k :: b) ∈ diffKeys cur oth →
      ∃ n, nodeAt cur a = some n ∧ (mapGet k n.Children).isSome = true := by
  induction cur using TreeNode.induct with
  | step h nm cs ih =>
    intro oth hcur ty a k b hb hx
    have hcs := (wfChildren_iff cs).1 ((wfNode_iff _).1 hcur).2
    have hlen : ∀ k₀ : String, a ++ k :: b ≠ [k₀] := by
      intro k₀ heq
      have := congrArg List.length heq
      cases b with
      | nil => exact hb rfl
      | cons b₀ b' =>
        simp only [List.length_append, List.length_cons, List.length_nil] at this
        omega
    rcases mem_diffKeys.1 hx with ⟨⟨k₀, c₀⟩, he, hxe⟩ | hxr
    · simp only [TreeNode.Children_mk] at he
      have hg : mapGet k₀ cs = some c₀ := mapGet_of_mem hcs.1 he
      rcases entryKeys_cases k₀ c₀ oth with ⟨_, o', _, h'⟩ | ⟨ty', h'⟩ | h'
      · simp only [h', List.mem_map, Prod.mk.injEq] at hxe
        obtain ⟨x', hx', hty, hq⟩ := hxe
        cases a with
        | nil =>
          simp only [List.nil_append, List.cons.injEq] at hq
          refine ⟨_, nodeAt_nil _, ?_⟩
          rw [← hq.1]
          simp [hg]
        | cons a₀ a' =>
          simp only [List.cons_append, List.cons.injEq] at hq
          obtain ⟨hk0, hq⟩ := hq
          have hx'' : (x'.1, a' ++ k :: b) ∈ diffKeys c₀ o' := by
            rw [← hq]
            exact hx'
          obtain ⟨n, hn, hkn⟩ := ih (k₀, c₀) he o' (hcs.2 _ he).2.2 x'.1 a' k b hb hx''
          refine ⟨n, ?_, hkn⟩
          rw [nodeAt_cons, ← hk0]
          simp [hg, hn]
      · simp only [h', List.mem_singleton, Prod.mk.injEq] at hxe
        exact absurd hxe.2 (hlen k₀)
      · rw [h'] at hxe
        cases hxe
    · obtain ⟨e, _, _, heq⟩ := mem_removedKeys.1 hxr
      simp only [Prod.mk.injEq] at heq
      exact absurd heq.2 (hlen e.1)

/-- The keys of a path that ends at a directory are directory keys. -/
theorem dirKeys_of_nodeAt {q : List String} :
    ∀ {n m : TreeNode}, wfNode n = true → nodeAt n q = some m → m.IsDir = true →
      ∀ k ∈ q, nameIsDir k = true ∧ keyOk k = true := by
  induction q with
  | nil =>
    intro _ _ _ _ _ k hk
    cases hk
  | cons k₀ rest ih =>
    intro n m hwf hm hd k hk
    obtain ⟨c, hg, hc⟩ := nodeAt_cons_some hm
    obtain ⟨_, hk0, hcwf⟩ := wfNode_child hwf hg
    rcases List.mem_cons.1 hk with hk | hin
    · rw [hk]
      refine ⟨?_, hk0⟩
      rw [← IsDir_of_child_key hwf hg]
      cases rest with
      | nil =>
        simp only [nodeAt_nil, Option.some.injEq] at hc
        rw [hc]
        exact hd
      | cons k₂ r => exact IsDir_of_nodeAt_cons hcwf hc
    · exact ih hcwf hc hd k hin

/-- A sent path that goes on after the path spelled by the directory keys `r₀` has a key
path that goes on after `r₀`. -/
theorem keys_of_longer_path {r₀ : List String}
    (hdir : ∀ k ∈ r₀, nameIsDir k = true ∧ keyOk k = true) :
    ∀ {r : List String} {s : List Char}, keyPathOk r = true → s ≠ [] →
      (joinKeys r).data = (joinKeys r₀).data ++ s → ∃ r', r' ≠ [] ∧ r = r₀ ++ r' := by
  induction r₀ with
  | nil =>
    intro r s hr _ _
    refine ⟨r, ?_, rfl⟩
    rintro rfl
    simp [keyPathOk] at hr
  | cons k rest ih =>
    intro r s hr hs h
    obtain ⟨hd, hk⟩ := hdir k (List.mem_cons_self _ _)
    obtain ⟨u, hu, hus⟩ := dirKey_data hd hk
    cases r with
    | nil => simp [keyPathOk] at hr
    | cons k₁ r₁ =>
      rw [joinKeys_data_cons, joinKeys_data_cons, hu] at h
      cases r₁ with
      | nil =>
        exfalso
        have e : (joinKeys []).data = [] := rfl
        rw [e, List.append_nil] at h
        have hkd : k₁.data = u ++ '/' :: ((joinKeys rest).data ++ s) := by
          simpa using h
        exact keyOk_not_split (keyPathOk_head hr) _ _ hkd (by simp [hs])
      | cons k₂ r₂ =>
        obtain ⟨hd₁, hk₁, hr₁⟩ := keyPathOk_cons_cons hr
        obtain ⟨u₁, hu₁, hus₁⟩ := dirKey_data hd₁ hk₁
        rw [hu₁] at h
        simp only [List.append_assoc, List.singleton_append] at h
        obtain ⟨e1, e2⟩ := slash_split_unique _ _ _ _ hus₁ hus h
        have hkk : k₁ = k := String.ext (by rw [hu, hu₁, e1])
        obtain ⟨r', hr', hrr⟩ :=
          ih (fun k' hk' => hdir k' (List.mem_cons_of_mem _ hk')) hr₁ hs e2
        exact ⟨r', hr', by rw [hkk, hrr, List.cons_append]⟩

/-- Two entries under the same key of two well-formed nodes are of the same kind: the
key of a directory ends in the separator, the key of a file does not. -/
theorem same_key_same_kind {cur oth c o : TreeNode} {k : String} (hcur : wfNode cur = true)
    (hoth : wfNode oth = true) (hc : mapGet k cur.Children = some c)
    (ho : mapGet k oth.Children = some o) : c.IsDir = o.IsDir := by
  rw [IsDir_of_child_key hcur hc, IsDir_of_child_key hoth ho]

/-! ### The model of SHA-256 -/

/-- The model of `CalculateHash` on the test vector "abc" of FIPS 180-4 and on the empty
input. -/
theorem CalculateHash_test_vectors :
    CalculateHash [97, 98, 99]
        = "ba7816bf8f01cfea414140de5dae2223b00361a396177a9cb410ff61f20015ad"
      ∧ CalculateHash []
        = "e3b0c44298fc1c149afbf4c8996fb92427ae41e4649b934ca495991b7852b855" := by
  decide!

/-! ### The claims -/

/-- C1 as the code has it. For well-formed trees `tree1` and `tree2` (every tree built by
`AddNode` and `RemoveNode` is one) such that every directory of `tree2` is a directory of
`tree1`, the diffs of `tree2.CompareAndBuildDiff(tree1)` are exactly: `Added` for each file
of `tree2` that is no file of `tree1`, `Modified` for each file of both with two different
hashes, and `Removed` for each entry of `tree1`, a file or a directory, that `tree2` lacks
while it has the directory around it (a removed directory gives the one diff for the
directory, none for what it holds); and no path is sent twice. -/
theorem diff_complete_when_no_directory_is_new (t₁ t₂ : Tree) (h₁ : t₁.WF) (h₂ : t₂.WF)
    (hdirs : dirsWithin t₂.Root t₁.Root = true) :
    (∀ d, d ∈ CompareAndBuildDiff t₂ t₁ ↔
        ∃ q, d.Path = t₂.Root.Name ++ joinKeys q ∧
          ((d.Kind = DiffType.Added ∧ fileAt t₂ q ∧ ¬ fileAt t₁ q)
            ∨ (d.Kind = DiffType.Modified ∧ ∃ n₂ n₁, nodeAt t₂.Root q = some n₂
                ∧ nodeAt t₁.Root q = some n₁ ∧ n₂.IsDir = false ∧ n₁.IsDir = false
                ∧ n₂.Hash ≠ n₁.Hash)
            ∨ (d.Kind = DiffType.Removed ∧ (nodeAt t₁.Root q).isSome = true
                ∧ nodeAt t₂.Root q = none ∧ (nodeAt t₂.Root q.dropLast).isSome = true)))
      ∧ ((CompareAndBuildDiff t₂ t₁).map TreeDiff.Path).Nodup := by
  refine ⟨fun d => ?_, diff_paths_nodup t₂ t₁ h₂ h₁⟩
  have hiff := mem_diffKeys_iff t₂.Root t₁.Root h₂.2 h₁.2 hdirs
  rw [CompareAndBuildDiff_eq_map, List.mem_map]
  constructor
  · rintro ⟨⟨ty, q⟩, hx, rfl⟩
    obtain ⟨hq, hcases⟩ := (hiff ty q).1 hx
    refine ⟨q, rfl, ?_⟩
    rcases hcases with ⟨rfl, ⟨n, hn, hfile⟩, hnone⟩ | ⟨rfl, n₂, n₁, hn₂, hn₁, hfile, hh⟩
      | ⟨rfl, hnone, hsome, hpar⟩
    · refine Or.inl ⟨rfl, ⟨n, hn, hfile⟩, ?_⟩
      rintro ⟨m, hm, _⟩
      rw [hnone] at hm
      cases hm
    · refine Or.inr (Or.inl ⟨rfl, n₂, n₁, hn₂, hn₁, hfile, ?_, hh⟩)
      rw [← same_kind_at h₂.2 h₁.2 hq hn₂ hn₁]
      exact hfile
    · exact Or.inr (Or.inr ⟨rfl, hsome, hnone, hpar⟩)
  · rintro ⟨q, hpath, hcases⟩
    refine ⟨(d.Kind, q), (hiff d.Kind q).2 ?_, ?_⟩
    · rcases hcases with ⟨hk, ⟨n, hn, hfile⟩, hnot⟩ | ⟨hk, n₂, n₁, hn₂, hn₁, hfile, _, hh⟩
        | ⟨hk, hsome, hnone, hpar⟩
      · have hq : q ≠ [] := fun hq => root_not_file t₂ h₂ (hq ▸ ⟨n, hn, hfile⟩)
        refine ⟨hq, Or.inl ⟨hk, ⟨n, hn, hfile⟩, ?_⟩⟩
        cases hm : nodeAt t₁.Root q with
        | none => rfl
        | some m =>
          exfalso
          apply hnot
          refine ⟨m, hm, ?_⟩
          rw [← same_kind_at h₂.2 h₁.2 hq hn hm]
          exact hfile
      · have hq : q ≠ [] := fun hq => root_not_file t₂ h₂ (hq ▸ ⟨n₂, hn₂, hfile⟩)
        exact ⟨hq, Or.inr (Or.inl ⟨hk, n₂, n₁, hn₂, hn₁, hfile, hh⟩)⟩
      · have hq : q ≠ [] := by
          intro hq
          subst hq
          simp at hnone
        exact ⟨hq, Or.inr (Or.inr ⟨hk, hnone, hsome, hpar⟩)⟩
    · cases d with
      | mk kind path =>
        simp only at hpath
        simp [toDiff, hpath]

theorem diff_complete_when_no_directory_is_new_witness :
    withOldDirectory.WF ∧ flatClient.WF
      ∧ dirsWithin flatClient.Root withOldDirectory.Root = true
      ∧ ((CompareAndBuildDiff flatClient withOldDirectory).map TreeDiff.Path).Nodup :=
  ⟨by decide!, by decide!, by decide!,
    (diff_complete_when_no_directory_is_new withOldDirectory flatClient (by decide!)
      (by decide!) (by decide!)).2⟩

/-- C1 fails on the code as stated. `tree1` holds "a.md" and "old/c.md", `tree2` holds
"a.md" with another content and "c.md": the file "old/c.md" is in `tree1` and not in
`tree2`, yet no `Removed` is sent for its path; the one `Removed` is for the directory
"old/". -/
theorem removed_directory_is_one_diff :
    (nodeAt withOldDirectory.Root ["old/", "c.md"]).isSome = true
      ∧ (nodeAt flatClient.Root ["old/", "c.md"]).isSome = false
      ∧ (⟨DiffType.Removed, "notes/old/c.md"⟩ : TreeDiff)
          ∉ CompareAndBuildDiff flatClient withOldDirectory
      ∧ CompareAndBuildDiff flatClient withOldDirectory
          = [⟨DiffType.Modified, "notes/a.md"⟩, ⟨DiffType.Added, "notes/c.md"⟩,
             ⟨DiffType.Removed, "notes/old/"⟩] := by
  decide!

/-- The recursion into a directory that only `current` has goes on against the node of
`other` it was at, not against an empty one: with "new/c.md" in `tree2` and "a.md",
"c.md", "d.md" in `tree1`, the file "new/c.md" is sent as `Modified`, not as `Added`, and
the files of `tree1` are sent as `Removed` under "new/" as well. -/
theorem new_directory_is_compared_with_parent :
    CompareAndBuildDiff
        (buildFrom RangeOrder.stored "notes" [("a.md", bytesX), ("new/c.md", bytesY)])
        (buildFrom RangeOrder.stored "notes"
          [("a.md", bytesX), ("c.md", bytesX), ("d.md", bytesY)])
      = [⟨DiffType.Modified, "notes/new/c.md"⟩, ⟨DiffType.Removed, "notes/new/a.md"⟩,
         ⟨DiffType.Removed, "notes/new/d.md"⟩, ⟨DiffType.Removed, "notes/c.md"⟩,
         ⟨DiffType.Removed, "notes/d.md"⟩] := by
  decide!

/-- C2 (order independence) fails on the code: the root hash is the digest of the child
hashes concatenated in visiting order. The same two files inserted in the two possible
orders give different root hashes, and so does one insertion order hashed by two passes
that visit the two children in different orders. -/
theorem root_hash_depends_on_order :
    (buildFrom RangeOrder.stored "notes" [("a.md", bytesX), ("b.md", bytesY)]).Root.Hash
        ≠ (buildFrom RangeOrder.stored "notes" [("b.md", bytesY), ("a.md", bytesX)]).Root.Hash
      ∧ (buildFrom RangeOrder.stored "notes" [("a.md", bytesX), ("b.md", bytesY)]).Root.Hash
        ≠ (buildFrom RangeOrder.reversed "notes" [("a.md", bytesX), ("b.md", bytesY)]).Root.Hash := by
  decide!

/-- C3 (idempotence) fails on the code: on the tree holding "b.md", a second
`AddNode("a.md", "x")` whose hash pass visits the two children of the root in the other
order leaves a root hash different from the one the first call left. -/
theorem second_AddNode_changes_root_hash :
    (AddNode RangeOrder.reversed
        (AddNode RangeOrder.stored (buildFrom RangeOrder.stored "notes" [("b.md", bytesY)])
          "a.md" (some bytesX))
        "a.md" (some bytesX)).Root.Hash
      ≠ (AddNode RangeOrder.stored (buildFrom RangeOrder.stored "notes" [("b.md", bytesY)])
          "a.md" (some bytesX)).Root.Hash := by
  decide!

/-- C4 (round trip) fails on the code: loading the snapshot of the two-file tree succeeds,
and the hash pass that ends the load, visiting the two children of the root in the other
order, leaves a root hash different from the saved one. -/
theorem reload_changes_root_hash :
    (LoadTreeFromJSON RangeOrder.reversed (NewTree "" "notes")
        (SnapshotFile.parsed (snapshotOf twoFiles))).toOption.map
      (fun t => decide (t.Root.Hash = twoFiles.Root.Hash)) = some false := by
  decide!

/-- C5. A file path `d1/.../dk/f` with at least one directory segment, in a tree where the
directory `dk`, if it exists, holds no entry other than `f`: after `AddNode(p, content)`
and `RemoveNode(p)` the key path of `dk` reaches no node, and no node other than the root is
a directory without children (so an ancestor left without children is gone as well). -/
theorem emptied_directory_is_pruned (ord₁ ord₂ : RangeOrder) (t : Tree) (path : String)
    (content : List Nat) (hwf : t.WF) (hk : 2 ≤ (SplitPath path).length)
    (hlast : (SplitPath path).getLast? ≠ some "")
    (honly : ∀ d, nodeAt t.Root (SplitPath path).dropLast = some d →
      ∀ e ∈ d.Children, some e.1 = (SplitPath path).getLast?) :
    nodeAt (RemoveNode ord₂ (AddNode ord₁ t path (some content)) path).Root
        (SplitPath path).dropLast = none
      ∧ ∀ q n, q ≠ [] →
          nodeAt (RemoveNode ord₂ (AddNode ord₁ t path (some content)) path).Root q = some n →
          n.IsDir = true → n.Children ≠ [] := by
  have hsegs := segsOk_SplitPath path
  have hne := segsOk_ne_empty hsegs hlast
  have hwf1 := WF_AddNode ord₁ t path (some content) hwf
  have hwf2 : wfNode (removeSegments (SplitPath path)
      (AddNode ord₁ t path (some content)).Root) = true := wfNode_removeSegments _ _ hwf1.2
  obtain ⟨leaf, _, hleaf, _, _, _⟩ := nodeAt_AddNode_self ord₁ t path content hwf hlast
  obtain ⟨dk, f, hsplit⟩ : ∃ dk f, SplitPath path = dk ++ [f] :=
    ⟨_, _, (List.dropLast_append_getLast (SplitPath_ne_nil path)).symm⟩
  have hdk : dk ≠ [] := by
    intro h
    rw [hsplit, h] at hk
    simp at hk
  have hl : (dk ++ [f]).getLast? = some f := by simp
  rw [hsplit] at hsegs hne hleaf hwf2 honly ⊢
  simp only [List.dropLast_concat, hl, Option.some.injEq] at honly ⊢
  constructor
  · -- the directory is left empty by the removal and does not survive the hash pass
    cases hfin : nodeAt (RemoveNode ord₂ (AddNode ord₁ t path (some content)) path).Root dk with
    | none => rfl
    | some n' =>
      exfalso
      unfold RemoveNode CalculateDirectoryHashes at hfin
      simp only [hsplit] at hfin
      obtain ⟨m, hm, _, hs⟩ := nodeAt_calculateNodeHash_inv ord₂ hwf2 hfin
      have hsv := hs hdk
      rw [nodeAt_removeSegments_parent dk f _ hne (by rw [hleaf]; rfl)] at hm
      cases hd : nodeAt (AddNode ord₁ t path (some content)).Root dk with
      | none => simp [hd] at hm
      | some d =>
        simp only [hd, Option.map_some', Option.some.injEq] at hm
        obtain ⟨dk0, k, rfl⟩ : ∃ dk0 k, dk = dk0 ++ [k] :=
          ⟨dk.dropLast, dk.getLast hdk, (List.dropLast_append_getLast hdk).symm⟩
        have hkdir : nameIsDir k = true := by
          rw [List.append_assoc, List.singleton_append] at hsegs
          exact (segsOk_inner dk0 k [f] hsegs (by simp)).1
        have hddir : d.IsDir = true := by
          simp only [TreeNode.IsDir, Name_of_nodeAt_snoc hwf1.2 hd]
          exact hkdir
        -- every key of the directory after the insertion is `f`
        have hkeys : ∀ e ∈ d.Children, e.1 = f := by
          unfold AddNode CalculateDirectoryHashes at hd
          simp only [hsplit] at hd
          have hwfa : wfNode (addSegments (some content) (dk0 ++ [k] ++ [f]) t.Root) = true := by
            have := wfNode_addSegments (some content) _ _ (segsOk_SplitPath path) hwf.1 hwf.2
            rwa [hsplit] at this
          obtain ⟨D, hD, rfl, _⟩ := nodeAt_calculateNodeHash_inv ord₁ hwfa hd
          obtain ⟨d1, hd1, hch⟩ := nodeAt_addSegments_parent (some content) (dk0 ++ [k]) f
            t.Root hne
          rw [hd1, Option.some.injEq] at hD
          subst hD
          intro e he
          rw [calculateNodeHash_Children ord₁ d1 (by simpa using hddir)] at he
          obtain ⟨e0, he0, hkey⟩ := mem_keptChildren_key ord₁ he
          rw [← hkey]
          rcases hch e0 he0 with h | ⟨d0, hd0, he0'⟩
          · exact h
          · exact honly d0 hd0 e0 he0'
        have hempty : m.Children = [] := by
          rw [← hm, TreeNode.Children_setChildren]
          exact mapDelete_eq_nil f _ hkeys
        have hmdir : m.IsDir = true := by
          rw [← hm, TreeNode.IsDir_setChildren]
          exact hddir
        rw [survives_empty_dir hmdir hempty] at hsv
        cases hsv
  · intro q n hq hn hd hc
    unfold RemoveNode CalculateDirectoryHashes at hn
    simp only [hsplit] at hn
    have := not_isEmptyDir_of_nodeAt_calculateNodeHash ord₂ hwf2 hq hn
    simp [isEmptyDir, hd, hc] at this

theorem emptied_directory_is_pruned_witness :
    (NewTree "" "notes").WF ∧ 2 ≤ (SplitPath "a/b/c.md").length
      ∧ (SplitPath "a/b/c.md").getLast? ≠ some ""
      ∧ nodeAt (RemoveNode RangeOrder.stored
          (AddNode RangeOrder.stored (NewTree "" "notes") "a/b/c.md" (some bytesX))
          "a/b/c.md").Root (SplitPath "a/b/c.md").dropLast = none :=
  ⟨by decide, by decide, by decide,
    (emptied_directory_is_pruned RangeOrder.stored RangeOrder.stored (NewTree "" "notes")
      "a/b/c.md" bytesX (by decide) (by decide) (by decide)
      (fun d hd => Option.noConfusion
        ((rfl : nodeAt (NewTree "" "notes").Root (SplitPath "a/b/c.md").dropLast = none).symm.trans
          hd))).1⟩

/-- C6 (convergence from an empty server tree) fails on the code: the diff of the two-file
client tree against the empty server tree is one `Added` per file, every handler reads and
upserts successfully, and the server tree they leave has a root hash different from that
of the tree freshly built from the same two files. -/
theorem converged_server_root_hash_differs :
    CompareAndBuildDiff twoFiles (NewTree "" "notes")
        = [⟨DiffType.Added, "notes/a.md"⟩, ⟨DiffType.Added, "notes/b.md"⟩]
      ∧ ((CompareAndBuildDiff twoFiles (NewTree "" "notes")).foldl
          (handleDiff RangeOrder.reversed twoFilesOutside) (NewTree "" "notes")).Root.Hash
        ≠ (buildFrom RangeOrder.stored "notes" [("a.md", bytesX), ("b.md", bytesY)]).Root.Hash := by
  decide!

/-- C7. Two well-formed trees without empty directories (every tree left by `AddNode` or
`RemoveNode` is one) that hold the same file paths: every diff between them is a
`Modified`, and a path is sent exactly when it is the path of a file whose two hashes
differ, once; when no hash differs the diff is empty. -/
theorem diff_of_trees_with_same_files (t₁ t₂ : Tree) (h₁ : t₁.WF) (h₂ : t₂.WF)
    (hp₁ : prunedNode t₁.Root = true) (hp₂ : prunedNode t₂.Root = true)
    (hsame : ∀ q, fileAt t₁ q ↔ fileAt t₂ q) :
    (∀ d, d ∈ CompareAndBuildDiff t₂ t₁ ↔
        d.Kind = DiffType.Modified ∧ ∃ q n₂ n₁, d.Path = t₂.Root.Name ++ joinKeys q
          ∧ nodeAt t₂.Root q = some n₂ ∧ nodeAt t₁.Root q = some n₁
          ∧ n₂.IsDir = false ∧ n₁.IsDir = false ∧ n₂.Hash ≠ n₁.Hash)
      ∧ ((CompareAndBuildDiff t₂ t₁).map TreeDiff.Path).Nodup
      ∧ ((∀ q n₂ n₁, nodeAt t₂.Root q = some n₂ → nodeAt t₁.Root q = some n₁ →
            n₂.IsDir = false → n₂.Hash = n₁.Hash) → CompareAndBuildDiff t₂ t₁ = []) := by
  have hsome₂₁ := dirs_of_same_files t₁ t₂ h₂ hp₂ (fun q => (hsame q).2)
  have hsome₁₂ := dirs_of_same_files t₂ t₁ h₁ hp₁ (fun q => (hsame q).1)
  have hdirs : dirsWithin t₂.Root t₁.Root = true :=
    dirsWithin_of_forall t₂.Root t₁.Root h₂.2 h₁.2
      (fun q d _ hd _ => hsome₂₁ q (by rw [hd]; rfl))
  have hiff := mem_diffKeys_iff t₂.Root t₁.Root h₂.2 h₁.2 hdirs
  have hmain : ∀ d, d ∈ CompareAndBuildDiff t₂ t₁ ↔
      d.Kind = DiffType.Modified ∧ ∃ q n₂ n₁, d.Path = t₂.Root.Name ++ joinKeys q
        ∧ nodeAt t₂.Root q = some n₂ ∧ nodeAt t₁.Root q = some n₁
        ∧ n₂.IsDir = false ∧ n₁.IsDir = false ∧ n₂.Hash ≠ n₁.Hash := by
    intro d
    rw [CompareAndBuildDiff_eq_map, List.mem_map]
    constructor
    · rintro ⟨⟨ty, q⟩, hx, rfl⟩
      obtain ⟨hq, hcases⟩ := (hiff ty q).1 hx
      rcases hcases with ⟨rfl, ⟨n, hn, hfile⟩, hnone⟩ | ⟨rfl, n₂, n₁, hn₂, hn₁, hfile, hh⟩
        | ⟨rfl, hnone, hsome, _⟩
      · exfalso
        have := hsome₂₁ q (by rw [hn]; rfl)
        rw [hnone] at this
        cases this
      · refine ⟨rfl, q, n₂, n₁, rfl, hn₂, hn₁, hfile, ?_, hh⟩
        rw [← same_kind_at h₂.2 h₁.2 hq hn₂ hn₁]
        exact hfile
      · exfalso
        have := hsome₁₂ q hsome
        rw [hnone] at this
        cases this
    · rintro ⟨hk, q, n₂, n₁, hpath, hn₂, hn₁, hfile, _, hh⟩
      have hq : q ≠ [] := fun hq => root_not_file t₂ h₂ (hq ▸ ⟨n₂, hn₂, hfile⟩)
      refine ⟨(DiffType.Modified, q),
        (hiff _ q).2 ⟨hq, Or.inr (Or.inl ⟨rfl, n₂, n₁, hn₂, hn₁, hfile, hh⟩)⟩, ?_⟩
      cases d with
      | mk kind path =>
        simp only at hpath hk
        simp [toDiff, hpath, hk]
  refine ⟨hmain, diff_paths_nodup t₂ t₁ h₂ h₁, fun hall => ?_⟩
  rw [List.eq_nil_iff_forall_not_mem]
  intro d hd
  obtain ⟨_, q, n₂, n₁, _, hn₂, hn₁, hfile, _, hh⟩ := (hmain d).1 hd
  exact hh (hall q n₂ n₁ hn₂ hn₁ hfile)

theorem diff_of_trees_with_same_files_witness :
    twoFiles.WF ∧ (AddNode RangeOrder.stored twoFiles "a.md" (some bytesY)).WF
      ∧ prunedNode twoFiles.Root = true
      ∧ prunedNode (AddNode RangeOrder.stored twoFiles "a.md" (some bytesY)).Root = true
      ∧ (∀ q, fileAt twoFiles q
          ↔ fileAt (AddNode RangeOrder.stored twoFiles "a.md" (some bytesY)) q)
      ∧ ((CompareAndBuildDiff (AddNode RangeOrder.stored twoFiles "a.md" (some bytesY))
          twoFiles).map TreeDiff.Path).Nodup :=
  have hsame : ∀ q, fileAt twoFiles q
      ↔ fileAt (AddNode RangeOrder.stored twoFiles "a.md" (some bytesY)) q := fun q =>
    (fileAt_AddNode_iff RangeOrder.stored twoFiles "a.md" bytesY (by decide!) (by decide) q).trans
      ⟨fun h => h.elim id (fun hq => hq ▸ ⟨_, rfl, rfl⟩), Or.inl⟩ |>.symm
  ⟨by decide!, by decide!, by decide!, by decide!, hsame,
    (diff_of_trees_with_same_files twoFiles
      (AddNode RangeOrder.stored twoFiles "a.md" (some bytesY))
      (by decide!) (by decide!) (by decide!) (by decide!) hsame).2.1⟩

/-- C8. In one `CompareAndBuildDiff` pass over two well-formed trees (every tree built by
`AddNode` and `RemoveNode` is one) no path string is sent twice, be it under one kind or
under two. -/
theorem diff_sends_each_path_once (t other : Tree) (ht : t.WF) (ho : other.WF) :
    ((CompareAndBuildDiff t other).map TreeDiff.Path).Nodup
      ∧ ∀ d₁ ∈ CompareAndBuildDiff t other, ∀ d₂ ∈ CompareAndBuildDiff t other,
          d₁.Path = d₂.Path → d₁.Kind = d₂.Kind := by
  have hnd := diff_paths_nodup t other ht ho
  refine ⟨hnd, fun d₁ h₁ d₂ h₂ hp => ?_⟩
  have := List.inj_on_of_nodup_map hnd h₁ h₂ hp
  rw [this]

theorem diff_sends_each_path_once_witness :
    twoFiles.WF ∧ nested.WF
      ∧ ((CompareAndBuildDiff twoFiles nested).map TreeDiff.Path).Nodup :=
  ⟨by decide!, by decide!, (diff_sends_each_path_once twoFiles nested (by decide!) (by decide!)).1⟩

/-- C9 (removal detaches the node) fails on the code for a directory written with its
trailing separator: the path "a/b/" splits into "a/", "b/" and an empty last segment,
the walk reaches the directory "b/", and after `RemoveNode("a/b/")`, also when it is called
through the `Removed` handler, the directory and the file under it are still there. -/
theorem RemoveNode_keeps_directory :
    SplitPath "a/b/" = ["a/", "b/", ""]
      ∧ (nodeAt nested.Root ["a/", "b/"]).isSome = true
      ∧ (nodeAt (RemoveNode RangeOrder.stored nested "a/b/").Root ["a/", "b/"]).isSome = true
      ∧ (nodeAt (RemoveNode RangeOrder.stored nested "a/b/").Root ["a/", "b/", "c.md"]).isSome
          = true
      ∧ (nodeAt (handleFileRemove RangeOrder.stored nested "notes/a/b/").Root
          ["a/", "b/"]).isSome = true := by
  decide!

/-- C10. `AddNode` with a present content on a path whose last segment is not empty: the
node reached by the segments of the path is a leaf with hash `CalculateHash(content)`, every
proper non-empty initial part of the segments reaches a directory, and every file node the
tree held at another key path is still there, unchanged. -/
theorem AddNode_leaf_and_frame (ord : RangeOrder) (t : Tree) (path : String)
    (content : List Nat) (hwf : t.WF) (hlast : (SplitPath path).getLast? ≠ some "") :
    (∃ leaf, nodeAt (AddNode ord t path (some content)).Root (SplitPath path) = some leaf
        ∧ leaf.IsDir = false ∧ leaf.Children = [] ∧ leaf.Hash = CalculateHash content)
      ∧ (∀ q r, SplitPath path = q ++ r → q ≠ [] → r ≠ [] →
          ∃ d, nodeAt (AddNode ord t path (some content)).Root q = some d ∧ d.IsDir = true)
      ∧ (∀ q n, q ≠ SplitPath path → nodeAt t.Root q = some n → n.IsDir = false →
          nodeAt (AddNode ord t path (some content)).Root q = some n) := by
  have hsegs := segsOk_SplitPath path
  have hne := segsOk_ne_empty hsegs hlast
  have hwf1 : wfNode (addSegments (some content) (SplitPath path) t.Root) = true :=
    wfNode_addSegments _ _ _ hsegs hwf.1 hwf.2
  obtain ⟨leaf, hleaf, hleaf', hfile, hch, hhash⟩ := nodeAt_AddNode_self ord t path content hwf hlast
  have hcalc : ∀ q m, nodeAt (addSegments (some content) (SplitPath path) t.Root) q = some m →
      survives m = true →
      nodeAt (AddNode ord t path (some content)).Root q = some (calculateNodeHash ord m) :=
    fun q m hm hs => nodeAt_AddNode_of_survives ord t path _ hwf hm hs
  refine ⟨⟨leaf, hleaf', hfile, hch, hhash⟩, ?_, ?_⟩
  · intro q r hqr hq hr
    rw [hqr, nodeAt_append] at hleaf
    cases hd : nodeAt (addSegments (some content) (q ++ r) t.Root) q with
    | none => simp [hd] at hleaf
    | some d =>
      simp only [hd, Option.some_bind] at hleaf
      rw [hqr] at hcalc hwf1 hsegs
      refine ⟨_, hcalc q d hd (survives_of_nodeAt hleaf (survives_of_file hfile)), ?_⟩
      rw [calculateNodeHash_IsDir]
      obtain ⟨q0, k, rfl⟩ : ∃ q0 k, q = q0 ++ [k] :=
        ⟨q.dropLast, q.getLast hq, (List.dropLast_append_getLast hq).symm⟩
      simp only [TreeNode.IsDir, Name_of_nodeAt_snoc hwf1 hd]
      rw [List.append_assoc, List.singleton_append] at hsegs
      exact (segsOk_inner q0 k r hsegs hr).1
  · intro q n hq hn hfn
    exact nodeAt_AddNode_frame ord t path _ hwf hlast hq hn hfn

theorem AddNode_leaf_and_frame_witness :
    (NewTree "" "notes").WF ∧ (SplitPath "a/b.md").getLast? ≠ some ""
      ∧ (∃ leaf, nodeAt (AddNode RangeOrder.stored (NewTree "" "notes") "a/b.md"
            (some bytesX)).Root (SplitPath "a/b.md") = some leaf
          ∧ leaf.IsDir = false ∧ leaf.Children = [] ∧ leaf.Hash = CalculateHash bytesX) :=
  ⟨by decide, by decide,
    (AddNode_leaf_and_frame RangeOrder.stored (NewTree "" "notes") "a/b.md" bytesX
      (by decide) (by decide)).1⟩

/-- C11. For a diff of kind `Added` or `Modified`: when reading the file fails or the upsert
returns an error, `handleFileAdd`, and `handleDiff` with it, leave the server tree as it
was, so the diff of any client tree against it is the one it was before; and when the tree
`handleDiff` leaves is another one than before, the file was read, the upsert succeeded,
and the tree is the one `AddNode` makes with the content read. -/
theorem failed_upload_leaves_server_tree (ord : RangeOrder) (w : Outside)
    (serverTree clientTree : Tree) (diff : TreeDiff)
    (hkind : diff.Kind = DiffType.Added ∨ diff.Kind = DiffType.Modified) :
    (w.readFile diff.Path = none ∨ w.upsertOk diff.Path = false →
        handleFileAdd ord w serverTree diff.Path = serverTree
          ∧ handleDiff ord w serverTree diff = serverTree
          ∧ CompareAndBuildDiff clientTree (handleDiff ord w serverTree diff)
              = CompareAndBuildDiff clientTree serverTree)
      ∧ (handleDiff ord w serverTree diff ≠ serverTree →
          ∃ content, w.readFile diff.Path = some content ∧ w.upsertOk diff.Path = true
            ∧ handleDiff ord w serverTree diff
                = AddNode ord serverTree (getRelativePath serverTree diff.Path) (some content)) := by
  have hd : handleDiff ord w serverTree diff = handleFileAdd ord w serverTree diff.Path := by
    unfold handleDiff
    rcases hkind with h | h <;> rw [h]
  have hfail : w.readFile diff.Path = none ∨ w.upsertOk diff.Path = false →
      handleFileAdd ord w serverTree diff.Path = serverTree := by
    intro h
    unfold handleFileAdd
    rcases h with h | h
    · rw [h]
    · cases w.readFile diff.Path with
      | none => rfl
      | some content => simp [h]
  refine ⟨fun h => ⟨hfail h, hd.trans (hfail h), by rw [hd, hfail h]⟩, fun hne => ?_⟩
  rw [hd] at hne ⊢
  cases hr : w.readFile diff.Path with
  | none => exact absurd (hfail (Or.inl hr)) hne
  | some content =>
    cases hu : w.upsertOk diff.Path with
    | false => exact absurd (hfail (Or.inr hu)) hne
    | true =>
      refine ⟨content, rfl, rfl, ?_⟩
      unfold handleFileAdd
      simp [hr, hu]

theorem failed_upload_leaves_server_tree_witness :
    failingStore.upsertOk "notes/a.md" = false
      ∧ CompareAndBuildDiff twoFiles
          (handleDiff RangeOrder.stored failingStore (NewTree "" "notes")
            ⟨DiffType.Added, "notes/a.md"⟩)
        = CompareAndBuildDiff twoFiles (NewTree "" "notes") :=
  ⟨rfl,
    ((failed_upload_leaves_server_tree RangeOrder.stored failingStore (NewTree "" "notes")
      twoFiles ⟨DiffType.Added, "notes/a.md"⟩ (Or.inl rfl)).1 (Or.inr rfl)).2.2⟩

/-- C12 as the code has it. For a snapshot file that is missing or that has no entry under
the root name, `LoadTreeFromJSON` returns no error and leaves the root with the name it
had, the empty hash and no children; for a file that is no valid JSON it returns the error
of `json.Unmarshal` and leaves the tree as it was. The server tree of `main`, which comes
from `NewTree` and whose load error `main` does not read, is the empty tree in the three
cases. -/
theorem bad_snapshot_is_empty_or_error (ord : RangeOrder) (t : Tree) (file : SnapshotFile)
    (hbad : file = SnapshotFile.missing ∨ file = SnapshotFile.malformed
      ∨ ∃ jsonData, file = SnapshotFile.parsed jsonData ∧ mapGet t.Root.Name jsonData = none) :
    (file ≠ SnapshotFile.malformed →
        LoadTreeFromJSON ord t file = .ok ⟨NewTreeNode "" t.Root.Name⟩
          ∧ (treeAfterLoad ord t file).Root.Name = t.Root.Name
          ∧ (treeAfterLoad ord t file).Root.Hash = ""
          ∧ (treeAfterLoad ord t file).Root.Children = [])
      ∧ (file = SnapshotFile.malformed →
          (∃ err, LoadTreeFromJSON ord t file = .error err) ∧ treeAfterLoad ord t file = t)
      ∧ (∀ notesDir, t = NewTree "" notesDir →
          mainServerTree ord notesDir file = NewTree "" notesDir
            ∧ (mainServerTree ord notesDir file).Root.Children = []) := by
  have hempty : ∀ notesDir : String,
      (⟨NewTreeNode "" (NewTree "" notesDir).Root.Name⟩ : Tree) = NewTree "" notesDir := by
    intro notesDir
    simp [NewTree, NewTreeNode]
  have hchildren : ∀ notesDir : String, (NewTree "" notesDir).Root.Children = [] := by
    intro notesDir
    simp [NewTree, NewTreeNode]
  rcases hbad with h | h | ⟨jsonData, h, hg⟩
  · subst h
    refine ⟨fun _ => ⟨rfl, ?_, ?_, ?_⟩, (fun h => by cases h), fun notesDir ht => ?_⟩
    · simp [treeAfterLoad, LoadTreeFromJSON, NewTreeNode]
    · simp [treeAfterLoad, LoadTreeFromJSON, NewTreeNode]
    · simp [treeAfterLoad, LoadTreeFromJSON, NewTreeNode]
    · subst ht
      have e : mainServerTree ord notesDir SnapshotFile.missing = NewTree "" notesDir := by
        simp [mainServerTree, treeAfterLoad, LoadTreeFromJSON, hempty]
      rw [e]
      exact ⟨rfl, hchildren notesDir⟩
  · subst h
    refine ⟨fun hne => absurd rfl hne, fun _ => ⟨⟨_, rfl⟩, rfl⟩, fun notesDir ht => ?_⟩
    exact ⟨rfl, hchildren notesDir⟩
  · subst h
    have hload : LoadTreeFromJSON ord t (SnapshotFile.parsed jsonData)
        = .ok ⟨NewTreeNode "" t.Root.Name⟩ := by
      simp [LoadTreeFromJSON, hg]
    refine ⟨fun _ => ⟨hload, ?_, ?_, ?_⟩, (fun h => by cases h), fun notesDir ht => ?_⟩
    · simp [treeAfterLoad, hload, NewTreeNode]
    · simp [treeAfterLoad, hload, NewTreeNode]
    · simp [treeAfterLoad, hload, NewTreeNode]
    · subst ht
      have e : mainServerTree ord notesDir (SnapshotFile.parsed jsonData)
          = NewTree "" notesDir := by
        simp [mainServerTree, treeAfterLoad, hload, hempty]
      rw [e]
      exact ⟨rfl, hchildren notesDir⟩

theorem bad_snapshot_is_empty_or_error_witness :
    mapGet (NewTree "" "journal").Root.Name (snapshotOf twoFiles) = none
      ∧ mainServerTree RangeOrder.stored "journal" (SnapshotFile.parsed (snapshotOf twoFiles))
        = NewTree "" "journal" :=
  ⟨rfl,
    ((bad_snapshot_is_empty_or_error RangeOrder.stored (NewTree "" "journal")
      (SnapshotFile.parsed (snapshotOf twoFiles))
      (Or.inr (Or.inr ⟨_, rfl, rfl⟩))).2.2 "journal" rfl).1⟩

/-- C12 fails on the code as stated. For a file that is no valid JSON `LoadTreeFromJSON`
returns an error, and it does not empty the tree: called on the tree of "a.md" and "b.md"
it leaves the two children where they were. -/
theorem malformed_snapshot_returns_error :
    (LoadTreeFromJSON RangeOrder.stored twoFiles SnapshotFile.malformed).toBool = false
      ∧ (treeAfterLoad RangeOrder.stored twoFiles SnapshotFile.malformed).Root.Children.map
          Prod.fst = ["a.md", "b.md"] := by
  decide!

/-- C14 (rule 1) fails on the code. `current` holds "new/c.md", `other` holds "c.md" with
the same content and "d.md": the directory "new/" is under the root of `current` and not
under the root of `other`, the file "new/c.md" is a leaf beneath it, yet no `Added` is sent
for it and a `Removed` is sent for "new/d.md", a path beneath the directory; with another
content in "new/c.md" the leaf is sent as `Modified`. The recursion into the directory is
made against the node of `other` the loop is at, so the leaves are looked up among the
entries `other` has at that level. -/
theorem new_directory_leaf_is_not_added :
    (mapGet "new/" underNewDirectory.Root.Children).isSome = true
      ∧ (mapGet "new/" flatServer.Root.Children).isNone = true
      ∧ (fileHashAt underNewDirectory.Root ["new/", "c.md"]).isSome = true
      ∧ CompareAndBuildDiff underNewDirectory flatServer
          = [⟨DiffType.Removed, "notes/new/d.md"⟩, ⟨DiffType.Removed, "notes/c.md"⟩,
             ⟨DiffType.Removed, "notes/d.md"⟩]
      ∧ CompareAndBuildDiff (buildFrom RangeOrder.stored "notes" [("new/c.md", bytesY)])
            flatServer
          = [⟨DiffType.Modified, "notes/new/c.md"⟩, ⟨DiffType.Removed, "notes/new/d.md"⟩,
             ⟨DiffType.Removed, "notes/c.md"⟩, ⟨DiffType.Removed, "notes/d.md"⟩] := by
  decide!

/-- C15 as the code has it. In the diff of two well-formed trees (every tree built by
`AddNode` and `RemoveNode` is one), for two nodes met at the same key path and a name that
is under the node of `other` and not under the node of `current`: exactly one `Removed` is
sent for the entry of that name, be it a file or a directory, no diff of another kind is
sent for its path, and when it is a directory no diff is sent for a path beneath it. -/
theorem missing_entry_is_one_Removed (t other : Tree) (ht : t.WF) (ho : other.WF)
    (q : List String) (name : String) (currentNode otherNode otherChild : TreeNode)
    (hcur : nodeAt t.Root q = some currentNode) (hoth : nodeAt other.Root q = some otherNode)
    (hchild : mapGet name otherNode.Children = some otherChild)
    (hnone : mapGet name currentNode.Children = none) :
    (CompareAndBuildDiff t other).count
        ⟨DiffType.Removed, t.Root.Name ++ joinKeys (q ++ [name])⟩ = 1
      ∧ (∀ d ∈ CompareAndBuildDiff t other,
          d.Path = t.Root.Name ++ joinKeys (q ++ [name]) → d.Kind = DiffType.Removed)
      ∧ (otherChild.IsDir = true → ∀ d ∈ CompareAndBuildDiff t other, ∀ s : String,
          s ≠ "" → d.Path ≠ t.Root.Name ++ joinKeys (q ++ [name]) ++ s) := by
  have hnd := diff_paths_nodup t other ht ho
  have hmemK : (DiffType.Removed, q ++ [name]) ∈ diffKeys t.Root other.Root := by
    apply diffKeys_of_paired ht.2 ho.2 hcur hoth (DiffType.Removed, [name])
    rw [mem_diffKeys]
    exact Or.inr (mem_removedKeys.2 ⟨(name, otherChild), mem_of_mapGet hchild, hnone, rfl⟩)
  have hmem : (⟨DiffType.Removed, t.Root.Name ++ joinKeys (q ++ [name])⟩ : TreeDiff)
      ∈ CompareAndBuildDiff t other := by
    rw [CompareAndBuildDiff_eq_map, List.mem_map]
    exact ⟨_, hmemK, rfl⟩
  refine ⟨List.count_eq_one_of_mem (List.Nodup.of_map _ hnd) hmem, fun d hd hp => ?_,
    fun hdir d hd s hs hp => ?_⟩
  · rw [List.inj_on_of_nodup_map hnd hd hmem hp]
  · rw [CompareAndBuildDiff_eq_map, List.mem_map] at hd
    obtain ⟨⟨ty, r⟩, hr, rfl⟩ := hd
    have hok : keyPathOk r = true := diffKeys_keyPathOk t.Root other.Root ht.2 ho.2 _ hr
    have hchildAt : nodeAt other.Root (q ++ [name]) = some otherChild := by
      rw [nodeAt_append, hoth]
      simp [nodeAt_cons, hchild]
    have hkeys := dirKeys_of_nodeAt ho.2 hchildAt hdir
    have hdata : (joinKeys r).data = (joinKeys (q ++ [name])).data ++ s.data := by
      have := congrArg String.data hp
      simp only [toDiff, String.data_append, List.append_assoc] at this
      exact List.append_cancel_left this
    obtain ⟨r', hr', hrr⟩ := keys_of_longer_path hkeys hok (fun h => hs (String.ext h)) hdata
    rw [hrr, List.append_assoc, List.singleton_append] at hr
    obtain ⟨n, hn, hsome⟩ := diffKeys_walks_current t.Root other.Root ht.2 ty q name r' hr' hr
    rw [hcur, Option.some.injEq] at hn
    rw [← hn, hnone] at hsome
    cases hsome

theorem missing_entry_is_one_Removed_witness :
    flatClient.WF ∧ withOldDirectory.WF
      ∧ (CompareAndBuildDiff flatClient withOldDirectory).count
          ⟨DiffType.Removed, flatClient.Root.Name ++ joinKeys ([] ++ ["old/"])⟩ = 1 := by
  refine ⟨by decide!, by decide!, ?_⟩
  cases hchild : mapGet "old/" withOldDirectory.Root.Children with
  | none =>
    have hsome : (mapGet "old/" withOldDirectory.Root.Children).isSome = true := by decide!
    rw [hchild] at hsome
    cases hsome
  | some otherChild =>
    exact (missing_entry_is_one_Removed flatClient withOldDirectory (by decide!) (by decide!)
      [] "old/" flatClient.Root withOldDirectory.Root otherChild (nodeAt_nil _) (nodeAt_nil _)
      hchild (Option.isNone_iff_eq_none.1 (by decide!))).1

/-- C15 fails on the code as stated. `other` holds "a/b/c.md" and `current` is empty: the
directory "a/" is under the root of `other` and not under the root of `current`, the file
"a/b/c.md" is a leaf beneath it, yet no `Removed` is sent for the leaf; the one diff is a
`Removed` for the directory itself. -/
theorem removed_directory_sends_no_leaf :
    (mapGet "a/" nested.Root.Children).isSome = true
      ∧ (mapGet "a/" (NewTree "" "notes").Root.Children).isNone = true
      ∧ (fileHashAt nested.Root ["a/", "b/", "c.md"]).isSome = true
      ∧ (⟨DiffType.Removed, "notes/a/b/c.md"⟩ : TreeDiff)
          ∉ CompareAndBuildDiff (NewTree "" "notes") nested
      ∧ CompareAndBuildDiff (NewTree "" "notes") nested
          = [⟨DiffType.Removed, "notes/a/"⟩] := by
  decide!

/-- C16 (rule 4) fails on the code. In one tree "todo" is a file, in the other it is a
directory holding "item.md", both trees built by `AddNode`: the file is kept under the key
"todo" and the directory under the key "todo/", the lookup by key finds neither under the
other, and in both directions the diff sends an `Added` and a `Removed` and no `Modified`. -/
theorem type_change_is_added_and_removed :
    (fileHashAt todoFile.Root ["todo"]).isSome = true
      ∧ (nodeAt todoDirectory.Root ["todo/"]).map TreeNode.IsDir = some true
      ∧ CompareAndBuildDiff todoFile todoDirectory
          = [⟨DiffType.Added, "notes/todo"⟩, ⟨DiffType.Removed, "notes/todo/"⟩]
      ∧ CompareAndBuildDiff todoDirectory todoFile
          = [⟨DiffType.Added, "notes/todo/item.md"⟩, ⟨DiffType.Removed, "notes/todo/todo"⟩,
             ⟨DiffType.Removed, "notes/todo"⟩] := by
  decide!

end VectorSync
